import Mathlib

/-!
Huffman encoder / decoder: embedding and verified properties.

A shallow embedding of the three programs of the repository
(`encode-sequential`, `encode-parallel`, `decode`) and theorems about them.

Conventions of the embedding:

* a `char` / `unsigned char` holding an input symbol or a byte of the binary
  file is a `Byte` (`Fin 256`);
* a `std::string` of text (the bit string of `'0'`/`'1'` characters, the JSON
  text) is a `List Char`;
* an `int` is an `Int`; every arithmetic result that is stored in an `int`
  goes through `wrapInt` (two's complement, 32 bits);
* an `unordered_map` is an association list with pairwise distinct keys; the
  order of the list is the iteration order of the map;
* a `HuffmanNode*` that may be null is an `Option HuffmanNode`; every node is
  built by one of the two constructors of `HuffmanNode`, which are the two
  constructors of the inductive type;
* a function that throws, or that returns a non-zero status, returns
  `Except.error`.
-/

namespace Huffman

/-! ## Data model -/

/-- One byte: an input symbol, or one byte of the encoded binary file. -/
abbrev Byte := Fin 256

/-- The value an `int` holds after an arithmetic result `x` is stored in it
(32-bit two's complement). -/
def wrapInt (x : Int) : Int := (x + 2147483648) % 4294967296 - 2147483648

/-- The cast `static_cast<char>(x)` for an `int` `x`: the low eight bits. -/
def toChar (x : Int) : Byte := ⟨(x % 256).toNat, by omega⟩

/-- The `struct HuffmanNode`.  `leaf ch freq` is `HuffmanNode(char, int)`
(`left = right = nullptr`); `internal freq l r` is a node made by
`HuffmanNode(HuffmanNode*, HuffmanNode*)` (`ch = '\0'`, both children set). -/
inductive HuffmanNode where
  | leaf (ch : Byte) (freq : Int) : HuffmanNode
  | internal (freq : Int) (left right : HuffmanNode) : HuffmanNode
  deriving DecidableEq, Repr

namespace HuffmanNode

/-- Field `ch`. -/
def ch : HuffmanNode → Byte
  | leaf c _ => c
  | internal _ _ _ => 0

/-- Field `freq`. -/
def freq : HuffmanNode → Int
  | leaf _ f => f
  | internal f _ _ => f

/-- Field `left` (`none` is `nullptr`). -/
def left : HuffmanNode → Option HuffmanNode
  | leaf _ _ => none
  | internal _ l _ => some l

/-- Field `right` (`none` is `nullptr`). -/
def right : HuffmanNode → Option HuffmanNode
  | leaf _ _ => none
  | internal _ _ r => some r

/-- The test `!node->left && !node->right`. -/
def isLeaf (n : HuffmanNode) : Bool := n.left.isNone && n.right.isNone

/-- The internal-node constructor `HuffmanNode(l, r)`: `freq(l->freq + r->freq)`. -/
def mkInternal (l r : HuffmanNode) : HuffmanNode :=
  internal (wrapInt (l.freq + r.freq)) l r

end HuffmanNode

/-- The type `unordered_map<char, int>`. -/
abbrev FreqMap := List (Byte × Int)

/-- The type `unordered_map<char, std::string>`. -/
abbrev CodeTable := List (Byte × List Char)

/-! ## encode-sequential/main.cpp: frequency count -/

/-- The statement `freqMap[c]++`: a missing key is first inserted with value 0. -/
def incrFreq : FreqMap → Byte → FreqMap
  | [], c => [(c, wrapInt (0 + 1))]
  | (k, v) :: rest, c =>
    if k = c then (k, wrapInt (v + 1)) :: rest else (k, v) :: incrFreq rest c

/-- The function `buildFrequencyMap(content)`. -/
def buildFrequencyMap (content : List Byte) : FreqMap :=
  content.foldl incrFreq []

/-- Value stored under key `c`, if any (`find`). -/
def lookupFreq (m : FreqMap) (c : Byte) : Option Int :=
  (m.find? (fun p => p.1 = c)).map Prod.snd

/-! ## encode-sequential/huffman.cpp: tree construction -/

/-- The comparison `NodeCompare::operator()`: `lhs->freq > rhs->freq`. -/
def NodeCompare (lhs rhs : HuffmanNode) : Bool := decide (lhs.freq > rhs.freq)

/-- Positions of the queue whose node may be on top: no node of the queue compares
below it, that is, its frequency is the smallest. -/
def minPositions (pq : List HuffmanNode) : List Nat :=
  (List.range pq.length).filter (fun i =>
    match pq.get? i with
    | none => false
    | some x => pq.all (fun y => !NodeCompare x y))

/-- The pair `pq.top(); pq.pop();` on a `priority_queue` ordered by `NodeCompare`
(`lhs->freq > rhs->freq`, smallest frequency on top).  The queue is the list
of its elements.  Which node of smallest frequency is on top is decided by
`tie` (the heap layout is not part of the contract of `priority_queue`).
Returns the node and the queue after the `pop`; `none` on an empty queue. -/
def popMin (tie : List HuffmanNode → Nat) (pq : List HuffmanNode) :
    Option (HuffmanNode × List HuffmanNode) :=
  let cands := minPositions pq
  let i := cands.getD (tie pq % cands.length) 0
  match pq.get? i with
  | none => none
  | some n => some (n, pq.eraseIdx i)

/-- The loop `while (pq.size() > 1) { left = top, pop; right = top, pop; push(new HuffmanNode(left, right)); }`.
Each round shortens the queue by one, so `fuel = pq.size()` rounds suffice. -/
def buildLoop (tie : List HuffmanNode → Nat) : Nat → List HuffmanNode → List HuffmanNode
  | 0, pq => pq
  | fuel + 1, pq =>
    if pq.length > 1 then
      match popMin tie pq with
      | none => pq
      | some (l, pq1) =>
        match popMin tie pq1 with
        | none => pq1
        | some (r, pq2) => buildLoop tie fuel (HuffmanNode.mkInternal l r :: pq2)
    else pq

/-- The first loop of `buildHuffmanTree`: one leaf per entry of the map, pushed
in the iteration order of the map. -/
def pushLeaves (freqMap : FreqMap) : List HuffmanNode :=
  freqMap.foldl (fun pq pair => HuffmanNode.leaf pair.1 pair.2 :: pq) []

/-- The function `buildHuffmanTree(freqMap)` of huffman.cpp.  The final `pq.top()` on an empty
queue has no defined result in C++; the caller tests the result against
`nullptr`, and the embedding returns `none` there. -/
def buildHuffmanTree (tie : List HuffmanNode → Nat) (freqMap : FreqMap) : Option HuffmanNode :=
  let pq := pushLeaves freqMap
  (buildLoop tie pq.length pq).head?

/-! ## encode-sequential/huffman.cpp: code generation -/

/-- The assignment `codes[c] = code`. -/
def setCode : CodeTable → Byte → List Char → CodeTable
  | [], c, code => [(c, code)]
  | (k, v) :: rest, c, code =>
    if k = c then (k, code) :: rest else (k, v) :: setCode rest c code

/-- The function `generateCodes(root, prefix, codes)`; the result is the table after the call. -/
def generateCodes : HuffmanNode → List Char → CodeTable → CodeTable
  | HuffmanNode.leaf c _, pre, codes => setCode codes c pre
  | HuffmanNode.internal _ l r, pre, codes =>
    generateCodes r (pre ++ ['1']) (generateCodes l (pre ++ ['0']) codes)

/-- The table entry of `c`, if there is one (`codes.find(c)`). -/
def findCode (codes : CodeTable) (c : Byte) : Option (List Char) :=
  (codes.find? (fun p => p.1 = c)).map Prod.snd

/-- The value of the expression `codes[c]`: a missing key reads as the empty string. -/
def lookupCode (codes : CodeTable) (c : Byte) : List Char :=
  (findCode codes c).getD []

/-! ## encode-sequential/huffman.cpp: tree serialization -/

/-- Decimal digits of `n` in front of `acc`, most significant first. -/
def natToDecAux : Nat → Nat → List Char → List Char
  | 0, _, acc => acc
  | fuel + 1, n, acc =>
    if n / 10 = 0 then Char.ofNat (48 + n % 10) :: acc
    else natToDecAux fuel (n / 10) (Char.ofNat (48 + n % 10) :: acc)

/-- Decimal text of a natural number. -/
def natToDec (n : Nat) : List Char := natToDecAux (n + 1) n []

/-- Text written by `os << x` for an `int` `x`. -/
def intToDec (x : Int) : List Char :=
  if x < 0 then '-' :: natToDec x.natAbs else natToDec x.natAbs

/-- The function `writeNodeJson(node, os)`; the stream is the text written so far. -/
def writeNodeJson : HuffmanNode → List Char → List Char
  | HuffmanNode.leaf c f, os =>
    os ++ "\x7b\"ch\":".toList ++ intToDec (c.val : Int) ++ ",\"freq\":".toList ++ intToDec f ++ "\x7d".toList
  | HuffmanNode.internal f l r, os =>
    let os1 := os ++ "\x7b\"freq\":".toList ++ intToDec f ++ ",\"left\":".toList
    let os2 := writeNodeJson l os1
    let os3 := os2 ++ ",\"right\":".toList
    let os4 := writeNodeJson r os3
    os4 ++ "\x7d".toList

/-- The function `writeTreeJson(root, os)`. -/
def writeTreeJson (root : HuffmanNode) (os : List Char) : List Char :=
  writeNodeJson root os

/-! ## encode-sequential/main.cpp: bit packing and `main` -/

/-- The eight bytes of a `uint64_t` as they lie in memory (least significant
byte first, the layout of the machines the program is built for; encoder and
decoder use the same one). -/
def u64ToBytes (n : Nat) : List Byte :=
  (List.range 8).map (fun i => Fin.ofNat (n / 256 ^ i))

/-- The loop of `writeEncodedBits` over the characters of the bit string, with the
state `currentByte`, `bitCount` and the bytes written so far. -/
def packLoop : List Char → Nat → Nat → List Byte → Nat × Nat × List Byte
  | [], currentByte, bitCount, out => (currentByte, bitCount, out)
  | c :: rest, currentByte, bitCount, out =>
    let cb1 := (currentByte <<< 1) % 256
    let cb2 := if c = '1' then cb1 ||| 1 else cb1
    let bc := bitCount + 1
    if bc = 8 then packLoop rest 0 0 (out ++ [Fin.ofNat cb2])
    else packLoop rest cb2 bc out

/-- The function `writeEncodedBits(bitString, encodedBinName)`: the content of the file
written (the 64-bit count, the full bytes, the padded last byte). -/
def writeEncodedBits (bitString : List Char) : List Byte :=
  let header := u64ToBytes (bitString.length % 2 ^ 64)
  let (currentByte, bitCount, out) := packLoop bitString 0 0 []
  if bitCount > 0 then
    header ++ out ++ [Fin.ofNat ((currentByte <<< (8 - bitCount)) % 256)]
  else header ++ out

/-- The encode loop of `main`: `for (uc : content) bitString += codes[uc];`. -/
def encodeBits (codes : CodeTable) (content : List Byte) : List Char :=
  content.foldl (fun bitString uc => bitString ++ lookupCode codes uc) []

/-- The files written by `encode-sequential`. -/
structure EncoderOutput where
  treeJson : List Char
  encodedBin : List Byte
  deriving DecidableEq, Repr

/-- The `main` of encode-sequential on the content of the input file.  `tie` is the
tie-breaking of the priority queue and `iter` the iteration order of the
frequency map.  An error is a run that exits with status 1. -/
def encodeMain (tie : List HuffmanNode → Nat) (iter : FreqMap → FreqMap)
    (content : List Byte) : Except String EncoderOutput :=
  let freqMap := buildFrequencyMap content
  match buildHuffmanTree tie (iter freqMap) with
  | none => Except.error "Error: Cannot build tree!"
  | some root =>
    let codes := generateCodes root [] []
    let treeJson := writeTreeJson root []
    let bitString := encodeBits codes content
    Except.ok ⟨treeJson, writeEncodedBits bitString⟩

/-! ## decode/huffman.cpp: the tree parser -/

/-- The C `isspace` in the default locale. -/
def isspace (c : Char) : Bool :=
  c = ' ' || c = '\t' || c = '\n' || c.toNat = 11 || c.toNat = 12 || c = '\r'

/-- The C `isdigit`. -/
def isdigit (c : Char) : Bool := 48 ≤ c.toNat && c.toNat ≤ 57

/-- The function `skipWhitespace(is)`; an input stream is the list of the characters
not yet read. -/
def skipWhitespace : List Char → List Char
  | [] => []
  | c :: rest => if isspace c then skipWhitespace rest else c :: rest

/-- The loop of `parseString` after the opening quotation mark; `result` is the
text collected so far.  Returns the string and the rest of the stream. -/
def parseStringLoop : List Char → List Char → Except String (List Char × List Char)
  | [], _ => Except.error "Something else went wrong!"
  | c :: rest, result =>
    if c = '\\' then
      match rest with
      | [] => Except.error "Unknown sequence!"
      | esc :: rest2 =>
        if esc = '"' then parseStringLoop rest2 (result ++ ['"'])
        else if esc = '\\' then parseStringLoop rest2 (result ++ ['\\'])
        else if esc = '/' then parseStringLoop rest2 (result ++ ['/'])
        else if esc = 'b' then parseStringLoop rest2 (result ++ [Char.ofNat 8])
        else if esc = 'f' then parseStringLoop rest2 (result ++ [Char.ofNat 12])
        else if esc = 'n' then parseStringLoop rest2 (result ++ ['\n'])
        else if esc = 'r' then parseStringLoop rest2 (result ++ ['\r'])
        else if esc = 't' then parseStringLoop rest2 (result ++ ['\t'])
        else Except.error "Unknown sequence!"
    else if c = '"' then Except.ok (result, rest)
    else parseStringLoop rest (result ++ [c])

/-- The function `parseString(is)`. -/
def parseString (is : List Char) : Except String (List Char × List Char) :=
  match skipWhitespace is with
  | '"' :: rest => parseStringLoop rest []
  | _ => Except.error "Expected quotation mark!"

/-- The loop of `parseInt`: `value = value * 10 + (is.get() - '0')` while the
next character is a digit. -/
def parseIntLoop : List Char → Int → Int × List Char
  | [], value => (value, [])
  | c :: rest, value =>
    if isdigit c then parseIntLoop rest (wrapInt (wrapInt (value * 10) + ((c.toNat : Int) - 48)))
    else (value, c :: rest)

/-- The function `parseInt(is)`. -/
def parseInt (is : List Char) : Except String (Int × List Char) :=
  match skipWhitespace is with
  | [] => Except.error "Expected digit!"
  | c :: rest => if isdigit c then Except.ok (parseIntLoop (c :: rest) 0) else Except.error "Expected digit!"

/-- The step `if (is.get() != c) throw runtime_error(msg);`. -/
def expectChar (c : Char) (msg : String) : List Char → Except String (List Char)
  | [] => Except.error msg
  | d :: rest => if d = c then Except.ok rest else Except.error msg

/-- The function `parseNode(is)`.  Every call reads the opening brace before it
calls itself, so a nesting depth of `fuel` calls is enough for a text of fewer
than `fuel` characters. -/
def parseNode : Nat → List Char → Except String (HuffmanNode × List Char)
  | 0, _ => Except.error "nesting deeper than the text is long"
  | fuel + 1, is0 => do
    let is1 ← expectChar '\x7b' "Need \x27\x7b\x27 at beginning!" (skipWhitespace is0)
    let (key, is2) ← parseString (skipWhitespace is1)
    let is3 ← expectChar ':' "Key/value pair must be separated by \x27:\x27" (skipWhitespace is2)
    let is4 := skipWhitespace is3
    if key = "ch".toList then
      let (chInt, is5) ← parseInt is4
      let is6 ← expectChar ',' "Character/frequency pair must be separated by \x27,\x27" (skipWhitespace is5)
      let (key2, is7) ← parseString (skipWhitespace is6)
      if key2 ≠ "freq".toList then throw "Second key should be freq!"
      let is8 ← expectChar ':' "Key/value pair must be separated by \x27:\x27" (skipWhitespace is7)
      let (freqInt, is9) ← parseInt is8
      let is10 ← expectChar '\x7d' "Need \x27\x7d\x27 at end of leaf!" (skipWhitespace is9)
      return (HuffmanNode.leaf (toChar chInt) freqInt, is10)
    else if key = "freq".toList then
      let (freqInt, is5) ← parseInt is4
      let is6 ← expectChar ',' "Frequency/left/right triple must be separated by \x27,\x27" (skipWhitespace is5)
      let (key2, is7) ← parseString (skipWhitespace is6)
      if key2 ≠ "left".toList then throw "Key should be left!"
      let is8 ← expectChar ':' "Key/value pair must be separated by \x27:\x27" (skipWhitespace is7)
      let (leftChild, is9) ← parseNode fuel is8
      let is10 ← expectChar ',' "Frequency/left/right triple must be separated by \x27,\x27" (skipWhitespace is9)
      let (key3, is11) ← parseString (skipWhitespace is10)
      if key3 ≠ "right".toList then throw "Key should be right!"
      let is12 ← expectChar ':' "Key/value pair must be separated by \x27:\x27" (skipWhitespace is11)
      let (rightChild, is13) ← parseNode fuel is12
      let is14 ← expectChar '\x7d' "Need \x27\x7d\x27 at end of node!" (skipWhitespace is13)
      return (HuffmanNode.internal freqInt leftChild rightChild, is14)
    else throw "Something went wrong!"

/-- The function `readTreeJson(is)`: the tree parsed from the start of the text. -/
def readTreeJson (is : List Char) : Except String HuffmanNode :=
  (parseNode (is.length + 1) is).map Prod.fst

/-! ## decode/main.cpp -/

/-- The value of the `uint64_t` whose bytes in memory are the first eight of `bs`. -/
def bytesToU64 (bs : List Byte) : Nat :=
  ((bs.take 8).reverse).foldl (fun acc b => acc * 256 + b.val) 0

/-- The inner loop `for (int b = 7; b >= 0 && bitsRead < totalBits; b--)` of
`readBinaryFile`; `k` is `b + 1`.  Returns `bitsRead` and `bitString`. -/
def unpackByte (byte : Byte) (totalBits : Nat) : Nat → Nat → List Char → Nat × List Char
  | 0, bitsRead, bitString => (bitsRead, bitString)
  | b + 1, bitsRead, bitString =>
    if bitsRead < totalBits then
      let bit := (byte.val >>> b) &&& 1 ≠ 0
      unpackByte byte totalBits b (bitsRead + 1) (bitString ++ [if bit then '1' else '0'])
    else (bitsRead, bitString)

/-- The outer loop `for (i = 0; i < byteBuffer.size() && bitsRead < totalBits; i++)`
of `readBinaryFile`. -/
def unpackLoop (totalBits : Nat) : List Byte → Nat → List Char → List Char
  | [], _, bitString => bitString
  | byte :: rest, bitsRead, bitString =>
    if bitsRead < totalBits then
      let (bitsRead1, bitString1) := unpackByte byte totalBits 8 bitsRead bitString
      unpackLoop totalBits rest bitsRead1 bitString1
    else bitString

/-- The value of `std::string::max_size()`: 2^62 - 1 in the library the program is built
with on a 64-bit machine. -/
def stringMaxSize : Nat := 4611686018427387903

/-- The function `readBinaryFile` on the content of the binary file: the bit string
it produces.  On a file of fewer than eight bytes the read of the header fails,
`tellg` yields -1 and `byteBuffer.resize` is asked for a size above `max_size`;
the run ends there (an error).  `alloc n` tells whether the machine grants a buffer
of `n` bytes: `byteBuffer.resize(dataBytes)` and `bitString.reserve(totalBits)` throw
`std::bad_alloc` when it does not, and `reserve` throws `std::length_error` when the
count is above `string::max_size()`.  Nothing catches these; the run ends there. -/
def readBinaryFileWith (alloc : Nat → Bool) (file : List Byte) : Except String (List Char) :=
  if file.length < 8 then Except.error "vector::resize"
  else
    let totalBits := bytesToU64 file
    let byteBuffer := file.drop 8
    if alloc byteBuffer.length = false then Except.error "std::bad_alloc"
    else if totalBits > stringMaxSize then Except.error "basic_string::reserve"
    else if alloc totalBits = false then Except.error "std::bad_alloc"
    else Except.ok (unpackLoop totalBits byteBuffer 0 [])

/-- The function `readBinaryFile` on a machine that grants every buffer it is asked
for. -/
def readBinaryFile (file : List Byte) : Except String (List Char) :=
  readBinaryFileWith (fun _ => true) file

/-- The loop of `decodeBits`: `node` is the current position (`none` is `nullptr`),
`out` the bytes written to the output file so far. -/
def decodeLoop (root : Option HuffmanNode) : List Char → Option HuffmanNode → List Byte → List Byte
  | [], _, out => out
  | bitChar :: rest, node, out =>
    match node with
    | none => out
    | some n =>
      match (if bitChar = '0' then n.left else n.right) with
      | none => decodeLoop root rest none out
      | some m =>
        if m.isLeaf then decodeLoop root rest root (out ++ [m.ch])
        else decodeLoop root rest (some m) out

/-- The function `decodeBits(outFileName, root, bitString)`: its return value and the
content of the output file. -/
def decodeBits (root : Option HuffmanNode) (bitString : List Char) : Int × List Byte :=
  (0, decodeLoop root bitString root [])

/-- The `main` of decode on the contents of the tree file and of the binary file:
the content of the output file, or an error for a run that ends with a failure. -/
def decodeMain (treeJson : List Char) (encodedBin : List Byte) : Except String (List Byte) :=
  match readTreeJson treeJson with
  | Except.error _ => Except.error "Error parsing JSON file!"
  | Except.ok root =>
    match readBinaryFile encodedBin with
    | Except.error e => Except.error e
    | Except.ok bitString =>
      let (status, out) := decodeBits (some root) bitString
      if status ≠ 0 then Except.error "decodeBits" else Except.ok out

/-- Encoder followed by decoder on the encoder's two files. -/
def roundTrip (tie : List HuffmanNode → Nat) (iter : FreqMap → FreqMap)
    (content : List Byte) : Except String (List Byte) :=
  match encodeMain tie iter content with
  | Except.error e => Except.error e
  | Except.ok out => decodeMain out.treeJson out.encodedBin

/-! ## encode-parallel/main.cpp: the parallel encode region -/

/-- The private `localBitString` of thread `tid` at the end of its share of the
loop `#pragma omp for nowait`: `owner i` is the thread that runs iteration `i`,
and a thread runs its iterations in increasing order. -/
def localBitString (codes : CodeTable) (content : List Byte) (owner : Nat → Nat) (tid : Nat) :
    List Char :=
  (content.enum.filter (fun p => owner p.1 = tid)).foldl
    (fun s p => s ++ lookupCode codes p.2) []

/-- The shared `bitString` after the parallel region: every thread appends its
private string inside `#pragma omp critical`; `arrival` lists the threads in
the order in which they enter the critical section. -/
def parallelEncodeBits (codes : CodeTable) (content : List Byte) (owner : Nat → Nat)
    (arrival : List Nat) : List Char :=
  arrival.foldl (fun bitString tid => bitString ++ localBitString codes content owner tid) []

/-! ## encode-parallel/main.cpp: the parallel frequency count -/

/-- The bytes of the iterations that thread `tid` runs in the loop
`#pragma omp for nowait` of the frequency count, in increasing order of the index;
`owner i` is the thread that runs iteration `i`. -/
def threadShare (content : List Byte) (owner : Nat → Nat) (tid : Nat) : List Byte :=
  (content.enum.filter (fun p => owner p.1 = tid)).map Prod.snd

/-- The map `threadMaps[tid]` at the end of the parallel region: the thread runs
`threadMaps[tid][c]++` for each of its iterations. -/
def threadMap (content : List Byte) (owner : Nat → Nat) (tid : Nat) : FreqMap :=
  (content.enum.filter (fun p => owner p.1 = tid)).foldl (fun m p => incrFreq m p.2) []

/-- The statement `freqMap[ch] += count`: a missing key is first inserted with value 0. -/
def addFreq : FreqMap → Byte → Int → FreqMap
  | [], c, n => [(c, wrapInt (0 + n))]
  | (k, v) :: rest, c, n =>
    if k = c then (k, wrapInt (v + n)) :: rest else (k, v) :: addFreq rest c n

/-- The merge loops `for (localMap : threadMaps) for ([ch, count] : localMap)
freqMap[ch] += count;`.  `iter` is the iteration order of a map. -/
def mergeThreadMaps (iter : FreqMap → FreqMap) (threadMaps : List FreqMap) : FreqMap :=
  threadMaps.foldl
    (fun freqMap localMap => (iter localMap).foldl (fun m e => addFreq m e.1 e.2) freqMap) []

/-- The frequency map of `encode-parallel` with `numThreads` threads: the vector
`threadMaps` holds one map per thread, merged in the order of the thread ids. -/
def parallelFrequencyMap (iter : FreqMap → FreqMap) (numThreads : Nat) (owner : Nat → Nat)
    (content : List Byte) : FreqMap :=
  mergeThreadMaps iter ((List.range numThreads).map (threadMap content owner))

/-! ## Auxiliary definitions used in the proofs -/

/-- The value of `currentByte` after the loop body of `writeEncodedBits` has run on
the characters `cs`, starting from `cb`. -/
def packState (cs : List Char) (cb : Nat) : Nat :=
  cs.foldl (fun cb c => if c = '1' then ((cb <<< 1) % 256) ||| 1 else (cb <<< 1) % 256) cb

/-- The eight characters that the inner loop of `readBinaryFile` produces from one
byte (bit 7 first). -/
def bitsOf8 (byte : Byte) : List Char :=
  (List.range 8).reverse.map (fun b => if (byte.val >>> b) &&& 1 ≠ 0 then '1' else '0')

/-- The bytes that `writeEncodedBits` writes after the header. -/
def payloadOf (bitString : List Char) : List Byte :=
  let r := packLoop bitString 0 0 []
  if r.2.1 > 0 then r.2.2 ++ [Fin.ofNat ((r.1 <<< (8 - r.2.1)) % 256)] else r.2.2

/-- Every `freq` field of the tree is a non-negative value of type `int`. -/
def HuffmanNode.freqsFit : HuffmanNode → Bool
  | HuffmanNode.leaf _ f => decide (0 ≤ f) && decide (f < 2147483648)
  | HuffmanNode.internal f l r =>
    decide (0 ≤ f) && decide (f < 2147483648) && l.freqsFit && r.freqsFit

/-- Number of edges on the longest path from the node down to a leaf. -/
def HuffmanNode.depth : HuffmanNode → Nat
  | HuffmanNode.leaf _ _ => 0
  | HuffmanNode.internal _ l r => max l.depth r.depth + 1

/-- The accumulation step of `parseInt` for one digit character. -/
def digitStep (value : Int) (c : Char) : Int :=
  wrapInt (wrapInt (value * 10) + ((c.toNat : Int) - 48))

/-- The leaves of a tree from left to right, each with the path that leads to it from
the root: '0' for a step to the left child, '1' for a step to the right child. -/
def HuffmanNode.paths : HuffmanNode → List (Byte × List Char)
  | HuffmanNode.leaf c _ => [(c, [])]
  | HuffmanNode.internal _ l r =>
    l.paths.map (fun p => (p.1, '0' :: p.2)) ++ r.paths.map (fun p => (p.1, '1' :: p.2))

/-- The symbols at the leaves of a tree, from left to right. -/
def HuffmanNode.symbols : HuffmanNode → List Byte
  | HuffmanNode.leaf c _ => [c]
  | HuffmanNode.internal _ l r => l.symbols ++ r.symbols

/-- The leaves of a tree (symbol and frequency), from left to right. -/
def HuffmanNode.leaves : HuffmanNode → List (Byte × Int)
  | HuffmanNode.leaf c f => [(c, f)]
  | HuffmanNode.internal _ l r => l.leaves ++ r.leaves

/-- The leaves of all trees of a queue. -/
def queueLeaves : List HuffmanNode → List (Byte × Int)
  | [] => []
  | t :: ts => t.leaves ++ queueLeaves ts

/-- Every node of the tree carries the sum of the frequencies of the leaves below it. -/
def HuffmanNode.sumsOk : HuffmanNode → Prop
  | HuffmanNode.leaf _ _ => True
  | HuffmanNode.internal f l r =>
    f = ((HuffmanNode.internal f l r).leaves.map Prod.snd).sum ∧ l.sumsOk ∧ r.sumsOk

/-- All bits of a sequence of bytes, eight per byte, most significant bit first. -/
def allBits : List Byte → List Char
  | [] => []
  | byte :: rest => bitsOf8 byte ++ allBits rest

/-- The number that a sequence of decimal digit characters denotes. -/
def decValue (ds : List Char) : Nat :=
  ds.foldl (fun a c => a * 10 + (c.toNat - 48)) 0

/-- In every internal node the left child has a frequency not above that of the right
child. -/
def HuffmanNode.childOrdered : HuffmanNode → Prop
  | HuffmanNode.leaf _ _ => True
  | HuffmanNode.internal _ l r => l.freq ≤ r.freq ∧ l.childOrdered ∧ r.childOrdered

/-- The frequency of every internal node is the sum of the frequencies of its two
children. -/
def HuffmanNode.childSums : HuffmanNode → Prop
  | HuffmanNode.leaf _ _ => True
  | HuffmanNode.internal f l r => f = l.freq + r.freq ∧ l.childSums ∧ r.childSums

/-! ## Whitespace in the tree text -/

/-- The text of `writeTreeJson` with whitespace inserted between the tokens: `g i` is the
text put in front of token number `i` of the whole text (brace, quoted key, colon,
comma or integer literal), `k` is the number of the first token of this node.  Returns
the text of the node and the number of the token that follows it. -/
def writeTreeJsonSpaced (g : Nat → List Char) : HuffmanNode → Nat → List Char × Nat
  | HuffmanNode.leaf c f, k =>
    (g k ++ ['\x7b'] ++ g (k + 1) ++ ['"', 'c', 'h', '"'] ++ g (k + 2) ++ [':']
      ++ g (k + 3) ++ intToDec (c.val : Int) ++ g (k + 4) ++ [',']
      ++ g (k + 5) ++ ['"', 'f', 'r', 'e', 'q', '"'] ++ g (k + 6) ++ [':']
      ++ g (k + 7) ++ intToDec f ++ g (k + 8) ++ ['\x7d'], k + 9)
  | HuffmanNode.internal f l r, k =>
    let tl := writeTreeJsonSpaced g l (k + 7)
    let tr := writeTreeJsonSpaced g r (tl.2 + 3)
    (g k ++ ['\x7b'] ++ g (k + 1) ++ ['"', 'f', 'r', 'e', 'q', '"'] ++ g (k + 2) ++ [':']
      ++ g (k + 3) ++ intToDec f ++ g (k + 4) ++ [',']
      ++ g (k + 5) ++ ['"', 'l', 'e', 'f', 't', '"'] ++ g (k + 6) ++ [':']
      ++ tl.1 ++ g tl.2 ++ [',']
      ++ g (tl.2 + 1) ++ ['"', 'r', 'i', 'g', 'h', 't', '"'] ++ g (tl.2 + 2) ++ [':']
      ++ tr.1 ++ g tr.2 ++ ['\x7d'], tr.2 + 1)

/-! ## Weighted path length -/

/-- The leaves of a tree from left to right, each as the pair of its count and its depth;
`k` is the depth of the node itself. -/
def HuffmanNode.leafDepths : HuffmanNode → Nat → List (Int × Nat)
  | HuffmanNode.leaf _ f, k => [(f, k)]
  | HuffmanNode.internal _ l r, k => l.leafDepths (k + 1) ++ r.leafDepths (k + 1)

/-- The weighted path length of a tree: the sum over the leaves of count times depth. -/
def HuffmanNode.weightedPathLength (t : HuffmanNode) : Int :=
  ((t.leafDepths 0).map (fun p => p.1 * (p.2 : Int))).sum

/-- Sum of count times depth over a collection of (count, depth) pairs. -/
def weightedSum (M : Multiset (Int × Nat)) : Int :=
  (M.map (fun p => p.1 * (p.2 : Int))).sum

/-- Every frequency of the tree is non-negative. -/
def HuffmanNode.freqsNonneg : HuffmanNode → Bool
  | HuffmanNode.leaf _ f => decide (0 ≤ f)
  | HuffmanNode.internal f l r => decide (0 ≤ f) && l.freqsNonneg && r.freqsNonneg

/-! # Theorems -/

/-! ## Frequency count -/

theorem wrapInt_of_inRange (x : Int) (h0 : -2147483648 ≤ x) (h1 : x < 2147483648) :
    wrapInt x = x := by
  unfold wrapInt; omega

theorem wrapInt_inRange (x : Int) : -2147483648 ≤ wrapInt x ∧ wrapInt x < 2147483648 := by
  unfold wrapInt; omega

theorem wrapInt_wrapInt_add (x y : Int) : wrapInt (wrapInt x + y) = wrapInt (x + y) := by
  unfold wrapInt; omega

/-- Value read under key `c`, 0 when the key is missing. -/
theorem lookupFreq_incrFreq (m : FreqMap) (a c : Byte) :
    lookupFreq (incrFreq m a) c =
      if c = a then some (wrapInt ((lookupFreq m a).getD 0 + 1)) else lookupFreq m c := by
  induction m with
  | nil =>
    by_cases h : c = a
    · simp [incrFreq, lookupFreq, h]
    · simp [incrFreq, lookupFreq, h, Ne.symm h]
  | cons p rest ih =>
    obtain ⟨k, v⟩ := p
    by_cases hk : k = a
    · subst hk
      by_cases h : c = k
      · subst h; simp [incrFreq, lookupFreq]
      · simp [incrFreq, lookupFreq, h, Ne.symm h]
    · by_cases h : c = a
      · subst h
        have := ih
        simp only [if_true] at this
        simp only [incrFreq, hk, if_false, if_true]
        simp only [lookupFreq, List.find?, hk, decide_False] at this ⊢
        exact this
      · simp only [if_neg h] at ih ⊢
        simp only [incrFreq, hk, if_false]
        by_cases hkc : k = c
        · simp [lookupFreq, hkc]
        · simp only [lookupFreq, List.find?, hkc, decide_False] at ih ⊢
          exact ih

theorem keys_incrFreq (m : FreqMap) (a : Byte) (c : Byte) :
    c ∈ (incrFreq m a).map Prod.fst ↔ c = a ∨ c ∈ m.map Prod.fst := by
  induction m with
  | nil => simp [incrFreq]
  | cons p rest ih =>
    obtain ⟨k, v⟩ := p
    by_cases hk : k = a
    · subst hk; simp [incrFreq]
    · simp only [incrFreq, hk, if_false, List.map_cons, List.mem_cons, ih]
      tauto

theorem nodup_keys_incrFreq (m : FreqMap) (a : Byte) (h : (m.map Prod.fst).Nodup) :
    ((incrFreq m a).map Prod.fst).Nodup := by
  induction m with
  | nil => simp [incrFreq]
  | cons p rest ih =>
    obtain ⟨k, v⟩ := p
    simp only [List.map_cons, List.nodup_cons] at h
    by_cases hk : k = a
    · subst hk; simpa [incrFreq] using h
    · simp only [incrFreq, hk, if_false, List.map_cons, List.nodup_cons]
      refine ⟨?_, ih h.2⟩
      rw [keys_incrFreq]
      intro hc
      rcases hc with hc | hc
      · exact hk hc
      · exact h.1 hc


theorem lookupFreq_foldl (l : List Byte) (m : FreqMap) (c : Byte) :
    lookupFreq (l.foldl incrFreq m) c =
      if l.count c = 0 then lookupFreq m c
      else some (wrapInt ((lookupFreq m c).getD 0 + (l.count c : Int))) := by
  induction l generalizing m with
  | nil => simp
  | cons a l ih =>
    rw [List.foldl_cons, ih, lookupFreq_incrFreq]
    by_cases h : c = a
    · subst h
      simp only [if_true, List.count_cons_self, Option.getD_some]
      by_cases h0 : l.count c = 0
      · simp [h0]
      · simp only [h0, if_false, Nat.succ_ne_zero, wrapInt_wrapInt_add]
        congr 2
        push_cast
        ring
    · have hne : (a == c) = false := by simpa using Ne.symm h
      simp only [if_neg h, List.count_cons, hne]
      simp

theorem keys_foldl (l : List Byte) (m : FreqMap) (c : Byte) :
    c ∈ (l.foldl incrFreq m).map Prod.fst ↔ c ∈ l ∨ c ∈ m.map Prod.fst := by
  induction l generalizing m with
  | nil => simp
  | cons a l ih =>
    rw [List.foldl_cons, ih, keys_incrFreq]
    simp only [List.mem_cons]
    tauto

theorem nodup_keys_foldl (l : List Byte) (m : FreqMap) (h : (m.map Prod.fst).Nodup) :
    ((l.foldl incrFreq m).map Prod.fst).Nodup := by
  induction l generalizing m with
  | nil => simpa using h
  | cons a l ih =>
    rw [List.foldl_cons]
    exact ih _ (nodup_keys_incrFreq m a h)

theorem lookupFreq_of_mem (m : FreqMap) (h : (m.map Prod.fst).Nodup) (k : Byte) (v : Int)
    (hm : (k, v) ∈ m) : lookupFreq m k = some v := by
  induction m with
  | nil => simp at hm
  | cons p rest ih =>
    obtain ⟨k1, v1⟩ := p
    simp only [List.map_cons, List.nodup_cons] at h
    rcases List.mem_cons.1 hm with heq | hin
    · cases heq; simp [lookupFreq]
    · have hne : k1 ≠ k := by
        intro e; subst e
        exact h.1 (List.mem_map.2 ⟨(k1, v), hin, rfl⟩)
      have := ih h.2 hin
      simp only [lookupFreq, List.find?, hne, decide_False] at this ⊢
      exact this

theorem lookupFreq_buildFrequencyMap (content : List Byte) (c : Byte) :
    lookupFreq (buildFrequencyMap content) c =
      if content.count c = 0 then none else some (wrapInt (content.count c : Int)) := by
  unfold buildFrequencyMap
  rw [lookupFreq_foldl]
  simp [lookupFreq]

theorem keys_buildFrequencyMap (content : List Byte) (c : Byte) :
    c ∈ (buildFrequencyMap content).map Prod.fst ↔ c ∈ content := by
  unfold buildFrequencyMap
  rw [keys_foldl]; simp

theorem nodup_keys_buildFrequencyMap (content : List Byte) :
    ((buildFrequencyMap content).map Prod.fst).Nodup := by
  unfold buildFrequencyMap
  exact nodup_keys_foldl _ _ (by simp)

/-- Every entry of the table holds the (wrapped) number of occurrences of its key. -/
theorem entry_buildFrequencyMap (content : List Byte) (k : Byte) (v : Int)
    (hm : (k, v) ∈ buildFrequencyMap content) :
    k ∈ content ∧ v = wrapInt (content.count k : Int) := by
  have hk : k ∈ content :=
    (keys_buildFrequencyMap content k).1 (List.mem_map.2 ⟨(k, v), hm, rfl⟩)
  have h1 := lookupFreq_of_mem _ (nodup_keys_buildFrequencyMap content) k v hm
  rw [lookupFreq_buildFrequencyMap] at h1
  have hc : content.count k ≠ 0 := by
    have := List.count_pos_iff.2 hk
    omega
  simp only [hc, if_false, Option.some.injEq] at h1
  exact ⟨hk, h1.symm⟩

theorem sum_values_buildFrequencyMap (content : List Byte)
    (h : ∀ c, content.count c < 2147483648) :
    ((buildFrequencyMap content).map Prod.snd).sum = (content.length : Int) := by
  have hval : (buildFrequencyMap content).map Prod.snd =
      ((buildFrequencyMap content).map Prod.fst).map (fun k => ((content.count k : Nat) : Int)) := by
    rw [List.map_map]
    apply List.map_congr_left
    intro p hp
    obtain ⟨k, v⟩ := p
    have := (entry_buildFrequencyMap content k v hp).2
    have hk := h k
    rw [wrapInt_of_inRange _ (by omega) (by omega)] at this
    simpa using this
  have hperm : ((buildFrequencyMap content).map Prod.fst).Perm content.dedup := by
    rw [List.perm_ext_iff_of_nodup (nodup_keys_buildFrequencyMap content) (List.nodup_dedup _)]
    intro a
    rw [keys_buildFrequencyMap, List.mem_dedup]
  rw [hval, (hperm.map _).sum_eq]
  have := List.sum_map_count_dedup_eq_length content
  have h2 : (List.map (fun k => ((content.count k : Nat) : Int)) content.dedup).sum
      = (((List.map (fun k => content.count k) content.dedup).sum : Nat) : Int) := by
    generalize content.dedup = d
    induction d with
    | nil => simp
    | cons x d ih => simp [ih]
  rw [h2, this]

/-- C10 (as stated, refuted): on the input made of 2147483648 copies of the byte 97
the table maps 97 to -2147483648, not to its number of occurrences: an `int`
cannot hold the count. -/
theorem buildFrequencyMap_count_exceeds_int :
    lookupFreq (buildFrequencyMap (List.replicate 2147483648 (97 : Byte))) 97
        = some (-2147483648) ∧
      lookupFreq (buildFrequencyMap (List.replicate 2147483648 (97 : Byte))) 97
        ≠ some (((List.replicate 2147483648 (97 : Byte)).count 97 : Nat) : Int) := by
  have h : lookupFreq (buildFrequencyMap (List.replicate 2147483648 (97 : Byte))) 97
      = some (-2147483648) := by
    rw [lookupFreq_buildFrequencyMap, List.count_replicate_self]
    rw [if_neg (by omega)]
    congr 1
  refine ⟨h, ?_⟩
  rw [h, List.count_replicate_self]
  intro hc
  injection hc with hc
  omega

/-- C10 (amended): when no byte value occurs more than 2147483647 times, the keys of
the table returned by `buildFrequencyMap` are pairwise distinct and are exactly
the byte values occurring in the input, each is mapped to its number of
occurrences, the values sum to the input length, and the table of the empty
input is empty. -/
theorem buildFrequencyMap_spec (content : List Byte)
    (h : ∀ c, content.count c < 2147483648) :
    ((buildFrequencyMap content).map Prod.fst).Nodup ∧
    (∀ c, c ∈ (buildFrequencyMap content).map Prod.fst ↔ c ∈ content) ∧
    (∀ c, c ∈ content →
      lookupFreq (buildFrequencyMap content) c = some ((content.count c : Nat) : Int)) ∧
    ((buildFrequencyMap content).map Prod.snd).sum = (content.length : Int) ∧
    (content = [] → buildFrequencyMap content = []) := by
  refine ⟨nodup_keys_buildFrequencyMap content, keys_buildFrequencyMap content, ?_,
    sum_values_buildFrequencyMap content h, ?_⟩
  · intro c hc
    rw [lookupFreq_buildFrequencyMap]
    have hpos := List.count_pos_iff.2 hc
    have hlt := h c
    rw [if_neg (by omega), wrapInt_of_inRange _ (by omega) (by omega)]
  · intro he; subst he; rfl

/-- C10 (witness): the amended statement at the input "aaab". -/
theorem buildFrequencyMap_spec_witness :
    (∀ c, ([97, 97, 97, 98] : List Byte).count c < 2147483648) ∧
    lookupFreq (buildFrequencyMap [97, 97, 97, 98]) 97 = some 3 ∧
    ((buildFrequencyMap [97, 97, 97, 98]).map Prod.snd).sum = 4 :=
  have hc : ∀ c, ([97, 97, 97, 98] : List Byte).count c < 2147483648 := fun c =>
    Nat.lt_of_le_of_lt (List.count_le_length c _) (by decide)
  ⟨hc, (buildFrequencyMap_spec [97, 97, 97, 98] hc).2.2.1 97 (by decide),
    (buildFrequencyMap_spec [97, 97, 97, 98] hc).2.2.2.1⟩

/-! ## Bit packing -/

theorem u64ToBytes_length (n : Nat) : (u64ToBytes n).length = 8 := by
  simp [u64ToBytes]

theorem bytesToU64_u64ToBytes (n : Nat) (h : n < 2 ^ 64) (rest : List Byte) :
    bytesToU64 (u64ToBytes n ++ rest) = n := by
  have h8 : (u64ToBytes n ++ rest).take 8 = u64ToBytes n := by
    rw [List.take_append_of_le_length (by simp [u64ToBytes])]
    exact List.take_of_length_le (by simp [u64ToBytes])
  unfold bytesToU64
  rw [h8]
  simp only [u64ToBytes, List.range, List.range.loop, List.map, List.reverse_cons,
    List.reverse_nil, List.nil_append, List.cons_append, List.foldl, Fin.ofNat]
  norm_num
  omega

theorem packLoop_out (bits : List Char) (cb bc : Nat) (out : List Byte) :
    packLoop bits cb bc out =
      ((packLoop bits cb bc []).1, (packLoop bits cb bc []).2.1,
        out ++ (packLoop bits cb bc []).2.2) := by
  induction bits generalizing cb bc out with
  | nil => simp [packLoop]
  | cons c rest ih =>
    simp only [packLoop]
    split
    · rw [ih _ _ (out ++ _), ih _ _ ([] ++ _)]
      simp
    · rw [ih]

theorem packLoop_short (cs : List Char) (cb bc : Nat) (out : List Byte)
    (h : bc + cs.length < 8) :
    packLoop cs cb bc out = (packState cs cb, bc + cs.length, out) := by
  induction cs generalizing cb bc with
  | nil => simp [packLoop, packState]
  | cons c rest ih =>
    simp only [List.length_cons] at h
    simp only [packLoop]
    rw [if_neg (by omega), ih _ _ (by omega)]
    simp only [packState, List.foldl_cons, List.length_cons]
    split <;> simp <;> omega

theorem packLoop_chunk (cs rest : List Char) (cb bc : Nat) (out : List Byte)
    (hne : cs ≠ []) (h : bc + cs.length = 8) :
    packLoop (cs ++ rest) cb bc out =
      packLoop rest 0 0 (out ++ [Fin.ofNat (packState cs cb)]) := by
  induction cs generalizing cb bc with
  | nil => exact absurd rfl hne
  | cons c cs ih =>
    simp only [List.length_cons] at h
    simp only [List.cons_append, packLoop]
    by_cases hcs : cs = []
    · subst hcs
      simp only [List.length_nil] at h
      rw [if_pos (by omega)]
      simp only [List.nil_append, packState, List.foldl_cons, List.foldl_nil]
      split <;> rfl
    · have hpos : 0 < cs.length := List.length_pos.2 hcs
      rw [if_neg (by omega)]
      have := ih (if c = '1' then cb <<< 1 % 256 ||| 1 else cb <<< 1 % 256) (bc + 1) hcs
        (by omega)
      simp only [List.append_eq] at this ⊢
      rw [this]
      simp only [packState, List.foldl_cons]

theorem payloadOf_nil : payloadOf [] = [] := by
  simp [payloadOf, packLoop]

theorem payloadOf_short (cs : List Char) (hne : cs ≠ []) (h : cs.length < 8) :
    payloadOf cs = [Fin.ofNat ((packState cs 0 <<< (8 - cs.length)) % 256)] := by
  have hpos : 0 < cs.length := List.length_pos.2 hne
  simp only [payloadOf]
  rw [packLoop_short cs 0 0 [] (by omega)]
  simp [hpos]

theorem payloadOf_chunk (cs rest : List Char) (h : cs.length = 8) :
    payloadOf (cs ++ rest) = Fin.ofNat (packState cs 0) :: payloadOf rest := by
  have hne : cs ≠ [] := by
    intro e; subst e; simp at h
  simp only [payloadOf]
  rw [packLoop_chunk cs rest 0 0 [] hne (by omega), packLoop_out]
  simp only [List.nil_append]
  split <;> simp

theorem writeEncodedBits_eq (bits : List Char) :
    writeEncodedBits bits = u64ToBytes (bits.length % 2 ^ 64) ++ payloadOf bits := by
  simp only [writeEncodedBits, payloadOf]
  split <;> simp

theorem unpackByte_spec (byte : Byte) (total : Nat) (k j bitsRead : Nat) (acc : List Char)
    (hj : j ≤ k) (ht : total = bitsRead + j) :
    unpackByte byte total k bitsRead acc =
      (total, acc ++ (((List.range k).reverse.map
        (fun b => if (byte.val >>> b) &&& 1 ≠ 0 then '1' else '0')).take j)) := by
  induction k generalizing j bitsRead acc with
  | zero =>
    have : j = 0 := by omega
    subst this
    simp [unpackByte, ht]
  | succ b ih =>
    cases j with
    | zero => simp [unpackByte, ht]
    | succ j =>
      simp only [unpackByte]
      rw [if_pos (by omega), ih j (bitsRead + 1) _ (by omega) (by omega)]
      simp [List.range_succ]

theorem unpackLoop_done (total : Nat) (bytes : List Byte) (bitsRead : Nat) (acc : List Char)
    (h : total ≤ bitsRead) : unpackLoop total bytes bitsRead acc = acc := by
  cases bytes with
  | nil => simp [unpackLoop]
  | cons b rest =>
    simp only [unpackLoop]
    rw [if_neg (by omega)]

theorem unpackLoop_step (total : Nat) (byte : Byte) (rest : List Byte) (bitsRead : Nat)
    (acc : List Char) (h : bitsRead + 8 ≤ total) :
    unpackLoop total (byte :: rest) bitsRead acc =
      unpackLoop total rest (bitsRead + 8) (acc ++ bitsOf8 byte) := by
  simp only [unpackLoop]
  rw [if_pos (by omega)]
  have h1 := unpackByte_spec byte (bitsRead + 8) 8 8 bitsRead acc (le_refl _) rfl
  have h2 : unpackByte byte total 8 bitsRead acc = unpackByte byte (bitsRead + 8) 8 bitsRead acc := by
    simp only [unpackByte]
    simp only [show bitsRead < total from by omega, show bitsRead + 1 < total from by omega,
      show bitsRead + 1 + 1 < total from by omega,
      show bitsRead + 1 + 1 + 1 < total from by omega,
      show bitsRead + 1 + 1 + 1 + 1 < total from by omega,
      show bitsRead + 1 + 1 + 1 + 1 + 1 < total from by omega,
      show bitsRead + 1 + 1 + 1 + 1 + 1 + 1 < total from by omega,
      show bitsRead + 1 + 1 + 1 + 1 + 1 + 1 + 1 < total from by omega, if_true]
    simp
  rw [h2, h1, List.take_of_length_le (by simp)]
  rfl

theorem unpackLoop_last (total : Nat) (byte : Byte) (rest : List Byte) (bitsRead j : Nat)
    (acc : List Char) (hj : j ≤ 8) (ht : total = bitsRead + j) :
    unpackLoop total (byte :: rest) bitsRead acc = acc ++ (bitsOf8 byte).take j := by
  cases j with
  | zero => rw [unpackLoop_done _ _ _ _ (by omega)]; simp
  | succ j =>
    simp only [unpackLoop]
    rw [if_pos (by omega), unpackByte_spec byte total 8 (j + 1) bitsRead acc hj ht]
    simp only
    rw [unpackLoop_done _ _ _ _ (le_refl _)]
    rfl

theorem bitsOf8_packState (cs : List Char) (h : cs.length = 8)
    (hb : ∀ c ∈ cs, c = '0' ∨ c = '1') :
    bitsOf8 (Fin.ofNat (packState cs 0)) = cs := by
  rcases cs with _ | ⟨c0, _ | ⟨c1, _ | ⟨c2, _ | ⟨c3, _ | ⟨c4, _ | ⟨c5, _ | ⟨c6, _ | ⟨c7, _ | ⟨c8, cs⟩⟩⟩⟩⟩⟩⟩⟩⟩ <;>
    simp only [List.length_cons, List.length_nil] at h <;> try omega
  simp only [List.mem_cons, List.mem_singleton, forall_eq_or_imp, forall_eq, List.not_mem_nil,
    false_implies, implies_true, and_true] at hb
  obtain ⟨h0, h1, h2, h3, h4, h5, h6, h7⟩ := hb
  rcases h0 with rfl | rfl <;> rcases h1 with rfl | rfl <;> rcases h2 with rfl | rfl <;>
    rcases h3 with rfl | rfl <;> rcases h4 with rfl | rfl <;> rcases h5 with rfl | rfl <;>
    rcases h6 with rfl | rfl <;> rcases h7 with rfl | rfl <;> rfl

theorem bitsOf8_packState_partial (cs : List Char) (h : cs.length < 8)
    (hb : ∀ c ∈ cs, c = '0' ∨ c = '1') :
    (bitsOf8 (Fin.ofNat ((packState cs 0 <<< (8 - cs.length)) % 256))).take cs.length = cs := by
  rcases cs with _ | ⟨c0, _ | ⟨c1, _ | ⟨c2, _ | ⟨c3, _ | ⟨c4, _ | ⟨c5, _ | ⟨c6, _ | ⟨c7, cs⟩⟩⟩⟩⟩⟩⟩⟩ <;>
    simp only [List.length_cons, List.length_nil] at h <;> try omega
  · rfl
  · simp only [List.mem_singleton, forall_eq] at hb
    rcases hb with rfl | rfl <;> rfl
  · simp only [List.mem_cons, List.mem_singleton, forall_eq_or_imp, forall_eq] at hb
    obtain ⟨h0, h1⟩ := hb
    rcases h0 with rfl | rfl <;> rcases h1 with rfl | rfl <;> rfl
  · simp only [List.mem_cons, List.mem_singleton, forall_eq_or_imp, forall_eq] at hb
    obtain ⟨h0, h1, h2⟩ := hb
    rcases h0 with rfl | rfl <;> rcases h1 with rfl | rfl <;> rcases h2 with rfl | rfl <;> rfl
  · simp only [List.mem_cons, List.mem_singleton, forall_eq_or_imp, forall_eq] at hb
    obtain ⟨h0, h1, h2, h3⟩ := hb
    rcases h0 with rfl | rfl <;> rcases h1 with rfl | rfl <;> rcases h2 with rfl | rfl <;>
      rcases h3 with rfl | rfl <;> rfl
  · simp only [List.mem_cons, List.mem_singleton, forall_eq_or_imp, forall_eq] at hb
    obtain ⟨h0, h1, h2, h3, h4⟩ := hb
    rcases h0 with rfl | rfl <;> rcases h1 with rfl | rfl <;> rcases h2 with rfl | rfl <;>
      rcases h3 with rfl | rfl <;> rcases h4 with rfl | rfl <;> rfl
  · simp only [List.mem_cons, List.mem_singleton, forall_eq_or_imp, forall_eq] at hb
    obtain ⟨h0, h1, h2, h3, h4, h5⟩ := hb
    rcases h0 with rfl | rfl <;> rcases h1 with rfl | rfl <;> rcases h2 with rfl | rfl <;>
      rcases h3 with rfl | rfl <;> rcases h4 with rfl | rfl <;> rcases h5 with rfl | rfl <;> rfl
  · simp only [List.mem_cons, List.mem_singleton, forall_eq_or_imp, forall_eq] at hb
    obtain ⟨h0, h1, h2, h3, h4, h5, h6⟩ := hb
    rcases h0 with rfl | rfl <;> rcases h1 with rfl | rfl <;> rcases h2 with rfl | rfl <;>
      rcases h3 with rfl | rfl <;> rcases h4 with rfl | rfl <;> rcases h5 with rfl | rfl <;>
      rcases h6 with rfl | rfl <;> rfl

theorem unpackLoop_payloadOf (n : Nat) : ∀ (bits : List Char), bits.length = n →
    (∀ c ∈ bits, c = '0' ∨ c = '1') → ∀ (total bitsRead : Nat) (acc : List Char),
    total = bitsRead + bits.length →
    unpackLoop total (payloadOf bits) bitsRead acc = acc ++ bits := by
  induction n using Nat.strong_induction_on with
  | _ n ih =>
    intro bits hn hb total bitsRead acc ht
    by_cases h8 : bits.length < 8
    · by_cases hne : bits = []
      · subst hne
        simp [payloadOf_nil, unpackLoop]
      · rw [payloadOf_short bits hne h8,
          unpackLoop_last total _ [] bitsRead bits.length acc (by omega) ht,
          bitsOf8_packState_partial bits h8 hb]
    · have hsplit : bits = bits.take 8 ++ bits.drop 8 := (List.take_append_drop 8 bits).symm
      have hl8 : (bits.take 8).length = 8 := by
        rw [List.length_take]; omega
      have hbt : ∀ c ∈ bits.take 8, c = '0' ∨ c = '1' := fun c hc =>
        hb c (List.mem_of_mem_take hc)
      have hbd : ∀ c ∈ bits.drop 8, c = '0' ∨ c = '1' := fun c hc =>
        hb c (List.mem_of_mem_drop hc)
      have hld : (bits.drop 8).length = bits.length - 8 := List.length_drop 8 bits
      have key : unpackLoop total (payloadOf (bits.take 8 ++ bits.drop 8)) bitsRead acc
          = acc ++ (bits.take 8 ++ bits.drop 8) := by
        rw [payloadOf_chunk _ _ hl8, unpackLoop_step total _ _ bitsRead acc (by omega),
          bitsOf8_packState _ hl8 hbt,
          ih (bits.drop 8).length (by omega) (bits.drop 8) rfl hbd total (bitsRead + 8) _
            (by omega)]
        simp
      rw [← hsplit] at key
      exact key

theorem stringMaxSize_lt : stringMaxSize < 2 ^ 64 := by
  unfold stringMaxSize
  norm_num

theorem readBinaryFile_payload (bitString : List Char)
    (hbits : ∀ c ∈ bitString, c = '0' ∨ c = '1') (hlen : bitString.length ≤ stringMaxSize) :
    readBinaryFile (writeEncodedBits bitString) = Except.ok bitString := by
  have hlen64 : bitString.length < 2 ^ 64 := lt_of_le_of_lt hlen stringMaxSize_lt
  rw [writeEncodedBits_eq]
  unfold readBinaryFile readBinaryFileWith
  rw [if_neg (by simp [u64ToBytes_length])]
  simp only
  rw [Nat.mod_eq_of_lt hlen64, bytesToU64_u64ToBytes _ hlen64, if_neg (by simp),
    if_neg (by omega), if_neg (by simp), List.drop_left' (u64ToBytes_length _),
    unpackLoop_payloadOf bitString.length bitString rfl hbits bitString.length 0 [] (by simp)]
  simp

/-- C4: for every string of '0'/'1' characters (of a length that a `std::string` can have,
that is at most `string::max_size()`), `readBinaryFile` applied to the file written by
`writeEncodedBits` succeeds and yields exactly the original string, hence of
exactly the original length. -/
theorem readBinaryFile_writeEncodedBits (bitString : List Char)
    (hbits : ∀ c ∈ bitString, c = '0' ∨ c = '1') (hlen : bitString.length ≤ stringMaxSize) :
    ∃ out, readBinaryFile (writeEncodedBits bitString) = Except.ok out ∧
      out = bitString ∧ out.length = bitString.length :=
  ⟨bitString, readBinaryFile_payload bitString hbits hlen, rfl, rfl⟩

/-- C4 (witness): a bit string of length 13. -/
theorem readBinaryFile_writeEncodedBits_witness :
    ∃ out, readBinaryFile (writeEncodedBits
        ['0', '1', '1', '0', '1', '0', '0', '1', '0', '1', '1', '0', '1']) = Except.ok out ∧
      out = ['0', '1', '1', '0', '1', '0', '0', '1', '0', '1', '1', '0', '1'] ∧
      out.length = 13 :=
  readBinaryFile_writeEncodedBits
    ['0', '1', '1', '0', '1', '0', '0', '1', '0', '1', '1', '0', '1'] (by decide) (by decide)

/-! ## Tree serialization -/

theorem digit_toNat (k : Nat) (h : k < 10) : (Char.ofNat (48 + k)).toNat = 48 + k := by
  interval_cases k <;> rfl

theorem digit_isdigit (k : Nat) (h : k < 10) : isdigit (Char.ofNat (48 + k)) = true := by
  interval_cases k <;> rfl

theorem natToDecAux_eq (n : Nat) : ∀ (fuel : Nat) (acc : List Char), n < fuel →
    natToDecAux fuel n acc = natToDec n ++ acc := by
  induction n using Nat.strong_induction_on with
  | _ n ih =>
    intro fuel acc hf
    cases fuel with
    | zero => omega
    | succ fuel =>
      unfold natToDec
      simp only [natToDecAux]
      by_cases h0 : n / 10 = 0
      · simp [h0]
      · simp only [h0, if_false]
        have hlt : n / 10 < n := by omega
        rw [ih (n / 10) hlt fuel _ (by omega), ih (n / 10) hlt n _ hlt]
        simp

theorem natToDec_eq (n : Nat) :
    natToDec n = if n < 10 then [Char.ofNat (48 + n)]
      else natToDec (n / 10) ++ [Char.ofNat (48 + n % 10)] := by
  conv_lhs => unfold natToDec
  simp only [natToDecAux]
  by_cases h : n < 10
  · have h0 : n / 10 = 0 := by omega
    have hm : n % 10 = n := by omega
    simp [h, h0, hm]
  · have h0 : ¬ n / 10 = 0 := by omega
    simp only [h0, h, if_false]
    rw [natToDecAux_eq (n / 10) n _ (by omega)]

theorem natToDec_digits (n : Nat) : ∀ c ∈ natToDec n, isdigit c = true := by
  induction n using Nat.strong_induction_on with
  | _ n ih =>
    intro c hc
    rw [natToDec_eq] at hc
    by_cases h : n < 10
    · simp only [h, if_true, List.mem_singleton] at hc
      subst hc
      exact digit_isdigit n h
    · simp only [h, if_false, List.mem_append, List.mem_singleton] at hc
      rcases hc with hc | hc
      · exact ih (n / 10) (by omega) c hc
      · subst hc
        exact digit_isdigit _ (by omega)

theorem natToDec_ne_nil (n : Nat) : natToDec n ≠ [] := by
  rw [natToDec_eq]
  split <;> simp

theorem foldl_digitStep_natToDec (n : Nat) (h : n < 2147483648) :
    (natToDec n).foldl digitStep 0 = (n : Int) := by
  induction n using Nat.strong_induction_on with
  | _ n ih =>
    rw [natToDec_eq]
    by_cases h10 : n < 10
    · simp only [h10, if_true, List.foldl_cons, List.foldl_nil, digitStep, digit_toNat n h10]
      unfold wrapInt
      push_cast
      omega
    · simp only [h10, if_false, List.foldl_append, List.foldl_cons, List.foldl_nil]
      rw [ih (n / 10) (by omega) (by omega)]
      simp only [digitStep, digit_toNat (n % 10) (by omega)]
      unfold wrapInt
      push_cast
      omega

theorem parseIntLoop_append (ds rest : List Char) (value : Int)
    (hd : ∀ c ∈ ds, isdigit c = true) :
    parseIntLoop (ds ++ rest) value = parseIntLoop rest (ds.foldl digitStep value) := by
  induction ds generalizing value with
  | nil => rfl
  | cons d ds ih =>
    have h1 : isdigit d = true := hd d (List.mem_cons_self _ _)
    simp only [List.cons_append, parseIntLoop, h1, if_true, List.foldl_cons, List.append_eq]
    rw [ih _ (fun c hc => hd c (List.mem_cons_of_mem _ hc))]
    rfl

theorem skipWhitespace_of_not_isspace (c : Char) (rest : List Char) (h : isspace c = false) :
    skipWhitespace (c :: rest) = c :: rest := by
  simp [skipWhitespace, h]

theorem not_isspace_of_isdigit (c : Char) (h : isdigit c = true) : isspace c = false := by
  simp only [isdigit, Bool.and_eq_true, decide_eq_true_eq] at h
  have h1 : c ≠ ' ' := by rintro rfl; revert h; decide
  have h2 : c ≠ '\t' := by rintro rfl; revert h; decide
  have h3 : c ≠ '\n' := by rintro rfl; revert h; decide
  have h4 : c ≠ '\r' := by rintro rfl; revert h; decide
  simp only [isspace, h1, h2, h3, h4, decide_False, Bool.false_or, Bool.or_false,
    Bool.or_eq_false_iff, decide_eq_false_iff_not]
  omega

/-- The function `parseInt` reads back a decimal number written by the encoder when the
character after it is not a digit. -/
theorem parseInt_natToDec (n : Nat) (h : n < 2147483648) (c : Char) (rest : List Char)
    (hc : isdigit c = false) :
    parseInt (natToDec n ++ c :: rest) = Except.ok ((n : Int), c :: rest) := by
  obtain ⟨d, ds, hds⟩ := List.exists_cons_of_ne_nil (natToDec_ne_nil n)
  have hdig := natToDec_digits n
  have hd : isdigit d = true := hdig d (by rw [hds]; exact List.mem_cons_self _ _)
  unfold parseInt
  rw [hds, List.cons_append, skipWhitespace_of_not_isspace _ _ (not_isspace_of_isdigit d hd)]
  simp only [hd, if_true]
  rw [← List.cons_append, ← hds, parseIntLoop_append _ _ _ hdig,
    foldl_digitStep_natToDec n h]
  simp [parseIntLoop, hc]

theorem parseInt_intToDec (x : Int) (h0 : 0 ≤ x) (h1 : x < 2147483648) (c : Char)
    (rest : List Char) (hc : isdigit c = false) :
    parseInt (intToDec x ++ c :: rest) = Except.ok (x, c :: rest) := by
  unfold intToDec
  rw [if_neg (by omega), parseInt_natToDec _ (by omega) c rest hc]
  congr 2
  omega

theorem writeNodeJson_append (t : HuffmanNode) (os : List Char) :
    writeNodeJson t os = os ++ writeNodeJson t [] := by
  induction t generalizing os with
  | leaf c f => simp [writeNodeJson]
  | internal f l r ihl ihr =>
    simp only [writeNodeJson]
    rw [ihr (writeNodeJson l (os ++ _ ++ _ ++ _) ++ _), ihl (os ++ _ ++ _ ++ _),
      ihr (writeNodeJson l ([] ++ _ ++ _ ++ _) ++ _), ihl ([] ++ _ ++ _ ++ _)]
    simp

theorem writeNodeJson_leaf (c : Byte) (f : Int) (rest : List Char) :
    writeNodeJson (HuffmanNode.leaf c f) [] ++ rest =
      '\x7b' :: '"' :: 'c' :: 'h' :: '"' :: ':' :: (intToDec (c.val : Int) ++
        ',' :: '"' :: 'f' :: 'r' :: 'e' :: 'q' :: '"' :: ':' :: (intToDec f ++
        '\x7d' :: rest)) := by
  simp [writeNodeJson]

theorem writeNodeJson_internal (f : Int) (l r : HuffmanNode) (rest : List Char) :
    writeNodeJson (HuffmanNode.internal f l r) [] ++ rest =
      '\x7b' :: '"' :: 'f' :: 'r' :: 'e' :: 'q' :: '"' :: ':' :: (intToDec f ++
        ',' :: '"' :: 'l' :: 'e' :: 'f' :: 't' :: '"' :: ':' :: (writeNodeJson l [] ++
        ',' :: '"' :: 'r' :: 'i' :: 'g' :: 'h' :: 't' :: '"' :: ':' :: (writeNodeJson r [] ++
        '\x7d' :: rest))) := by
  simp only [writeNodeJson]
  rw [writeNodeJson_append r, writeNodeJson_append l]
  simp

theorem parseStringLoop_quote (r result : List Char) :
    parseStringLoop ('"' :: r) result = Except.ok (result, r) := by
  cases r <;> simp [parseStringLoop]

theorem parseString_ch (r : List Char) :
    parseString (skipWhitespace ('"' :: 'c' :: 'h' :: '"' :: r)) = Except.ok ("ch".toList, r) := by
  simp [parseString, skipWhitespace, isspace, parseStringLoop, parseStringLoop_quote]

theorem parseString_freq (r : List Char) :
    parseString (skipWhitespace ('"' :: 'f' :: 'r' :: 'e' :: 'q' :: '"' :: r))
      = Except.ok ("freq".toList, r) := by
  simp [parseString, skipWhitespace, isspace, parseStringLoop, parseStringLoop_quote]

theorem parseString_left (r : List Char) :
    parseString (skipWhitespace ('"' :: 'l' :: 'e' :: 'f' :: 't' :: '"' :: r))
      = Except.ok ("left".toList, r) := by
  simp [parseString, skipWhitespace, isspace, parseStringLoop, parseStringLoop_quote]

theorem parseString_right (r : List Char) :
    parseString (skipWhitespace ('"' :: 'r' :: 'i' :: 'g' :: 'h' :: 't' :: '"' :: r))
      = Except.ok ("right".toList, r) := by
  simp [parseString, skipWhitespace, isspace, parseStringLoop, parseStringLoop_quote]

theorem toChar_val (c : Byte) : toChar (c.val : Int) = c := by
  apply Fin.ext
  simp only [toChar]
  have := c.isLt
  omega

theorem skipWhitespace_intToDec (x : Int) (h0 : 0 ≤ x) (r : List Char) :
    skipWhitespace (intToDec x ++ r) = intToDec x ++ r := by
  unfold intToDec
  rw [if_neg (by omega)]
  obtain ⟨d, ds, hds⟩ := List.exists_cons_of_ne_nil (natToDec_ne_nil x.natAbs)
  have hd : isdigit d = true := natToDec_digits x.natAbs d (by rw [hds]; exact List.mem_cons_self _ _)
  rw [hds, List.cons_append, skipWhitespace_of_not_isspace _ _ (not_isspace_of_isdigit d hd)]

theorem parseNode_leaf (c : Byte) (f : Int) (h0 : 0 ≤ f) (h1 : f < 2147483648) (fuel : Nat)
    (rest : List Char) :
    parseNode (fuel + 1) (writeNodeJson (HuffmanNode.leaf c f) [] ++ rest)
      = Except.ok (HuffmanNode.leaf c f, rest) := by
  have hc1 : (c.val : Int) < 2147483648 := by have := c.isLt; omega
  rw [writeNodeJson_leaf]
  simp only [parseNode]
  rw [skipWhitespace_of_not_isspace _ _ (by decide)]
  simp only [expectChar, if_true, bind, Except.bind]
  rw [parseString_ch]
  simp only []
  rw [skipWhitespace_of_not_isspace _ _ (by decide)]
  simp only [expectChar, if_true, bind, Except.bind]
  rw [skipWhitespace_intToDec _ (by omega), parseInt_intToDec _ (by omega) hc1 _ _ (by decide)]
  simp only []
  rw [skipWhitespace_of_not_isspace _ _ (by decide)]
  simp only [if_true]
  rw [parseString_freq]
  simp only [ne_eq, not_true_eq_false, if_false, pure, Except.pure]
  rw [skipWhitespace_of_not_isspace _ _ (by decide)]
  simp only [if_true]
  rw [parseInt_intToDec _ h0 h1 _ _ (by decide)]
  simp only []
  rw [skipWhitespace_of_not_isspace _ _ (by decide)]
  simp only [if_true, toChar_val]

theorem parseNode_internal (f : Int) (l r : HuffmanNode) (h0 : 0 ≤ f) (h1 : f < 2147483648)
    (fuel : Nat) (rest : List Char)
    (ihl : ∀ rest, parseNode fuel (writeNodeJson l [] ++ rest) = Except.ok (l, rest))
    (ihr : ∀ rest, parseNode fuel (writeNodeJson r [] ++ rest) = Except.ok (r, rest)) :
    parseNode (fuel + 1) (writeNodeJson (HuffmanNode.internal f l r) [] ++ rest)
      = Except.ok (HuffmanNode.internal f l r, rest) := by
  have hne : ¬ ("freq".toList = "ch".toList) := by decide
  rw [writeNodeJson_internal]
  simp only [parseNode]
  rw [skipWhitespace_of_not_isspace _ _ (by decide)]
  simp only [expectChar, if_true, bind, Except.bind]
  rw [parseString_freq]
  simp only []
  rw [skipWhitespace_of_not_isspace _ _ (by decide)]
  simp only [expectChar, if_true, bind, Except.bind, hne, if_false]
  rw [skipWhitespace_intToDec _ h0, parseInt_intToDec _ h0 h1 _ _ (by decide)]
  simp only []
  rw [skipWhitespace_of_not_isspace _ _ (by decide)]
  simp only [if_true]
  rw [parseString_left]
  simp only [ne_eq, not_true_eq_false, if_false, pure, Except.pure]
  rw [skipWhitespace_of_not_isspace _ _ (by decide)]
  simp only [if_true]
  rw [ihl]
  simp only []
  rw [skipWhitespace_of_not_isspace _ _ (by decide)]
  simp only [if_true]
  rw [parseString_right]
  simp only [ne_eq, not_true_eq_false, if_false, pure, Except.pure]
  rw [skipWhitespace_of_not_isspace _ _ (by decide)]
  simp only [if_true]
  rw [ihr]
  simp only []
  rw [skipWhitespace_of_not_isspace _ _ (by decide)]
  simp only [if_true]

theorem parseNode_writeNodeJson (t : HuffmanNode) (ht : t.freqsFit = true) :
    ∀ (fuel : Nat) (rest : List Char), t.depth < fuel →
      parseNode fuel (writeNodeJson t [] ++ rest) = Except.ok (t, rest) := by
  induction t with
  | leaf c f =>
    intro fuel rest hf
    simp only [HuffmanNode.freqsFit, Bool.and_eq_true, decide_eq_true_eq] at ht
    cases fuel with
    | zero => simp [HuffmanNode.depth] at hf
    | succ fuel => exact parseNode_leaf c f ht.1 ht.2 fuel rest
  | internal f l r ihl ihr =>
    intro fuel rest hf
    simp only [HuffmanNode.freqsFit, Bool.and_eq_true, decide_eq_true_eq] at ht
    cases fuel with
    | zero => simp at hf
    | succ fuel =>
      simp only [HuffmanNode.depth] at hf
      exact parseNode_internal f l r ht.1.1.1 ht.1.1.2 fuel rest
        (fun rest => ihl ht.1.2 fuel rest (by omega))
        (fun rest => ihr ht.2 fuel rest (by omega))

theorem depth_lt_length_writeNodeJson (t : HuffmanNode) :
    t.depth < (writeNodeJson t []).length := by
  induction t with
  | leaf c f =>
    have := writeNodeJson_leaf c f []
    rw [List.append_nil] at this
    rw [this]
    simp [HuffmanNode.depth]
  | internal f l r ihl ihr =>
    have := writeNodeJson_internal f l r []
    rw [List.append_nil] at this
    rw [this]
    simp only [HuffmanNode.depth, List.length_cons, List.length_append]
    omega

theorem readTreeJson_writeNodeJson (t : HuffmanNode) (ht : t.freqsFit = true) :
    readTreeJson (writeTreeJson t []) = Except.ok t := by
  unfold readTreeJson writeTreeJson
  have h := parseNode_writeNodeJson t ht ((writeNodeJson t []).length + 1) []
    (Nat.lt_succ_of_lt (depth_lt_length_writeNodeJson t))
  rw [List.append_nil] at h
  rw [h]
  rfl

/-- C3: for every tree whose frequencies are non-negative `int` values (leaves carry a
symbol 0-255, internal nodes two children), `readTreeJson` applied to the text
written by `writeTreeJson` succeeds and returns the very same tree: same shape,
same frequency at every node, same symbol at every leaf. -/
theorem readTreeJson_writeTreeJson (t : HuffmanNode) (ht : t.freqsFit = true) :
    readTreeJson (writeTreeJson t []) = Except.ok t :=
  readTreeJson_writeNodeJson t ht

/-- C3 (witness): the single-leaf tree and a hand-built tree with five leaves. -/
theorem readTreeJson_writeTreeJson_witness :
    readTreeJson (writeTreeJson (HuffmanNode.leaf 97 3) []) = Except.ok (HuffmanNode.leaf 97 3) ∧
    readTreeJson (writeTreeJson
      (HuffmanNode.internal 15
        (HuffmanNode.internal 6 (HuffmanNode.leaf 97 3) (HuffmanNode.leaf 0 3))
        (HuffmanNode.internal 9 (HuffmanNode.leaf 255 4)
          (HuffmanNode.internal 5 (HuffmanNode.leaf 10 2) (HuffmanNode.leaf 200 3)))) [])
    = Except.ok
      (HuffmanNode.internal 15
        (HuffmanNode.internal 6 (HuffmanNode.leaf 97 3) (HuffmanNode.leaf 0 3))
        (HuffmanNode.internal 9 (HuffmanNode.leaf 255 4)
          (HuffmanNode.internal 5 (HuffmanNode.leaf 10 2) (HuffmanNode.leaf 200 3)))) :=
  ⟨readTreeJson_writeTreeJson _ (by decide), readTreeJson_writeTreeJson _ (by decide)⟩

/-! ## Code generation -/

theorem findCode_setCode (codes : CodeTable) (c k : Byte) (v : List Char) :
    findCode (setCode codes c v) k = if k = c then some v else findCode codes k := by
  induction codes with
  | nil =>
    by_cases h : k = c
    · simp [setCode, findCode, h]
    · simp [setCode, findCode, h, Ne.symm h]
  | cons p rest ih =>
    obtain ⟨k1, v1⟩ := p
    by_cases h1 : k1 = c
    · subst h1
      by_cases h : k = k1
      · simp [setCode, findCode, h]
      · simp [setCode, findCode, h, Ne.symm h]
    · simp only [setCode, h1, if_false]
      by_cases h2 : k1 = k
      · subst h2
        simp [findCode, h1]
      · simp only [findCode, List.find?, h2, decide_False] at ih ⊢
        exact ih

theorem symbols_eq_map_paths (t : HuffmanNode) : t.symbols = t.paths.map Prod.fst := by
  induction t with
  | leaf c f => rfl
  | internal f l r ihl ihr =>
    simp [HuffmanNode.symbols, HuffmanNode.paths, ihl, ihr, Function.comp_def]

theorem findCode_generateCodes_of_not_mem (t : HuffmanNode) (pre : List Char)
    (codes : CodeTable) (k : Byte) (hk : k ∉ t.symbols) :
    findCode (generateCodes t pre codes) k = findCode codes k := by
  induction t generalizing pre codes with
  | leaf c f =>
    simp only [HuffmanNode.symbols, List.mem_singleton] at hk
    simp [generateCodes, findCode_setCode, hk]
  | internal f l r ihl ihr =>
    simp only [HuffmanNode.symbols, List.mem_append, not_or] at hk
    simp only [generateCodes]
    rw [ihr _ _ hk.2, ihl _ _ hk.1]

/-- Every entry of the table after `generateCodes` is an entry that was there before
or the prefix followed by the path of a leaf that holds the key. -/
theorem findCode_generateCodes (t : HuffmanNode) (pre : List Char) (codes : CodeTable)
    (k : Byte) (v : List Char) (h : findCode (generateCodes t pre codes) k = some v) :
    (∃ p, (k, p) ∈ t.paths ∧ v = pre ++ p) ∨ findCode codes k = some v := by
  induction t generalizing pre codes with
  | leaf c f =>
    simp only [generateCodes, findCode_setCode] at h
    by_cases hk : k = c
    · subst hk
      simp only [if_true, Option.some.injEq] at h
      exact Or.inl ⟨[], by simp [HuffmanNode.paths], by simp [h]⟩
    · simp only [hk, if_false] at h
      exact Or.inr h
  | internal f l r ihl ihr =>
    simp only [generateCodes] at h
    rcases ihr _ _ h with ⟨p, hp, hv⟩ | h2
    · refine Or.inl ⟨'1' :: p, ?_, by simp [hv]⟩
      simp only [HuffmanNode.paths, List.mem_append, List.mem_map]
      exact Or.inr ⟨(k, p), hp, rfl⟩
    · rcases ihl _ _ h2 with ⟨p, hp, hv⟩ | h3
      · refine Or.inl ⟨'0' :: p, ?_, by simp [hv]⟩
        simp only [HuffmanNode.paths, List.mem_append, List.mem_map]
        exact Or.inl ⟨(k, p), hp, rfl⟩
      · exact Or.inr h3

/-- In a tree whose leaf symbols are pairwise distinct the table entry of a leaf
symbol is the prefix followed by the path of its leaf. -/
theorem findCode_generateCodes_of_nodup (t : HuffmanNode) (pre : List Char)
    (codes : CodeTable) (hn : t.symbols.Nodup) (k : Byte) (p : List Char)
    (hp : (k, p) ∈ t.paths) :
    findCode (generateCodes t pre codes) k = some (pre ++ p) := by
  induction t generalizing pre codes p with
  | leaf c f =>
    simp only [HuffmanNode.paths, List.mem_singleton, Prod.mk.injEq] at hp
    obtain ⟨rfl, rfl⟩ := hp
    simp [generateCodes, findCode_setCode]
  | internal f l r ihl ihr =>
    simp only [HuffmanNode.symbols] at hn
    rw [List.nodup_append] at hn
    obtain ⟨hl, hr, hdisj⟩ := hn
    simp only [HuffmanNode.paths, List.mem_append, List.mem_map] at hp
    simp only [generateCodes]
    rcases hp with ⟨⟨k1, p1⟩, hp1, heq⟩ | ⟨⟨k1, p1⟩, hp1, heq⟩
    · simp only [Prod.mk.injEq] at heq
      obtain ⟨rfl, rfl⟩ := heq
      have hkl : k1 ∈ l.symbols := by
        rw [symbols_eq_map_paths]; exact List.mem_map.2 ⟨(k1, p1), hp1, rfl⟩
      have hkr : k1 ∉ r.symbols := fun hr1 => hdisj hkl hr1
      rw [findCode_generateCodes_of_not_mem r _ _ k1 hkr, ihl _ _ hl p1 hp1]
      simp
    · simp only [Prod.mk.injEq] at heq
      obtain ⟨rfl, rfl⟩ := heq
      rw [ihr _ _ hr p1 hp1]
      simp

/-- Two leaves whose paths are in the prefix relation are the same leaf. -/
theorem paths_prefix_free (t : HuffmanNode) (a b : Byte) (pa pb : List Char)
    (ha : (a, pa) ∈ t.paths) (hb : (b, pb) ∈ t.paths) (hpre : pa <+: pb) : a = b ∧ pa = pb := by
  induction t generalizing pa pb with
  | leaf c f =>
    simp only [HuffmanNode.paths, List.mem_singleton, Prod.mk.injEq] at ha hb
    exact ⟨ha.1.trans hb.1.symm, ha.2.trans hb.2.symm⟩
  | internal f l r ihl ihr =>
    simp only [HuffmanNode.paths, List.mem_append, List.mem_map, Prod.mk.injEq] at ha hb
    rcases ha with ⟨⟨a1, qa⟩, hqa, rfl, rfl⟩ | ⟨⟨a1, qa⟩, hqa, rfl, rfl⟩ <;>
      rcases hb with ⟨⟨b1, qb⟩, hqb, rfl, rfl⟩ | ⟨⟨b1, qb⟩, hqb, rfl, rfl⟩
    · rw [List.cons_prefix_cons] at hpre
      obtain ⟨h1, h2⟩ := ihl qa qb hqa hqb hpre.2
      exact ⟨h1, by rw [h2]⟩
    · rw [List.cons_prefix_cons] at hpre
      exact absurd hpre.1 (by decide)
    · rw [List.cons_prefix_cons] at hpre
      exact absurd hpre.1 (by decide)
    · rw [List.cons_prefix_cons] at hpre
      obtain ⟨h1, h2⟩ := ihr qa qb hqa hqb hpre.2
      exact ⟨h1, by rw [h2]⟩

/-- C5: for every tree (each node a leaf or a node with two children) and every two
distinct symbols `a`, `b` of the code table produced by `generateCodes(root, "", codes)`
on an empty table, the code of `a` is not a prefix of the code of `b` and the code of
`b` is not a prefix of the code of `a`. -/
theorem generateCodes_prefix_free (root : HuffmanNode) (a b : Byte) (ca cb : List Char)
    (hab : a ≠ b)
    (ha : findCode (generateCodes root [] []) a = some ca)
    (hb : findCode (generateCodes root [] []) b = some cb) :
    ¬ ca <+: cb ∧ ¬ cb <+: ca := by
  rcases findCode_generateCodes root [] [] a ca ha with ⟨pa, hpa, hca⟩ | h
  · rcases findCode_generateCodes root [] [] b cb hb with ⟨pb, hpb, hcb⟩ | h
    · rw [List.nil_append] at hca hcb
      subst hca hcb
      exact ⟨fun hp => hab (paths_prefix_free root a b _ _ hpa hpb hp).1,
        fun hp => hab (paths_prefix_free root b a _ _ hpb hpa hp).1.symm⟩
    · simp [findCode] at h
  · simp [findCode] at h

/-- C5 (witness): the codes of the symbols 97 and 98 in a tree with three leaves. -/
theorem generateCodes_prefix_free_witness :
    findCode (generateCodes (HuffmanNode.internal 6 (HuffmanNode.leaf 97 3)
      (HuffmanNode.internal 3 (HuffmanNode.leaf 98 1) (HuffmanNode.leaf 99 2))) [] []) 97
        = some ['0'] ∧
    findCode (generateCodes (HuffmanNode.internal 6 (HuffmanNode.leaf 97 3)
      (HuffmanNode.internal 3 (HuffmanNode.leaf 98 1) (HuffmanNode.leaf 99 2))) [] []) 98
        = some ['1', '0'] ∧
    ¬ ['0'] <+: ['1', '0'] ∧ ¬ ['1', '0'] <+: ['0'] :=
  ⟨by decide, by decide, generateCodes_prefix_free
    (HuffmanNode.internal 6 (HuffmanNode.leaf 97 3)
      (HuffmanNode.internal 3 (HuffmanNode.leaf 98 1) (HuffmanNode.leaf 99 2)))
    97 98 ['0'] ['1', '0'] (by decide) (by decide) (by decide)⟩

/-! ## Decoding -/

theorem paths_leaf_mem (c0 : Byte) (f : Int) (c : Byte) (p : List Char)
    (h : (c, p) ∈ (HuffmanNode.leaf c0 f).paths) : c = c0 ∧ p = [] := by
  simpa [HuffmanNode.paths] using h

/-- Walking down the path of a leaf from an internal node writes the symbol of the leaf
and resets the position to the root. -/
theorem decodeLoop_path (root : Option HuffmanNode) (t : HuffmanNode)
    (ht : t.isLeaf = false) (c : Byte) (p : List Char) (hp : (c, p) ∈ t.paths)
    (rest : List Char) (out : List Byte) :
    decodeLoop root (p ++ rest) (some t) out = decodeLoop root rest root (out ++ [c]) := by
  induction t generalizing p out with
  | leaf c0 f => simp [HuffmanNode.isLeaf, HuffmanNode.left, HuffmanNode.right] at ht
  | internal f l r ihl ihr =>
    simp only [HuffmanNode.paths, List.mem_append, List.mem_map, Prod.mk.injEq] at hp
    rcases hp with ⟨⟨c1, q⟩, hq, rfl, rfl⟩ | ⟨⟨c1, q⟩, hq, rfl, rfl⟩
    · simp only [List.cons_append, decodeLoop, if_true, HuffmanNode.left]
      cases l with
      | leaf c0 f0 =>
        obtain ⟨rfl, rfl⟩ := paths_leaf_mem c0 f0 c1 q hq
        simp [HuffmanNode.isLeaf, HuffmanNode.left, HuffmanNode.right, HuffmanNode.ch]
      | internal f0 l0 r0 =>
        have hl : (HuffmanNode.internal f0 l0 r0).isLeaf = false := by
          simp [HuffmanNode.isLeaf, HuffmanNode.left]
        simp only [hl]
        exact ihl hl q hq out
    · have hne : ¬ ('1' = '0') := by decide
      simp only [List.cons_append, decodeLoop, hne, if_false, HuffmanNode.right]
      cases r with
      | leaf c0 f0 =>
        obtain ⟨rfl, rfl⟩ := paths_leaf_mem c0 f0 c1 q hq
        simp [HuffmanNode.isLeaf, HuffmanNode.left, HuffmanNode.right, HuffmanNode.ch]
      | internal f0 l0 r0 =>
        have hr : (HuffmanNode.internal f0 l0 r0).isLeaf = false := by
          simp [HuffmanNode.isLeaf, HuffmanNode.left]
        simp only [hr]
        exact ihr hr q hq out

theorem encodeBits_foldl (codes : CodeTable) (content : List Byte) (acc : List Char) :
    content.foldl (fun bitString uc => bitString ++ lookupCode codes uc) acc
      = acc ++ encodeBits codes content := by
  induction content generalizing acc with
  | nil => simp [encodeBits]
  | cons c cs ih =>
    unfold encodeBits
    simp only [List.foldl_cons]
    rw [ih, ih ([] ++ _)]
    simp

theorem encodeBits_cons (codes : CodeTable) (c : Byte) (cs : List Byte) :
    encodeBits codes (c :: cs) = lookupCode codes c ++ encodeBits codes cs := by
  conv_lhs => unfold encodeBits
  simp only [List.foldl_cons]
  rw [encodeBits_foldl]
  simp

theorem encodeBits_nil (codes : CodeTable) : encodeBits codes [] = [] := rfl

theorem lookupCode_generateCodes (t : HuffmanNode) (hn : t.symbols.Nodup) (c : Byte)
    (hc : c ∈ t.symbols) :
    (c, lookupCode (generateCodes t [] []) c) ∈ t.paths := by
  rw [symbols_eq_map_paths] at hc
  obtain ⟨⟨c1, p⟩, hp, rfl⟩ := List.mem_map.1 hc
  simp only [lookupCode]
  rw [findCode_generateCodes_of_nodup t [] [] hn c1 p hp]
  simpa using hp

/-- Decoding the concatenated codes of `content` (followed by `rest`) from the root of
a tree with at least two leaves writes `content` and is back at the root. -/
theorem decodeLoop_encodeBits (t : HuffmanNode) (ht : t.isLeaf = false)
    (hn : t.symbols.Nodup) (content : List Byte) (hc : ∀ c ∈ content, c ∈ t.symbols)
    (rest : List Char) (out : List Byte) :
    decodeLoop (some t) (encodeBits (generateCodes t [] []) content ++ rest) (some t) out
      = decodeLoop (some t) rest (some t) (out ++ content) := by
  induction content generalizing out with
  | nil => simp [encodeBits_nil]
  | cons c cs ih =>
    rw [encodeBits_cons, List.append_assoc,
      decodeLoop_path (some t) t ht c _
        (lookupCode_generateCodes t hn c (hc c (List.mem_cons_self _ _))),
      ih (fun x hx => hc x (List.mem_cons_of_mem _ hx))]
    simp

theorem decodeBits_encodeBits (t : HuffmanNode) (ht : t.isLeaf = false)
    (hn : t.symbols.Nodup) (content : List Byte) (hc : ∀ c ∈ content, c ∈ t.symbols) :
    decodeBits (some t) (encodeBits (generateCodes t [] []) content) = (0, content) := by
  have := decodeLoop_encodeBits t ht hn content hc [] []
  simp only [List.append_nil, List.nil_append] at this
  simp [decodeBits, this, decodeLoop]

/-! ## Tree construction -/

theorem perm_cons_eraseIdx (pq : List HuffmanNode) (i : Nat) (n : HuffmanNode)
    (h : pq.get? i = some n) : pq.Perm (n :: pq.eraseIdx i) := by
  induction pq generalizing i with
  | nil => simp at h
  | cons x xs ih =>
    cases i with
    | zero =>
      simp only [List.get?_cons_zero, Option.some.injEq] at h
      subst h
      simp
    | succ i =>
      simp only [List.get?_cons_succ] at h
      simp only [List.eraseIdx_cons_succ]
      exact ((ih i h).cons x).trans (List.Perm.swap n x _)

theorem popMin_perm (tie : List HuffmanNode → Nat) (pq : List HuffmanNode)
    (n : HuffmanNode) (rest : List HuffmanNode) (h : popMin tie pq = some (n, rest)) :
    pq.Perm (n :: rest) := by
  unfold popMin at h
  simp only at h
  split at h
  · cases h
  · rename_i m hm
    cases h
    exact perm_cons_eraseIdx _ _ _ hm

theorem minPositions_lt (pq : List HuffmanNode) (i : Nat) (h : i ∈ minPositions pq) :
    i < pq.length := by
  simp only [minPositions, List.mem_filter, List.mem_range] at h
  exact h.1

theorem popMin_isSome (tie : List HuffmanNode → Nat) (pq : List HuffmanNode) (h : pq ≠ []) :
    ∃ n rest, popMin tie pq = some (n, rest) := by
  have hpos : 0 < pq.length := List.length_pos.2 h
  have hi : (minPositions pq).getD (tie pq % (minPositions pq).length) 0 < pq.length := by
    rw [List.getD_eq_getElem?_getD]
    cases hget : (minPositions pq)[tie pq % (minPositions pq).length]? with
    | none => simpa using hpos
    | some j =>
      simp only [Option.getD_some]
      exact minPositions_lt pq j (List.getElem?_mem hget)
  unfold popMin
  simp only
  rw [List.get?_eq_get hi]
  exact ⟨_, _, rfl⟩

theorem queueLeaves_perm {pq pq2 : List HuffmanNode} (h : pq.Perm pq2) :
    (queueLeaves pq).Perm (queueLeaves pq2) := by
  induction h with
  | nil => exact List.Perm.refl _
  | cons x _ ih => exact List.Perm.append_left _ ih
  | swap x y l =>
    simp only [queueLeaves, ← List.append_assoc]
    exact List.Perm.append_right _ List.perm_append_comm
  | trans _ _ ih1 ih2 => exact ih1.trans ih2

theorem queueLeaves_pushLeaves_aux (m : FreqMap) (acc : List HuffmanNode) :
    queueLeaves (m.foldl (fun pq pair => HuffmanNode.leaf pair.1 pair.2 :: pq) acc)
      = m.reverse ++ queueLeaves acc := by
  induction m generalizing acc with
  | nil => simp
  | cons p m ih =>
    simp only [List.foldl_cons, ih, queueLeaves, HuffmanNode.leaves, List.reverse_cons]
    simp

theorem queueLeaves_pushLeaves (m : FreqMap) : queueLeaves (pushLeaves m) = m.reverse := by
  unfold pushLeaves
  rw [queueLeaves_pushLeaves_aux]
  simp [queueLeaves]

theorem pushLeaves_length_aux (m : FreqMap) (acc : List HuffmanNode) :
    (m.foldl (fun pq pair => HuffmanNode.leaf pair.1 pair.2 :: pq) acc).length
      = m.length + acc.length := by
  induction m generalizing acc with
  | nil => simp
  | cons p m ih =>
    simp only [List.foldl_cons, ih, List.length_cons]
    omega

theorem pushLeaves_length (m : FreqMap) : (pushLeaves m).length = m.length := by
  unfold pushLeaves
  rw [pushLeaves_length_aux]
  simp

theorem pushLeaves_mem_aux (m : FreqMap) (acc : List HuffmanNode) (t : HuffmanNode)
    (h : t ∈ m.foldl (fun pq pair => HuffmanNode.leaf pair.1 pair.2 :: pq) acc) :
    (∃ c f, t = HuffmanNode.leaf c f ∧ (c, f) ∈ m) ∨ t ∈ acc := by
  induction m generalizing acc with
  | nil => exact Or.inr (by simpa using h)
  | cons p m ih =>
    simp only [List.foldl_cons] at h
    rcases ih _ h with ⟨c, f, rfl, hm⟩ | hacc
    · exact Or.inl ⟨c, f, rfl, List.mem_cons_of_mem _ hm⟩
    · rcases List.mem_cons.1 hacc with rfl | hacc
      · exact Or.inl ⟨p.1, p.2, rfl, by simp⟩
      · exact Or.inr hacc

theorem pushLeaves_mem (m : FreqMap) (t : HuffmanNode) (h : t ∈ pushLeaves m) :
    ∃ c f, t = HuffmanNode.leaf c f ∧ (c, f) ∈ m := by
  rcases pushLeaves_mem_aux m [] t h with h | h
  · exact h
  · simp at h

theorem sum_snd_nonneg (l : List (Byte × Int)) (h : ∀ e ∈ l, 0 ≤ e.2) :
    0 ≤ (l.map Prod.snd).sum := by
  induction l with
  | nil => simp
  | cons e l ih =>
    simp only [List.map_cons, List.sum_cons]
    have h1 := h e (List.mem_cons_self _ _)
    have h2 := ih (fun x hx => h x (List.mem_cons_of_mem _ hx))
    omega

theorem leaves_mkInternal (l r : HuffmanNode) :
    (HuffmanNode.mkInternal l r).leaves = l.leaves ++ r.leaves := rfl

theorem freq_mkInternal (l r : HuffmanNode) :
    (HuffmanNode.mkInternal l r).freq = wrapInt (l.freq + r.freq) := rfl

theorem freqsFit_mkInternal (l r : HuffmanNode) :
    (HuffmanNode.mkInternal l r).freqsFit =
      (decide (0 ≤ wrapInt (l.freq + r.freq)) && decide (wrapInt (l.freq + r.freq) < 2147483648)
        && l.freqsFit && r.freqsFit) := rfl

theorem sumsOk_mkInternal (l r : HuffmanNode) :
    (HuffmanNode.mkInternal l r).sumsOk ↔
      ((HuffmanNode.mkInternal l r).freq = ((HuffmanNode.mkInternal l r).leaves.map Prod.snd).sum
        ∧ l.sumsOk ∧ r.sumsOk) := Iff.rfl

/-- The loop of `buildHuffmanTree` on a non-empty queue whose leaf frequencies are
non-negative and sum to `N < 2^31` ends with a single tree; no sum overflows. -/
theorem buildLoop_spec (tie : List HuffmanNode → Nat) (N : Int) (hN : N < 2147483648) :
    ∀ (fuel : Nat) (pq : List HuffmanNode), pq ≠ [] → pq.length ≤ fuel + 1 →
    (∀ t ∈ pq, t.freqsFit = true ∧ t.sumsOk ∧ t.freq = (t.leaves.map Prod.snd).sum) →
    (∀ e ∈ queueLeaves pq, 0 ≤ e.2) →
    ((queueLeaves pq).map Prod.snd).sum = N →
    ∃ root, buildLoop tie fuel pq = [root] ∧ root.leaves.Perm (queueLeaves pq) ∧
      root.freqsFit = true ∧ root.sumsOk ∧ root.freq = N := by
  intro fuel
  induction fuel with
  | zero =>
    intro pq hne hlen hall hnn hsum
    match pq, hne, hlen with
    | [t], _, _ =>
      refine ⟨t, rfl, by simp [queueLeaves], (hall t (by simp)).1, (hall t (by simp)).2.1, ?_⟩
      rw [(hall t (by simp)).2.2, ← hsum]
      simp [queueLeaves]
    | _ :: _ :: _, _, hlen => simp at hlen
  | succ fuel ih =>
    intro pq hne hlen hall hnn hsum
    by_cases h1 : pq.length > 1
    · obtain ⟨l, pq1, hp1⟩ := popMin_isSome tie pq hne
      have perm1 := popMin_perm tie pq l pq1 hp1
      have hlen1 : pq.length = pq1.length + 1 := by simpa using perm1.length_eq
      have hne1 : pq1 ≠ [] := by
        intro e; subst e; simp at hlen1; omega
      obtain ⟨r, pq2, hp2⟩ := popMin_isSome tie pq1 hne1
      have perm2 := popMin_perm tie pq1 r pq2 hp2
      have hlen2 : pq1.length = pq2.length + 1 := by simpa using perm2.length_eq
      have perm : pq.Perm (l :: r :: pq2) := perm1.trans (perm2.cons l)
      have hl := hall l (perm.mem_iff.2 (by simp))
      have hr := hall r (perm.mem_iff.2 (by simp))
      have hql : (queueLeaves pq).Perm (l.leaves ++ (r.leaves ++ queueLeaves pq2)) :=
        queueLeaves_perm perm
      have hnn2 : ∀ e ∈ queueLeaves pq2, 0 ≤ e.2 := fun e he =>
        hnn e (hql.mem_iff.2 (by simp [he]))
      have hnnl : ∀ e ∈ l.leaves, 0 ≤ e.2 := fun e he =>
        hnn e (hql.mem_iff.2 (by simp [he]))
      have hnnr : ∀ e ∈ r.leaves, 0 ≤ e.2 := fun e he =>
        hnn e (hql.mem_iff.2 (by simp [he]))
      have hs : (l.leaves.map Prod.snd).sum + ((r.leaves.map Prod.snd).sum
          + ((queueLeaves pq2).map Prod.snd).sum) = N := by
        rw [← hsum, (hql.map Prod.snd).sum_eq]
        simp
      have s0 := sum_snd_nonneg _ hnn2
      have sl := sum_snd_nonneg _ hnnl
      have sr := sum_snd_nonneg _ hnnr
      have hw : wrapInt (l.freq + r.freq) = l.freq + r.freq := by
        apply wrapInt_of_inRange <;> rw [hl.2.2, hr.2.2] <;> omega
      have hnew : ∀ t ∈ HuffmanNode.mkInternal l r :: pq2,
          t.freqsFit = true ∧ t.sumsOk ∧ t.freq = (t.leaves.map Prod.snd).sum := by
        intro t ht
        rcases List.mem_cons.1 ht with rfl | ht
        · have hf : (HuffmanNode.mkInternal l r).freq
              = ((HuffmanNode.mkInternal l r).leaves.map Prod.snd).sum := by
            rw [freq_mkInternal, leaves_mkInternal, hw, List.map_append, List.sum_append,
              hl.2.2, hr.2.2]
          refine ⟨?_, ?_, hf⟩
          · rw [freqsFit_mkInternal, hw, hl.1, hr.1]
            simp only [Bool.and_true, Bool.and_eq_true, decide_eq_true_eq]
            rw [hl.2.2, hr.2.2]
            constructor <;> omega
          · exact (sumsOk_mkInternal l r).2 ⟨hf, hl.2.1, hr.2.1⟩
        · exact hall t (perm.mem_iff.2 (by simp [ht]))
      have hqnew : queueLeaves (HuffmanNode.mkInternal l r :: pq2)
          = l.leaves ++ (r.leaves ++ queueLeaves pq2) := by
        simp [queueLeaves, leaves_mkInternal]
      obtain ⟨root, hb, hperm, hfit, hso, hfreq⟩ := ih (HuffmanNode.mkInternal l r :: pq2)
        (by simp) (by simp only [List.length_cons]; omega) hnew
        (by rw [hqnew]; exact fun e he => hnn e (hql.mem_iff.2 he))
        (by rw [hqnew]; simpa using hs)
      refine ⟨root, ?_, ?_, hfit, hso, hfreq⟩
      · simp only [buildLoop, h1, if_true, hp1, hp2]
        exact hb
      · rw [hqnew] at hperm
        exact hperm.trans hql.symm
    · match pq, hne, h1 with
      | [t], _, _ =>
        refine ⟨t, by simp [buildLoop], by simp [queueLeaves], (hall t (by simp)).1,
          (hall t (by simp)).2.1, ?_⟩
        rw [(hall t (by simp)).2.2, ← hsum]
        simp [queueLeaves]
      | _ :: _ :: _, _, h1 => simp at h1

theorem buildHuffmanTree_spec (tie : List HuffmanNode → Nat) (m : FreqMap) (N : Int)
    (hN : N < 2147483648) (hne : m ≠ []) (hnn : ∀ e ∈ m, 0 ≤ e.2)
    (hsum : (m.map Prod.snd).sum = N) :
    ∃ root, buildHuffmanTree tie m = some root ∧ root.leaves.Perm m ∧
      root.freqsFit = true ∧ root.sumsOk ∧ root.freq = N := by
  have hq : queueLeaves (pushLeaves m) = m.reverse := queueLeaves_pushLeaves m
  have hne2 : pushLeaves m ≠ [] := by
    intro e
    have := pushLeaves_length m
    rw [e] at this
    exact hne (List.length_eq_zero.1 this.symm)
  have hbound : (2147483648 : Int) ≤ 2147483648 + N ∨ N < 0 := by omega
  have hall : ∀ t ∈ pushLeaves m,
      t.freqsFit = true ∧ t.sumsOk ∧ t.freq = (t.leaves.map Prod.snd).sum := by
    intro t ht
    obtain ⟨c, f, rfl, hm⟩ := pushLeaves_mem m t ht
    have h0 : 0 ≤ f := hnn (c, f) hm
    have hle : f ≤ (m.map Prod.snd).sum := by
      obtain ⟨s, t, rfl⟩ := List.append_of_mem hm
      have hs := sum_snd_nonneg s (fun e he => hnn e (by simp [he]))
      have ht := sum_snd_nonneg t (fun e he => hnn e (by simp [he]))
      simp only [List.map_append, List.map_cons, List.sum_append, List.sum_cons]
      omega
    refine ⟨?_, trivial, by simp [HuffmanNode.freq, HuffmanNode.leaves]⟩
    simp only [HuffmanNode.freqsFit, Bool.and_eq_true, decide_eq_true_eq]
    constructor <;> omega
  obtain ⟨root, hb, hperm, hfit, hso, hfreq⟩ := buildLoop_spec tie N hN (pushLeaves m).length
    (pushLeaves m) hne2 (by omega) hall
    (by rw [hq]; exact fun e he => hnn e (List.mem_reverse.1 he))
    (by rw [hq, List.map_reverse, List.sum_reverse]; exact hsum)
  refine ⟨root, ?_, ?_, hfit, hso, hfreq⟩
  · simp [buildHuffmanTree, hb]
  · rw [hq] at hperm
    exact hperm.trans (List.reverse_perm m)

theorem symbols_eq_map_leaves (t : HuffmanNode) : t.symbols = t.leaves.map Prod.fst := by
  induction t with
  | leaf c f => rfl
  | internal f l r ihl ihr => simp [HuffmanNode.symbols, HuffmanNode.leaves, ihl, ihr]

theorem leaves_length_of_isLeaf (t : HuffmanNode) (h : t.isLeaf = true) :
    t.leaves.length = 1 := by
  cases t with
  | leaf c f => rfl
  | internal f l r => simp [HuffmanNode.isLeaf, HuffmanNode.left] at h

theorem depth_lt_leaves_length (t : HuffmanNode) : t.depth < t.leaves.length := by
  induction t with
  | leaf c f => simp [HuffmanNode.depth, HuffmanNode.leaves]
  | internal f l r ihl ihr =>
    simp only [HuffmanNode.depth, HuffmanNode.leaves, List.length_append]
    omega

theorem paths_length_le_depth (t : HuffmanNode) (c : Byte) (p : List Char)
    (h : (c, p) ∈ t.paths) : p.length ≤ t.depth := by
  induction t generalizing p with
  | leaf c0 f =>
    obtain ⟨_, rfl⟩ := paths_leaf_mem c0 f c p h
    simp
  | internal f l r ihl ihr =>
    simp only [HuffmanNode.paths, List.mem_append, List.mem_map, Prod.mk.injEq] at h
    rcases h with ⟨⟨c1, q⟩, hq, rfl, rfl⟩ | ⟨⟨c1, q⟩, hq, rfl, rfl⟩
    · have := ihl q hq
      simp only [HuffmanNode.depth, List.length_cons]
      omega
    · have := ihr q hq
      simp only [HuffmanNode.depth, List.length_cons]
      omega

theorem paths_binary (t : HuffmanNode) (c : Byte) (p : List Char) (h : (c, p) ∈ t.paths) :
    ∀ x ∈ p, x = '0' ∨ x = '1' := by
  induction t generalizing p with
  | leaf c0 f =>
    obtain ⟨_, rfl⟩ := paths_leaf_mem c0 f c p h
    simp
  | internal f l r ihl ihr =>
    simp only [HuffmanNode.paths, List.mem_append, List.mem_map, Prod.mk.injEq] at h
    rcases h with ⟨⟨c1, q⟩, hq, rfl, rfl⟩ | ⟨⟨c1, q⟩, hq, rfl, rfl⟩
    · intro x hx
      rcases List.mem_cons.1 hx with rfl | hx
      · exact Or.inl rfl
      · exact ihl q hq x hx
    · intro x hx
      rcases List.mem_cons.1 hx with rfl | hx
      · exact Or.inr rfl
      · exact ihr q hq x hx

/-- Every value read from the table made by `generateCodes` on an empty table is empty
or the path of a leaf. -/
theorem lookupCode_generateCodes_cases (t : HuffmanNode) (k : Byte) :
    lookupCode (generateCodes t [] []) k = [] ∨
      (k, lookupCode (generateCodes t [] []) k) ∈ t.paths := by
  unfold lookupCode
  cases h : findCode (generateCodes t [] []) k with
  | none => exact Or.inl rfl
  | some v =>
    rcases findCode_generateCodes t [] [] k v h with ⟨p, hp, hv⟩ | h2
    · right
      rw [List.nil_append] at hv
      subst hv
      simpa using hp
    · simp [findCode] at h2

theorem encodeBits_binary (t : HuffmanNode) (content : List Byte) :
    ∀ x ∈ encodeBits (generateCodes t [] []) content, x = '0' ∨ x = '1' := by
  induction content with
  | nil => simp [encodeBits_nil]
  | cons c cs ih =>
    intro x hx
    rw [encodeBits_cons, List.mem_append] at hx
    rcases hx with hx | hx
    · rcases lookupCode_generateCodes_cases t c with h | h
      · rw [h] at hx; simp at hx
      · exact paths_binary t c _ h x hx
    · exact ih x hx

theorem encodeBits_length_le (t : HuffmanNode) (content : List Byte) :
    (encodeBits (generateCodes t [] []) content).length ≤ content.length * t.depth := by
  induction content with
  | nil => simp [encodeBits_nil]
  | cons c cs ih =>
    rw [encodeBits_cons, List.length_append, List.length_cons, Nat.add_mul, Nat.one_mul]
    have : (lookupCode (generateCodes t [] []) c).length ≤ t.depth := by
      rcases lookupCode_generateCodes_cases t c with h | h
      · rw [h]; simp
      · exact paths_length_le_depth t c _ h
    omega

theorem symbols_length_le (t : HuffmanNode) (hn : t.symbols.Nodup) : t.leaves.length ≤ 256 := by
  have h := List.Nodup.length_le_card hn
  rw [symbols_eq_map_leaves, List.length_map] at h
  exact h.trans (le_of_eq (Fintype.card_fin 256))

/-! ## The whole pipeline -/

/-- What the encoder builds for an input of fewer than 2^31 bytes: a tree whose leaves
are the entries of the frequency table, with every frequency in range. -/
theorem encodeMain_tree (tie : List HuffmanNode → Nat) (iter : FreqMap → FreqMap)
    (hiter : ∀ m, (iter m).Perm m) (content : List Byte) (hne : content ≠ [])
    (hlen : content.length < 2147483648) :
    ∃ root, buildHuffmanTree tie (iter (buildFrequencyMap content)) = some root ∧
      root.leaves.Perm (buildFrequencyMap content) ∧ root.freqsFit = true ∧ root.sumsOk ∧
      root.freq = (content.length : Int) ∧ root.symbols.Nodup ∧
      (∀ c, c ∈ root.symbols ↔ c ∈ content) := by
  have hperm := hiter (buildFrequencyMap content)
  have hcount : ∀ c, content.count c < 2147483648 := fun c =>
    Nat.lt_of_le_of_lt (List.count_le_length c content) hlen
  have hnn : ∀ e ∈ iter (buildFrequencyMap content), 0 ≤ e.2 := by
    intro e he
    obtain ⟨k, v⟩ := e
    have := (entry_buildFrequencyMap content k v (hperm.mem_iff.1 he)).2
    have hk := hcount k
    rw [wrapInt_of_inRange _ (by omega) (by omega)] at this
    simp only [this]
    omega
  have hsum : ((iter (buildFrequencyMap content)).map Prod.snd).sum = (content.length : Int) := by
    rw [(hperm.map Prod.snd).sum_eq]
    exact sum_values_buildFrequencyMap content hcount
  have hne2 : iter (buildFrequencyMap content) ≠ [] := by
    intro e
    rw [e] at hperm
    have h0 := List.Perm.eq_nil hperm.symm
    obtain ⟨c, cs, rfl⟩ := List.exists_cons_of_ne_nil hne
    have := (keys_buildFrequencyMap (c :: cs) c).2 (List.mem_cons_self _ _)
    rw [h0] at this
    simp at this
  obtain ⟨root, hb, hl, hfit, hso, hfreq⟩ :=
    buildHuffmanTree_spec tie _ _ (by omega) hne2 hnn hsum
  have hl2 := hl.trans hperm
  have hsym : root.symbols.Perm ((buildFrequencyMap content).map Prod.fst) := by
    rw [symbols_eq_map_leaves]
    exact hl2.map Prod.fst
  refine ⟨root, hb, hl2, hfit, hso, hfreq, ?_, ?_⟩
  · exact hsym.nodup_iff.2 (nodup_keys_buildFrequencyMap content)
  · intro c
    rw [hsym.mem_iff, keys_buildFrequencyMap]

theorem roundTrip_of_tree (tie : List HuffmanNode → Nat) (iter : FreqMap → FreqMap)
    (content : List Byte) (root : HuffmanNode)
    (hb : buildHuffmanTree tie (iter (buildFrequencyMap content)) = some root)
    (hfit : root.freqsFit = true) (hn : root.symbols.Nodup)
    (hmem : ∀ c, c ∈ root.symbols ↔ c ∈ content)
    (hleaf : root.isLeaf = false) (hlen : content.length < 2147483648) :
    roundTrip tie iter content = Except.ok content := by
  have hbits := encodeBits_binary root content
  have hblen : (encodeBits (generateCodes root [] []) content).length ≤ stringMaxSize := by
    have h1 := encodeBits_length_le root content
    have h2 := depth_lt_leaves_length root
    have h3 := symbols_length_le root hn
    have h4 : content.length * root.depth ≤ 2147483648 * 256 :=
      Nat.mul_le_mul (by omega) (by omega)
    have h5 : (2147483648 * 256 : Nat) ≤ stringMaxSize := by
      unfold stringMaxSize
      norm_num
    omega
  simp only [roundTrip, encodeMain, hb, decodeMain]
  rw [readTreeJson_writeNodeJson root hfit]
  simp only []
  rw [readBinaryFile_payload _ hbits hblen]
  simp only []
  rw [decodeBits_encodeBits root hleaf hn content (fun c hc => (hmem c).2 hc)]
  simp

theorem roundTrip_two_symbols (tie : List HuffmanNode → Nat) (iter : FreqMap → FreqMap)
    (hiter : ∀ m, (iter m).Perm m) (content : List Byte)
    (h2 : ∃ a ∈ content, ∃ b ∈ content, a ≠ b) (hlen : content.length < 2147483648) :
    roundTrip tie iter content = Except.ok content := by
  obtain ⟨a, ha, b, hb, hab⟩ := h2
  have hne : content ≠ [] := List.ne_nil_of_mem ha
  obtain ⟨root, hbuild, hl, hfit, _, _, hn, hmem⟩ := encodeMain_tree tie iter hiter content hne hlen
  have hleaf : root.isLeaf = false := by
    cases hleaf : root.isLeaf with
    | false => rfl
    | true =>
      exfalso
      have h1 := leaves_length_of_isLeaf root hleaf
      have hsl : root.symbols.length = 1 := by
        rw [symbols_eq_map_leaves, List.length_map, h1]
      obtain ⟨x, hx⟩ := List.length_eq_one.1 hsl
      have hax := (hmem a).2 ha
      have hbx := (hmem b).2 hb
      rw [hx, List.mem_singleton] at hax hbx
      exact hab (hax.trans hbx.symm)
  exact roundTrip_of_tree tie iter content root hbuild hfit hn hmem hleaf hlen

theorem foldl_incrFreq_replicate (k : Nat) (a : Byte) (v : Int) :
    (List.replicate k a).foldl incrFreq [(a, wrapInt v)] = [(a, wrapInt (v + k))] := by
  induction k generalizing v with
  | zero => simp
  | succ k ih =>
    rw [List.replicate_succ, List.foldl_cons]
    have : incrFreq [(a, wrapInt v)] a = [(a, wrapInt (v + 1))] := by
      simp [incrFreq, wrapInt_wrapInt_add]
    rw [this, ih]
    congr 3
    push_cast
    ring

theorem buildFrequencyMap_replicate_append (n : Nat) (hn : 0 < n) (a b : Byte) (hab : a ≠ b) :
    buildFrequencyMap (List.replicate n a ++ [b]) = [(a, wrapInt (n : Int)), (b, 1)] := by
  cases n with
  | zero => omega
  | succ n =>
    unfold buildFrequencyMap
    rw [List.foldl_append, List.replicate_succ]
    simp only [List.foldl_cons, List.foldl_nil]
    have h0 : incrFreq [] a = [(a, wrapInt 1)] := rfl
    rw [h0, foldl_incrFreq_replicate]
    simp only [incrFreq, hab, if_false]
    have h1 : (1 : Int) + (n : Int) = ((n + 1 : Nat) : Int) := by push_cast; ring
    rw [h1]
    rfl

/-- The round trip fails on every input whose frequency table makes the root
frequency leave the range of `int`. -/
theorem roundTrip_of_overflowing_table (content : List Byte)
    (hfm : buildFrequencyMap content = [(97, 2147483647), (98, 1)]) :
    roundTrip (fun _ => 0) id content = Except.error "Error parsing JSON file!" := by
  have htree : buildHuffmanTree (fun _ => 0) [(97, 2147483647), (98, 1)]
      = some (HuffmanNode.internal (-2147483648) (HuffmanNode.leaf 98 1)
          (HuffmanNode.leaf 97 2147483647)) := rfl
  have hread : readTreeJson (writeTreeJson (HuffmanNode.internal (-2147483648)
      (HuffmanNode.leaf 98 1) (HuffmanNode.leaf 97 2147483647)) [])
      = Except.error "Expected digit!" := rfl
  simp only [roundTrip, encodeMain, hfm, id, htree, decodeMain, hread]

/-- C1 (evaluation at the failing input): on the input "aaa" the encoder writes a
single-leaf tree and a bit string of length 0, and the decoder writes an empty
output file: the three input bytes are lost. -/
theorem roundTrip_single_symbol_lost :
    encodeMain (fun _ => 0) id [97, 97, 97]
      = Except.ok ⟨"\x7b\"ch\":97,\"freq\":3\x7d".toList, [0, 0, 0, 0, 0, 0, 0, 0]⟩ ∧
    roundTrip (fun _ => 0) id [97, 97, 97] = Except.ok [] :=
  ⟨rfl, rfl⟩

/-- C2 (as stated, refuted): the input made of 2147483647 bytes 97 followed by one
byte 98 has two distinct byte values, yet the round trip fails: the root
frequency does not fit an `int`, the tree file holds a negative number and the
decoder rejects it. -/
theorem roundTrip_fails_on_2GiB_input :
    (97 : Byte) ∈ List.replicate 2147483647 (97 : Byte) ++ [98] ∧
    (98 : Byte) ∈ List.replicate 2147483647 (97 : Byte) ++ [98] ∧
    roundTrip (fun _ => 0) id (List.replicate 2147483647 (97 : Byte) ++ [98])
      = Except.error "Error parsing JSON file!" ∧
    roundTrip (fun _ => 0) id (List.replicate 2147483647 (97 : Byte) ++ [98])
      ≠ Except.ok (List.replicate 2147483647 (97 : Byte) ++ [98]) := by
  have hw : wrapInt ((2147483647 : Nat) : Int) = 2147483647 := by
    unfold wrapInt; omega
  have hfm := buildFrequencyMap_replicate_append 2147483647 (by omega) 97 98 (by decide)
  rw [hw] at hfm
  have hrt := roundTrip_of_overflowing_table _ hfm
  refine ⟨?_, ?_, hrt, ?_⟩
  · rw [List.mem_append, List.mem_replicate]
    exact Or.inl ⟨by omega, rfl⟩
  · rw [List.mem_append]
    exact Or.inr (List.mem_singleton.2 rfl)
  · rw [hrt]
    intro h
    cases h

/-- C2 (amended): for every input of fewer than 2^31 bytes that contains at least two
distinct byte values, every tie-breaking order of the priority queue and every
iteration order of the frequency map, the decoder run on the two files written
by the encoder (tree parsed from the tree text, bits unpacked from the binary
file, then `decodeBits`) writes exactly the input bytes, in order. -/
theorem roundTrip_two_distinct_bytes (tie : List HuffmanNode → Nat) (iter : FreqMap → FreqMap)
    (hiter : ∀ m, (iter m).Perm m) (content : List Byte)
    (h2 : ∃ a ∈ content, ∃ b ∈ content, a ≠ b) (hlen : content.length < 2147483648) :
    roundTrip tie iter content = Except.ok content :=
  roundTrip_two_symbols tie iter hiter content h2 hlen

/-- C2 (witness): the input "aaab", the map iterated in reverse order. -/
theorem roundTrip_two_distinct_bytes_witness :
    roundTrip (fun _ => 0) List.reverse [97, 97, 97, 98] = Except.ok [97, 97, 97, 98] :=
  roundTrip_two_distinct_bytes (fun _ => 0) List.reverse (fun m => List.reverse_perm m)
    [97, 97, 97, 98] ⟨97, by decide, 98, by decide, by decide⟩ (by decide)

/-! ## Behaviour of the decoder on streams the encoder does not write -/

theorem decodeLoop_none (root : Option HuffmanNode) (bits : List Char) (out : List Byte) :
    decodeLoop root bits none out = out := by
  cases bits <;> rfl

/-- Walking down a proper prefix of the path of a leaf writes nothing. -/
theorem decodeLoop_proper_prefix (root : Option HuffmanNode) (t : HuffmanNode) (c : Byte)
    (p q : List Char) (hq : q ≠ []) (hp : (c, p ++ q) ∈ t.paths) (out : List Byte) :
    decodeLoop root p (some t) out = out := by
  induction t generalizing p with
  | leaf c0 f =>
    obtain ⟨_, h⟩ := paths_leaf_mem c0 f c _ hp
    simp only [List.append_eq_nil] at h
    exact absurd h.2 hq
  | internal f l r ihl ihr =>
    cases p with
    | nil => rfl
    | cons b p =>
      simp only [HuffmanNode.paths, List.mem_append, List.mem_map, Prod.mk.injEq,
        List.cons_append] at hp
      rcases hp with ⟨⟨c1, x⟩, hx, rfl, hbx⟩ | ⟨⟨c1, x⟩, hx, rfl, hbx⟩
      · simp only [List.cons.injEq] at hbx
        obtain ⟨rfl, rfl⟩ := hbx
        simp only [decodeLoop, if_true, HuffmanNode.left]
        cases l with
        | leaf c0 f0 =>
          obtain ⟨_, h⟩ := paths_leaf_mem c0 f0 c1 _ hx
          simp only [List.append_eq_nil] at h
          exact absurd h.2 hq
        | internal f0 l0 r0 =>
          have hl : (HuffmanNode.internal f0 l0 r0).isLeaf = false := by
            simp [HuffmanNode.isLeaf, HuffmanNode.left]
          simp only [hl]
          exact ihl p hx
      · simp only [List.cons.injEq] at hbx
        obtain ⟨rfl, rfl⟩ := hbx
        have hne : ¬ ('1' = '0') := by decide
        simp only [decodeLoop, hne, if_false, HuffmanNode.right]
        cases r with
        | leaf c0 f0 =>
          obtain ⟨_, h⟩ := paths_leaf_mem c0 f0 c1 _ hx
          simp only [List.append_eq_nil] at h
          exact absurd h.2 hq
        | internal f0 l0 r0 =>
          have hr : (HuffmanNode.internal f0 l0 r0).isLeaf = false := by
            simp [HuffmanNode.isLeaf, HuffmanNode.left]
          simp only [hr]
          exact ihr p hx

/-- C6 (as stated, refuted): in the tree with codes 97:"0", 98:"10", 99:"11" the stream
"01" ends after the first bit of a two-bit code, and `decodeBits` returns 0
(success) with the partial output "a". -/
theorem decodeBits_mid_code_returns_success :
    (98, ['1', '0']) ∈ (HuffmanNode.internal 6 (HuffmanNode.leaf 97 3)
      (HuffmanNode.internal 3 (HuffmanNode.leaf 98 1) (HuffmanNode.leaf 99 2))).paths ∧
    decodeBits (some (HuffmanNode.internal 6 (HuffmanNode.leaf 97 3)
      (HuffmanNode.internal 3 (HuffmanNode.leaf 98 1) (HuffmanNode.leaf 99 2)))) ['0', '1']
      = (0, [97]) := by
  constructor
  · decide
  · rfl

/-- C6 (amended): `decodeBits` never reports a failure (it returns 0 on every tree and
every bit sequence), and on a stream that ends mid-code, the codes of `content`
followed by a proper prefix `p` of the code of a leaf, in a tree with at least two
leaves and pairwise distinct symbols, it returns 0 with exactly `content` as output:
the trailing bits are dropped without a report. -/
theorem decodeBits_mid_code (t : HuffmanNode) (ht : t.isLeaf = false) (hn : t.symbols.Nodup)
    (content : List Byte) (hc : ∀ c ∈ content, c ∈ t.symbols)
    (c : Byte) (p q : List Char) (hq : q ≠ []) (hp : (c, p ++ q) ∈ t.paths) :
    (∀ (root : Option HuffmanNode) (bits : List Char), (decodeBits root bits).1 = 0) ∧
    decodeBits (some t) (encodeBits (generateCodes t [] []) content ++ p) = (0, content) := by
  refine ⟨fun _ _ => rfl, ?_⟩
  simp only [decodeBits]
  rw [decodeLoop_encodeBits t ht hn content hc p [],
    decodeLoop_proper_prefix (some t) t c p q hq hp]
  simp

/-- C6 (witness): the stream "0" ++ "1" in the tree with codes 97:"0", 98:"10", 99:"11". -/
theorem decodeBits_mid_code_witness :
    decodeBits (some (HuffmanNode.internal 6 (HuffmanNode.leaf 97 3)
      (HuffmanNode.internal 3 (HuffmanNode.leaf 98 1) (HuffmanNode.leaf 99 2))))
      (encodeBits (generateCodes (HuffmanNode.internal 6 (HuffmanNode.leaf 97 3)
        (HuffmanNode.internal 3 (HuffmanNode.leaf 98 1) (HuffmanNode.leaf 99 2))) [] []) [97]
        ++ ['1']) = (0, [97]) :=
  (decodeBits_mid_code
    (HuffmanNode.internal 6 (HuffmanNode.leaf 97 3)
      (HuffmanNode.internal 3 (HuffmanNode.leaf 98 1) (HuffmanNode.leaf 99 2)))
    rfl (by decide) [97] (by simp [HuffmanNode.symbols]) 98 ['1'] ['0'] (by decide) (by decide)).2

/-- C8 (evaluation at the failing input): for a tree that is a single leaf, `decodeBits`
writes nothing, whatever the bit sequence; for the leaf (97, 3) and the bits "000"
the output is empty, not "aaa". -/
theorem decodeBits_single_leaf_writes_nothing :
    (∀ (s : Byte) (f : Int) (bits : List Char),
      decodeBits (some (HuffmanNode.leaf s f)) bits = (0, [])) ∧
    decodeBits (some (HuffmanNode.leaf 97 3)) ['0', '0', '0'] = (0, []) := by
  refine ⟨?_, rfl⟩
  intro s f bits
  cases bits with
  | nil => rfl
  | cons b rest =>
    simp only [decodeBits, decodeLoop, HuffmanNode.left, HuffmanNode.right, ite_self,
      decodeLoop_none]

theorem bitsOf8_length (b : Byte) : (bitsOf8 b).length = 8 := by
  simp [bitsOf8]

theorem allBits_length (bytes : List Byte) : (allBits bytes).length = 8 * bytes.length := by
  induction bytes with
  | nil => rfl
  | cons b rest ih =>
    simp only [allBits, List.length_append, bitsOf8_length, ih, List.length_cons]
    omega

/-- The outer loop of `readBinaryFile` yields the first `totalBits - bitsRead` bits of
the buffer, or all of them when the buffer holds fewer. -/
theorem unpackLoop_allBits (total : Nat) (bytes : List Byte) (bitsRead : Nat)
    (acc : List Char) :
    unpackLoop total bytes bitsRead acc = acc ++ (allBits bytes).take (total - bitsRead) := by
  induction bytes generalizing bitsRead acc with
  | nil => simp [unpackLoop, allBits]
  | cons b rest ih =>
    by_cases h : bitsRead + 8 ≤ total
    · rw [unpackLoop_step total b rest bitsRead acc h, ih]
      simp only [allBits]
      have e : (bitsOf8 b ++ allBits rest).take (total - bitsRead)
          = bitsOf8 b ++ (allBits rest).take (total - (bitsRead + 8)) := by
        have h8 : (bitsOf8 b).take (total - bitsRead) = bitsOf8 b :=
          List.take_of_length_le (by rw [bitsOf8_length]; omega)
        rw [List.take_append_eq_append_take, h8, bitsOf8_length,
          show total - bitsRead - 8 = total - (bitsRead + 8) from by omega]
      rw [e]
      simp
    · by_cases h2 : total ≤ bitsRead
      · rw [unpackLoop_done total _ bitsRead acc h2]
        rw [show total - bitsRead = 0 from by omega]
        simp
      · rw [unpackLoop_last total b rest bitsRead (total - bitsRead) acc (by omega) (by omega)]
        simp only [allBits]
        rw [List.take_append_of_le_length (by rw [bitsOf8_length]; omega)]

theorem readBinaryFileWith_eq (alloc : Nat → Bool) (c : Nat) (hc : c ≤ stringMaxSize)
    (payload : List Byte) (hp : alloc payload.length = true) (ha : alloc c = true) :
    readBinaryFileWith alloc (u64ToBytes c ++ payload)
      = Except.ok ((allBits payload).take c) := by
  have hc64 : c < 2 ^ 64 := lt_of_le_of_lt hc stringMaxSize_lt
  unfold readBinaryFileWith
  rw [if_neg (by simp [u64ToBytes_length])]
  simp only
  rw [bytesToU64_u64ToBytes _ hc64, List.drop_left' (u64ToBytes_length _),
    if_neg (by simp [hp]), if_neg (by omega), if_neg (by simp [ha]), unpackLoop_allBits]
  simp

theorem readBinaryFileWith_above_max (alloc : Nat → Bool) (c : Nat) (hc : c < 2 ^ 64)
    (hmax : stringMaxSize < c) (payload : List Byte) (hp : alloc payload.length = true) :
    readBinaryFileWith alloc (u64ToBytes c ++ payload)
      = Except.error "basic_string::reserve" := by
  unfold readBinaryFileWith
  rw [if_neg (by simp [u64ToBytes_length])]
  simp only
  rw [bytesToU64_u64ToBytes _ hc, List.drop_left' (u64ToBytes_length _),
    if_neg (by simp [hp]), if_pos hmax]

theorem readBinaryFile_eq (c : Nat) (hc : c ≤ stringMaxSize) (payload : List Byte) :
    readBinaryFile (u64ToBytes c ++ payload) = Except.ok ((allBits payload).take c) :=
  readBinaryFileWith_eq (fun _ => true) c hc payload rfl rfl

theorem readBinaryFile_above_max (c : Nat) (hc : c < 2 ^ 64) (hmax : stringMaxSize < c)
    (payload : List Byte) :
    readBinaryFile (u64ToBytes c ++ payload) = Except.error "basic_string::reserve" :=
  readBinaryFileWith_above_max (fun _ => true) c hc hmax payload rfl

/-- C9 (evaluation at the failing input): input "ab", codes 97:"0" and 98:"1", two threads,
thread 0 runs iteration 0 and thread 1 runs iteration 1.  When thread 1 enters the
critical section first, the shared bit string is "10", while the sequential encoder
produces "01"; when the threads arrive in the order 0, 1 the two agree. -/
theorem parallelEncodeBits_arrival_order :
    generateCodes (HuffmanNode.internal 2 (HuffmanNode.leaf 97 1) (HuffmanNode.leaf 98 1)) [] []
      = [(97, ['0']), (98, ['1'])] ∧
    parallelEncodeBits [(97, ['0']), (98, ['1'])] [97, 98] (fun i => i) [1, 0] = ['1', '0'] ∧
    encodeBits [(97, ['0']), (98, ['1'])] [97, 98] = ['0', '1'] ∧
    parallelEncodeBits [(97, ['0']), (98, ['1'])] [97, 98] (fun i => i) [0, 1] = ['0', '1'] :=
  ⟨rfl, rfl, rfl, rfl⟩

/-! ## Root frequency, unpacking and the example of the specification -/

/-- C11: for every non-empty input whose length is a value of type `int` (fewer than
2^31 bytes), every tie-breaking order of the queue and every iteration order of the
map, `buildHuffmanTree(buildFrequencyMap(input))` returns a tree whose root has
frequency equal to the input length. -/
theorem buildHuffmanTree_root_freq (tie : List HuffmanNode → Nat) (iter : FreqMap → FreqMap)
    (hiter : ∀ m, (iter m).Perm m) (content : List Byte) (hne : content ≠ [])
    (hlen : content.length < 2147483648) :
    ∃ root, buildHuffmanTree tie (iter (buildFrequencyMap content)) = some root ∧
      root.freq = (content.length : Int) := by
  obtain ⟨root, hb, _, _, _, hfreq, _, _⟩ := encodeMain_tree tie iter hiter content hne hlen
  exact ⟨root, hb, hfreq⟩

/-- C11 (witness): the input "aaab", root frequency 4. -/
theorem buildHuffmanTree_root_freq_witness :
    ∃ root, buildHuffmanTree (fun _ => 0) (List.reverse (buildFrequencyMap [97, 97, 97, 98]))
        = some root ∧ root.freq = 4 :=
  buildHuffmanTree_root_freq (fun _ => 0) List.reverse (fun m => List.reverse_perm m)
    [97, 97, 97, 98] (by decide) (by decide)

/-- C13: for every count `c` (a `uint64_t`) and every two payloads of at least ceil(c/8)
bytes whose first `c` bits (eight per byte, most significant first) agree,
`readBinaryFile` gives the same outcome for both; that outcome is the bit string of
those first `c` bits, of length exactly `c`, whatever the padding bits and the
trailing bytes, for every count that `bitString.reserve` accepts (at most
`string::max_size()`; a larger count goes with payloads of 2^59 bytes and more). -/
theorem readBinaryFile_stops_at_count (c : Nat) (hc : c < 2 ^ 64) (p1 p2 : List Byte)
    (h1 : (c + 7) / 8 ≤ p1.length) (h2 : (c + 7) / 8 ≤ p2.length)
    (hagree : (allBits p1).take c = (allBits p2).take c) :
    readBinaryFile (u64ToBytes c ++ p1) = readBinaryFile (u64ToBytes c ++ p2) ∧
    (c ≤ stringMaxSize →
      readBinaryFile (u64ToBytes c ++ p1) = Except.ok ((allBits p1).take c)) ∧
    ((allBits p1).take c).length = c ∧ ((allBits p2).take c).length = c ∧
    (stringMaxSize < c → 2 ^ 59 ≤ p1.length ∧ 2 ^ 59 ≤ p2.length) := by
  refine ⟨?_, fun hmax => readBinaryFile_eq c hmax p1, ?_, ?_, ?_⟩
  · by_cases hmax : c ≤ stringMaxSize
    · rw [readBinaryFile_eq c hmax p1, readBinaryFile_eq c hmax p2, hagree]
    · rw [readBinaryFile_above_max c hc (by omega) p1, readBinaryFile_above_max c hc (by omega) p2]
  · rw [List.length_take, allBits_length]
    omega
  · rw [List.length_take, allBits_length]
    omega
  · intro hmax
    unfold stringMaxSize at hmax
    constructor <;> omega

/-- C13 (witness): count 13; the payloads 0x69 0x68 and 0x69 0x6F 0xFF differ in the
three padding bits and in a trailing byte. -/
theorem readBinaryFile_stops_at_count_witness :
    readBinaryFile (u64ToBytes 13 ++ [105, 104]) = readBinaryFile (u64ToBytes 13 ++ [105, 111, 255]) ∧
    readBinaryFile (u64ToBytes 13 ++ [105, 104]) = Except.ok ((allBits [105, 104]).take 13) ∧
    ((allBits [105, 104]).take 13).length = 13 ∧
    ((allBits [105, 111, 255]).take 13).length = 13 :=
  ⟨(readBinaryFile_stops_at_count 13 (by decide) [105, 104] [105, 111, 255] (by decide)
      (by decide) (by decide)).1,
    (readBinaryFile_stops_at_count 13 (by decide) [105, 104] [105, 111, 255] (by decide)
      (by decide) (by decide)).2.1 (by decide),
    (readBinaryFile_stops_at_count 13 (by decide) [105, 104] [105, 111, 255] (by decide)
      (by decide) (by decide)).2.2.1,
    (readBinaryFile_stops_at_count 13 (by decide) [105, 104] [105, 111, 255] (by decide)
      (by decide) (by decide)).2.2.2.1⟩

/-- C14 (as stated, refuted): the file written for the bit string "0001" is not the count 4
followed by the byte 0000 0000. -/
theorem writeEncodedBits_example_not_zero_byte :
    writeEncodedBits ['0', '0', '0', '1'] ≠ u64ToBytes 4 ++ [0] := by
  decide

/-- C14 (amended): the encoding of "aaab" under the codes a:"0", b:"1" is "0001", and
`writeEncodedBits` writes for it the 8-byte count 4 followed by exactly one payload
byte, 0x10, whose bits are 0001 0000: the four code bits, then four padding zeros. -/
theorem writeEncodedBits_example :
    encodeBits [(97, ['0']), (98, ['1'])] [97, 97, 97, 98] = ['0', '0', '0', '1'] ∧
    writeEncodedBits ['0', '0', '0', '1'] = u64ToBytes 4 ++ [16] ∧
    u64ToBytes 4 = [4, 0, 0, 0, 0, 0, 0, 0] ∧
    bitsOf8 16 = ['0', '0', '0', '1', '0', '0', '0', '0'] := by
  refine ⟨rfl, rfl, rfl, rfl⟩

/-! ## Empty table, code table, text of the tree file -/

/-- C15 (evaluation at the failing input): for the empty frequency table no leaf is
pushed and the loop does not run, so the final `pq.top()` of `buildHuffmanTree` is
applied to an empty queue: there is no top element to return, and nothing makes
the function return `nullptr`. -/
theorem buildHuffmanTree_empty_table_top (tie : List HuffmanNode → Nat) :
    buildFrequencyMap [] = [] ∧ pushLeaves [] = [] ∧
    buildLoop tie (pushLeaves []).length (pushLeaves []) = [] ∧
    (buildLoop tie (pushLeaves []).length (pushLeaves [])).head? = none :=
  ⟨rfl, rfl, rfl, rfl⟩

theorem keys_setCode (codes : CodeTable) (c k : Byte) (v : List Char) :
    k ∈ (setCode codes c v).map Prod.fst ↔ k = c ∨ k ∈ codes.map Prod.fst := by
  induction codes with
  | nil => simp [setCode]
  | cons p rest ih =>
    obtain ⟨k1, v1⟩ := p
    by_cases h : k1 = c
    · subst h; simp [setCode]
    · simp only [setCode, h, if_false, List.map_cons, List.mem_cons, ih]
      tauto

theorem nodup_keys_setCode (codes : CodeTable) (c : Byte) (v : List Char)
    (h : (codes.map Prod.fst).Nodup) : ((setCode codes c v).map Prod.fst).Nodup := by
  induction codes with
  | nil => simp [setCode]
  | cons p rest ih =>
    obtain ⟨k1, v1⟩ := p
    simp only [List.map_cons, List.nodup_cons] at h
    by_cases hk : k1 = c
    · subst hk; simpa [setCode] using h
    · simp only [setCode, hk, if_false, List.map_cons, List.nodup_cons]
      refine ⟨?_, ih h.2⟩
      rw [keys_setCode]
      rintro (hc | hc)
      · exact hk hc
      · exact h.1 hc

theorem keys_generateCodes (t : HuffmanNode) (pre : List Char) (codes : CodeTable) (k : Byte) :
    k ∈ (generateCodes t pre codes).map Prod.fst ↔ k ∈ t.symbols ∨ k ∈ codes.map Prod.fst := by
  induction t generalizing pre codes with
  | leaf c f =>
    simp only [generateCodes, HuffmanNode.symbols, List.mem_singleton]
    exact keys_setCode codes c k pre
  | internal f l r ihl ihr =>
    simp only [generateCodes, ihr, ihl, HuffmanNode.symbols, List.mem_append]
    tauto

theorem nodup_keys_generateCodes (t : HuffmanNode) (pre : List Char) (codes : CodeTable)
    (h : (codes.map Prod.fst).Nodup) : ((generateCodes t pre codes).map Prod.fst).Nodup := by
  induction t generalizing pre codes with
  | leaf c f => exact nodup_keys_setCode codes c pre h
  | internal f l r ihl ihr =>
    simp only [generateCodes]
    exact ihr _ _ (ihl _ _ h)

/-- C16: for every tree whose leaf symbols are pairwise distinct, the table made by
`generateCodes(root, "", codes)` on an empty table has pairwise distinct keys, which
are exactly the leaf symbols, and the value of a leaf symbol is the path from the
root to its leaf ('0' for each step to the left, '1' for each step to the right);
the table of a single-leaf tree maps its symbol to the empty string. -/
theorem generateCodes_table (root : HuffmanNode) (hn : root.symbols.Nodup) :
    ((generateCodes root [] []).map Prod.fst).Nodup ∧
    (∀ k, k ∈ (generateCodes root [] []).map Prod.fst ↔ k ∈ root.symbols) ∧
    (∀ k p, (k, p) ∈ root.paths → findCode (generateCodes root [] []) k = some p) ∧
    (∀ c f, generateCodes (HuffmanNode.leaf c f) [] [] = [(c, [])]) := by
  refine ⟨nodup_keys_generateCodes root [] [] (by simp), ?_, ?_, fun _ _ => rfl⟩
  · intro k
    rw [keys_generateCodes]
    simp
  · intro k p hp
    have := findCode_generateCodes_of_nodup root [] [] hn k p hp
    simpa using this

/-- C16 (witness): a tree with the three leaves 97, 98, 99. -/
theorem generateCodes_table_witness :
    (HuffmanNode.internal 6 (HuffmanNode.leaf 97 3)
      (HuffmanNode.internal 3 (HuffmanNode.leaf 98 1) (HuffmanNode.leaf 99 2))).symbols.Nodup ∧
    findCode (generateCodes (HuffmanNode.internal 6 (HuffmanNode.leaf 97 3)
      (HuffmanNode.internal 3 (HuffmanNode.leaf 98 1) (HuffmanNode.leaf 99 2))) [] []) 99
      = some ['1', '1'] :=
  ⟨by decide, (generateCodes_table
    (HuffmanNode.internal 6 (HuffmanNode.leaf 97 3)
      (HuffmanNode.internal 3 (HuffmanNode.leaf 98 1) (HuffmanNode.leaf 99 2)))
    (by decide)).2.2.1 99 ['1', '1'] (by decide)⟩

theorem decValue_natToDec (n : Nat) : decValue (natToDec n) = n := by
  induction n using Nat.strong_induction_on with
  | _ n ih =>
    rw [natToDec_eq]
    by_cases h10 : n < 10
    · simp only [h10, if_true, decValue, List.foldl_cons, List.foldl_nil, digit_toNat n h10]
      omega
    · have := ih (n / 10) (by omega)
      simp only [decValue] at this
      simp only [h10, if_false, decValue, List.foldl_append, List.foldl_cons, List.foldl_nil,
        this, digit_toNat (n % 10) (by omega)]
      omega

theorem intToDec_not_isspace (x : Int) : ∀ c ∈ intToDec x, isspace c = false := by
  intro c hc
  unfold intToDec at hc
  split at hc
  · rcases List.mem_cons.1 hc with rfl | hc
    · decide
    · exact not_isspace_of_isdigit c (natToDec_digits _ c hc)
  · exact not_isspace_of_isdigit c (natToDec_digits _ c hc)

theorem writeNodeJson_not_isspace (t : HuffmanNode) :
    ∀ c ∈ writeNodeJson t [], isspace c = false := by
  induction t with
  | leaf s f =>
    intro c hc
    have := writeNodeJson_leaf s f []
    rw [List.append_nil] at this
    rw [this] at hc
    simp only [List.mem_cons, List.mem_append, List.not_mem_nil, or_false] at hc
    rcases hc with rfl | rfl | rfl | rfl | rfl | rfl | hc | rfl | rfl | rfl | rfl | rfl | rfl
      | rfl | rfl | hc | rfl
    all_goals first
      | decide
      | exact intToDec_not_isspace _ c hc
  | internal f l r ihl ihr =>
    intro c hc
    have := writeNodeJson_internal f l r []
    rw [List.append_nil] at this
    rw [this] at hc
    simp only [List.mem_cons, List.mem_append, List.not_mem_nil, or_false] at hc
    rcases hc with rfl | rfl | rfl | rfl | rfl | rfl | rfl | rfl | hc | rfl | rfl | rfl | rfl
      | rfl | rfl | rfl | rfl | hc | rfl | rfl | rfl | rfl | rfl | rfl | rfl | rfl | rfl | hc | rfl
    all_goals first
      | decide
      | exact intToDec_not_isspace _ c hc
      | exact ihl c hc
      | exact ihr c hc

/-- C17: `writeTreeJson` writes for a leaf (s, f) exactly the text `{"ch":N,"freq":F}` and
for an internal node exactly `{"freq":F,"left":L,"right":R}`, where N is the decimal
text of the unsigned value of `s` (digits only, denoting `s` in 0..255, never a
sign), F is the text `os << freq` writes and L, R are the texts of the children; no
character of the text is whitespace. -/
theorem writeTreeJson_format :
    (∀ (s : Byte) (f : Int), writeTreeJson (HuffmanNode.leaf s f) [] =
      "\x7b\"ch\":".toList ++ natToDec s.val ++ ",\"freq\":".toList ++ intToDec f
        ++ "\x7d".toList) ∧
    (∀ (s : Byte), (∀ c ∈ natToDec s.val, isdigit c = true) ∧ decValue (natToDec s.val) = s.val
      ∧ s.val < 256) ∧
    (∀ (f : Int) (l r : HuffmanNode), writeTreeJson (HuffmanNode.internal f l r) [] =
      "\x7b\"freq\":".toList ++ intToDec f ++ ",\"left\":".toList ++ writeTreeJson l []
        ++ ",\"right\":".toList ++ writeTreeJson r [] ++ "\x7d".toList) ∧
    (∀ (t : HuffmanNode), ∀ c ∈ writeTreeJson t [], isspace c = false) ∧
    writeTreeJson (HuffmanNode.leaf 200 3) [] = "\x7b\"ch\":200,\"freq\":3\x7d".toList := by
  refine ⟨?_, ?_, ?_, ?_, rfl⟩
  · intro s f
    have h : intToDec (s.val : Int) = natToDec s.val := by
      unfold intToDec
      rw [if_neg (by omega)]
      rfl
    simp [writeTreeJson, writeNodeJson, h]
  · intro s
    exact ⟨natToDec_digits s.val, decValue_natToDec s.val, s.isLt⟩
  · intro f l r
    simp only [writeTreeJson]
    have := writeNodeJson_internal f l r []
    rw [List.append_nil] at this
    rw [this]
    simp
  · intro t
    exact writeNodeJson_not_isspace t

/-! ## Layout of the packed payload -/

theorem bitsOf8_packState_pad (cs : List Char) (h : cs.length < 8)
    (hb : ∀ c ∈ cs, c = '0' ∨ c = '1') :
    bitsOf8 (Fin.ofNat ((packState cs 0 <<< (8 - cs.length)) % 256))
      = cs ++ List.replicate (8 - cs.length) '0' := by
  rcases cs with _ | ⟨c0, _ | ⟨c1, _ | ⟨c2, _ | ⟨c3, _ | ⟨c4, _ | ⟨c5, _ | ⟨c6, _ | ⟨c7, cs⟩⟩⟩⟩⟩⟩⟩⟩ <;>
    simp only [List.length_cons, List.length_nil] at h <;> try omega
  · rfl
  · simp only [List.mem_singleton, forall_eq] at hb
    rcases hb with rfl | rfl <;> rfl
  · simp only [List.mem_cons, List.mem_singleton, forall_eq_or_imp, forall_eq] at hb
    obtain ⟨h0, h1⟩ := hb
    rcases h0 with rfl | rfl <;> rcases h1 with rfl | rfl <;> rfl
  · simp only [List.mem_cons, List.mem_singleton, forall_eq_or_imp, forall_eq] at hb
    obtain ⟨h0, h1, h2⟩ := hb
    rcases h0 with rfl | rfl <;> rcases h1 with rfl | rfl <;> rcases h2 with rfl | rfl <;> rfl
  · simp only [List.mem_cons, List.mem_singleton, forall_eq_or_imp, forall_eq] at hb
    obtain ⟨h0, h1, h2, h3⟩ := hb
    rcases h0 with rfl | rfl <;> rcases h1 with rfl | rfl <;> rcases h2 with rfl | rfl <;>
      rcases h3 with rfl | rfl <;> rfl
  · simp only [List.mem_cons, List.mem_singleton, forall_eq_or_imp, forall_eq] at hb
    obtain ⟨h0, h1, h2, h3, h4⟩ := hb
    rcases h0 with rfl | rfl <;> rcases h1 with rfl | rfl <;> rcases h2 with rfl | rfl <;>
      rcases h3 with rfl | rfl <;> rcases h4 with rfl | rfl <;> rfl
  · simp only [List.mem_cons, List.mem_singleton, forall_eq_or_imp, forall_eq] at hb
    obtain ⟨h0, h1, h2, h3, h4, h5⟩ := hb
    rcases h0 with rfl | rfl <;> rcases h1 with rfl | rfl <;> rcases h2 with rfl | rfl <;>
      rcases h3 with rfl | rfl <;> rcases h4 with rfl | rfl <;> rcases h5 with rfl | rfl <;> rfl
  · simp only [List.mem_cons, List.mem_singleton, forall_eq_or_imp, forall_eq] at hb
    obtain ⟨h0, h1, h2, h3, h4, h5, h6⟩ := hb
    rcases h0 with rfl | rfl <;> rcases h1 with rfl | rfl <;> rcases h2 with rfl | rfl <;>
      rcases h3 with rfl | rfl <;> rcases h4 with rfl | rfl <;> rcases h5 with rfl | rfl <;>
      rcases h6 with rfl | rfl <;> rfl

/-- The bits of the payload are the bit string followed by zeros up to the next
multiple of eight. -/
theorem allBits_payloadOf (n : Nat) : ∀ (bits : List Char), bits.length = n →
    (∀ c ∈ bits, c = '0' ∨ c = '1') →
    allBits (payloadOf bits) = bits ++ List.replicate ((8 - bits.length % 8) % 8) '0' := by
  induction n using Nat.strong_induction_on with
  | _ n ih =>
    intro bits hn hb
    by_cases h8 : bits.length < 8
    · by_cases hne : bits = []
      · subst hne
        simp [payloadOf_nil, allBits]
      · have hpos : 0 < bits.length := List.length_pos.2 hne
        rw [payloadOf_short bits hne h8]
        simp only [allBits, List.append_nil]
        rw [bitsOf8_packState_pad bits h8 hb]
        congr 2
        omega
    · have hsplit : bits = bits.take 8 ++ bits.drop 8 := (List.take_append_drop 8 bits).symm
      have hl8 : (bits.take 8).length = 8 := by
        rw [List.length_take]; omega
      have hbt : ∀ c ∈ bits.take 8, c = '0' ∨ c = '1' := fun c hc =>
        hb c (List.mem_of_mem_take hc)
      have hbd : ∀ c ∈ bits.drop 8, c = '0' ∨ c = '1' := fun c hc =>
        hb c (List.mem_of_mem_drop hc)
      have hld : (bits.drop 8).length = bits.length - 8 := List.length_drop 8 bits
      have key : allBits (payloadOf (bits.take 8 ++ bits.drop 8))
          = (bits.take 8 ++ bits.drop 8)
            ++ List.replicate ((8 - (bits.drop 8).length % 8) % 8) '0' := by
        rw [payloadOf_chunk _ _ hl8]
        simp only [allBits]
        rw [bitsOf8_packState _ hl8 hbt, ih (bits.drop 8).length (by omega) (bits.drop 8) rfl hbd,
          List.append_assoc]
      rw [← hsplit] at key
      rw [key, hld]
      congr 3
      omega

theorem bitsOf8_getElem? (b : Byte) (j : Nat) (hj : j < 8) :
    (bitsOf8 b)[j]? = some (if (b.val >>> (7 - j)) &&& 1 ≠ 0 then '1' else '0') := by
  interval_cases j <;> rfl

theorem allBits_getElem? (bytes : List Byte) : ∀ (j : Nat), j < 8 * bytes.length →
    (allBits bytes)[j]? =
      some (if ((bytes.getD (j / 8) 0).val >>> (7 - j % 8)) &&& 1 ≠ 0 then '1' else '0') := by
  induction bytes with
  | nil => intro j hj; simp at hj
  | cons b rest ih =>
    intro j hj
    simp only [allBits]
    by_cases h8 : j < 8
    · rw [List.getElem?_append_left (by rw [bitsOf8_length]; exact h8), bitsOf8_getElem? b j h8]
      have h0 : j / 8 = 0 := by omega
      have h1 : j % 8 = j := by omega
      simp [h0, h1]
    · rw [List.getElem?_append_right (by rw [bitsOf8_length]; omega), bitsOf8_length,
        ih (j - 8) (by simp only [List.length_cons] at hj; omega)]
      have h0 : j / 8 = (j - 8) / 8 + 1 := by omega
      have h1 : j % 8 = (j - 8) % 8 := by omega
      rw [h0, h1]
      simp

theorem payloadOf_length (bits : List Char) (hb : ∀ c ∈ bits, c = '0' ∨ c = '1') :
    (payloadOf bits).length = (bits.length + 7) / 8 := by
  have h := congrArg List.length (allBits_payloadOf bits.length bits rfl hb)
  rw [allBits_length, List.length_append, List.length_replicate] at h
  omega

/-- C12: for every '0'/'1' string of length L (a `uint64_t`), `writeEncodedBits` writes
the 8-byte count L and then exactly ceil(L/8) payload bytes; input bit `i` is bit
`7 - i mod 8` of byte `i / 8`, and every position of the last byte after the L-th
bit holds 0. -/
theorem writeEncodedBits_layout (bitString : List Char)
    (hbits : ∀ c ∈ bitString, c = '0' ∨ c = '1') (hlen : bitString.length < 2 ^ 64) :
    ∃ payload : List Byte,
      writeEncodedBits bitString = u64ToBytes bitString.length ++ payload ∧
      bytesToU64 (writeEncodedBits bitString) = bitString.length ∧
      payload.length = (bitString.length + 7) / 8 ∧
      (∀ i, i < bitString.length →
        ((payload.getD (i / 8) 0).val >>> (7 - i % 8)) &&& 1
          = if bitString.getD i '0' = '1' then 1 else 0) ∧
      (∀ j, bitString.length ≤ j → j < 8 * payload.length →
        ((payload.getD (j / 8) 0).val >>> (7 - j % 8)) &&& 1 = 0) := by
  have hw : writeEncodedBits bitString = u64ToBytes bitString.length ++ payloadOf bitString := by
    rw [writeEncodedBits_eq, Nat.mod_eq_of_lt hlen]
  have hall := allBits_payloadOf bitString.length bitString rfl hbits
  have hpl := payloadOf_length bitString hbits
  refine ⟨payloadOf bitString, hw, ?_, hpl, ?_, ?_⟩
  · rw [hw, bytesToU64_u64ToBytes _ hlen]
  · intro i hi
    have h1 := allBits_getElem? (payloadOf bitString) i (by omega)
    rw [hall, List.getElem?_append_left hi] at h1
    have h2 : bitString.getD i '0' = bitString[i] := by
      rw [List.getD_eq_getElem?_getD, List.getElem?_eq_getElem hi]
      rfl
    rw [List.getElem?_eq_getElem hi] at h1
    injection h1 with h1
    rw [h2, h1]
    have hm := Nat.and_one_is_mod ((List.getD (payloadOf bitString) (i / 8) 0).val >>> (7 - i % 8))
    by_cases hz : ((List.getD (payloadOf bitString) (i / 8) 0).val >>> (7 - i % 8)) &&& 1 ≠ 0
    · rw [if_pos hz, if_pos rfl]
      omega
    · rw [if_neg hz, if_neg (by decide)]
      omega
  · intro j hj1 hj2
    have h1 := allBits_getElem? (payloadOf bitString) j hj2
    rw [hall, List.getElem?_append_right hj1] at h1
    have hlt : j - bitString.length < (List.replicate ((8 - bitString.length % 8) % 8) '0').length := by
      rw [List.length_replicate]
      omega
    rw [List.getElem?_eq_getElem hlt, List.getElem_replicate] at h1
    injection h1 with h1
    by_cases hz : ((List.getD (payloadOf bitString) (j / 8) 0).val >>> (7 - j % 8)) &&& 1 ≠ 0
    · rw [if_pos hz] at h1
      exact absurd h1 (by decide)
    · exact not_not.1 hz

/-- C12 (witness): the 13-bit string 0110100101101 is written as count 13 and the two
bytes 0x69, 0x68. -/
theorem writeEncodedBits_layout_witness :
    ∃ payload : List Byte,
      writeEncodedBits ['0', '1', '1', '0', '1', '0', '0', '1', '0', '1', '1', '0', '1']
        = u64ToBytes 13 ++ payload ∧
      bytesToU64 (writeEncodedBits
        ['0', '1', '1', '0', '1', '0', '0', '1', '0', '1', '1', '0', '1']) = 13 ∧
      payload.length = (13 + 7) / 8 ∧
      (∀ i, i < 13 →
        ((payload.getD (i / 8) 0).val >>> (7 - i % 8)) &&& 1
          = if ['0', '1', '1', '0', '1', '0', '0', '1', '0', '1', '1', '0', '1'].getD i '0' = '1'
            then 1 else 0) ∧
      (∀ j, 13 ≤ j → j < 8 * payload.length →
        ((payload.getD (j / 8) 0).val >>> (7 - j % 8)) &&& 1 = 0) :=
  writeEncodedBits_layout ['0', '1', '1', '0', '1', '0', '0', '1', '0', '1', '1', '0', '1']
    (by decide) (by decide)

/-! ## Parallel frequency count -/

theorem lookupFreq_addFreq (m : FreqMap) (a c : Byte) (n : Int) :
    lookupFreq (addFreq m a n) c =
      if c = a then some (wrapInt ((lookupFreq m a).getD 0 + n)) else lookupFreq m c := by
  induction m with
  | nil =>
    by_cases h : c = a
    · simp [addFreq, lookupFreq, h]
    · simp [addFreq, lookupFreq, h, Ne.symm h]
  | cons p rest ih =>
    obtain ⟨k, v⟩ := p
    by_cases hk : k = a
    · subst hk
      by_cases h : c = k
      · subst h; simp [addFreq, lookupFreq]
      · simp [addFreq, lookupFreq, h, Ne.symm h]
    · by_cases h : c = a
      · subst h
        have := ih
        simp only [if_true] at this
        simp only [addFreq, hk, if_false, if_true]
        simp only [lookupFreq, List.find?, hk, decide_False] at this ⊢
        exact this
      · simp only [if_neg h] at ih ⊢
        simp only [addFreq, hk, if_false]
        by_cases hkc : k = c
        · simp [lookupFreq, hkc]
        · simp only [lookupFreq, List.find?, hkc, decide_False] at ih ⊢
          exact ih

theorem keys_addFreq (m : FreqMap) (a : Byte) (n : Int) (c : Byte) :
    c ∈ (addFreq m a n).map Prod.fst ↔ c = a ∨ c ∈ m.map Prod.fst := by
  induction m with
  | nil => simp [addFreq]
  | cons p rest ih =>
    obtain ⟨k, v⟩ := p
    by_cases hk : k = a
    · subst hk; simp [addFreq]
    · simp only [addFreq, hk, if_false, List.map_cons, List.mem_cons, ih]
      tauto

theorem nodup_keys_addFreq (m : FreqMap) (a : Byte) (n : Int) (h : (m.map Prod.fst).Nodup) :
    ((addFreq m a n).map Prod.fst).Nodup := by
  induction m with
  | nil => simp [addFreq]
  | cons p rest ih =>
    obtain ⟨k, v⟩ := p
    simp only [List.map_cons, List.nodup_cons] at h
    by_cases hk : k = a
    · subst hk; simpa [addFreq] using h
    · simp only [addFreq, hk, if_false, List.map_cons, List.nodup_cons]
      refine ⟨?_, ih h.2⟩
      rw [keys_addFreq]
      rintro (hc | hc)
      · exact hk hc
      · exact h.1 hc

theorem lookupFreq_eq_none (m : FreqMap) (c : Byte) (h : c ∉ m.map Prod.fst) :
    lookupFreq m c = none := by
  induction m with
  | nil => rfl
  | cons p rest ih =>
    obtain ⟨k, v⟩ := p
    simp only [List.map_cons, List.mem_cons, not_or] at h
    have hne : k ≠ c := fun e => h.1 e.symm
    have := ih h.2
    simp only [lookupFreq, List.find?, hne, decide_False] at this ⊢
    exact this

theorem lookupFreq_cons (k : Byte) (v : Int) (rest : FreqMap) (c : Byte) :
    lookupFreq ((k, v) :: rest) c = if k = c then some v else lookupFreq rest c := by
  by_cases h : k = c
  · simp [lookupFreq, h]
  · simp [lookupFreq, List.find?, h]

/-- Merging a map with pairwise distinct keys adds, for each of its keys, its value to
the value accumulated so far. -/
theorem lookupFreq_merge (l : FreqMap) (hl : (l.map Prod.fst).Nodup) (m : FreqMap) (c : Byte) :
    lookupFreq (l.foldl (fun m e => addFreq m e.1 e.2) m) c =
      match lookupFreq l c with
      | none => lookupFreq m c
      | some v => some (wrapInt ((lookupFreq m c).getD 0 + v)) := by
  induction l generalizing m with
  | nil => rfl
  | cons p rest ih =>
    obtain ⟨k, v⟩ := p
    simp only [List.map_cons, List.nodup_cons] at hl
    rw [List.foldl_cons, ih hl.2, lookupFreq_cons]
    by_cases h : k = c
    · subst h
      rw [lookupFreq_eq_none rest k hl.1]
      simp [lookupFreq_addFreq]
    · have h2 : ¬ c = k := fun e => h e.symm
      simp only [h, if_false, lookupFreq_addFreq, h2]

theorem keys_merge (l : FreqMap) (m : FreqMap) (c : Byte) :
    c ∈ (l.foldl (fun m e => addFreq m e.1 e.2) m).map Prod.fst ↔
      c ∈ l.map Prod.fst ∨ c ∈ m.map Prod.fst := by
  induction l generalizing m with
  | nil => simp
  | cons p rest ih =>
    rw [List.foldl_cons, ih, keys_addFreq]
    simp only [List.map_cons, List.mem_cons]
    tauto

theorem nodup_keys_merge (l : FreqMap) (m : FreqMap) (h : (m.map Prod.fst).Nodup) :
    ((l.foldl (fun m e => addFreq m e.1 e.2) m).map Prod.fst).Nodup := by
  induction l generalizing m with
  | nil => simpa using h
  | cons p rest ih =>
    rw [List.foldl_cons]
    exact ih _ (nodup_keys_addFreq m p.1 p.2 h)

theorem lookupFreq_perm {l1 l2 : FreqMap} (hp : l1.Perm l2) (hn : (l1.map Prod.fst).Nodup)
    (c : Byte) : lookupFreq l1 c = lookupFreq l2 c := by
  have hn2 : (l2.map Prod.fst).Nodup := (hp.map Prod.fst).nodup_iff.1 hn
  cases h : lookupFreq l2 c with
  | none =>
    apply lookupFreq_eq_none
    intro hc
    have hc2 : c ∈ l2.map Prod.fst := (hp.map Prod.fst).mem_iff.1 hc
    obtain ⟨⟨k, v⟩, hm, rfl⟩ := List.mem_map.1 hc2
    rw [lookupFreq_of_mem l2 hn2 k v hm] at h
    cases h
  | some v =>
    have hm : (c, v) ∈ l2 := by
      simp only [lookupFreq, Option.map_eq_some'] at h
      obtain ⟨⟨k, v1⟩, hf, rfl⟩ := h
      have hk := List.find?_some hf
      simp only [decide_eq_true_eq] at hk
      subst hk
      exact List.mem_of_find?_eq_some hf
    exact lookupFreq_of_mem l1 hn c v (hp.mem_iff.2 hm)

theorem wrapInt_add_wrapInt (x y : Int) : wrapInt (x + wrapInt y) = wrapInt (x + y) := by
  unfold wrapInt; omega

theorem threadMap_eq (content : List Byte) (owner : Nat → Nat) (tid : Nat) :
    threadMap content owner tid = buildFrequencyMap (threadShare content owner tid) := by
  unfold threadMap buildFrequencyMap threadShare
  rw [List.foldl_map]

theorem mergeStep_nodup (iter : FreqMap → FreqMap) (maps : List FreqMap) (m : FreqMap)
    (h : (m.map Prod.fst).Nodup) :
    ((maps.foldl (fun freqMap localMap =>
      (iter localMap).foldl (fun m e => addFreq m e.1 e.2) freqMap) m).map Prod.fst).Nodup := by
  induction maps generalizing m with
  | nil => simpa using h
  | cons l rest ih =>
    rw [List.foldl_cons]
    exact ih _ (nodup_keys_merge _ _ h)

/-- After the merge of the maps of the shares `S`, the value of key `c` is the wrapped
total number of occurrences of `c` in the shares (added to what was there). -/
theorem lookupFreq_mergeShares (iter : FreqMap → FreqMap) (hiter : ∀ m, (iter m).Perm m)
    (c : Byte) (S : List (List Byte)) : ∀ (m : FreqMap) (A : Nat),
    lookupFreq m c = (if A = 0 then none else some (wrapInt (A : Int))) →
    lookupFreq ((S.map buildFrequencyMap).foldl (fun freqMap localMap =>
      (iter localMap).foldl (fun m e => addFreq m e.1 e.2) freqMap) m) c
      = if A + (S.map (fun s => s.count c)).sum = 0 then none
        else some (wrapInt ((A + (S.map (fun s => s.count c)).sum : Nat) : Int)) := by
  induction S with
  | nil => intro m A hm; simpa using hm
  | cons s S ih =>
    intro m A hm
    simp only [List.map_cons, List.foldl_cons, List.sum_cons]
    have hperm := hiter (buildFrequencyMap s)
    have hnd : ((iter (buildFrequencyMap s)).map Prod.fst).Nodup :=
      (hperm.map Prod.fst).nodup_iff.2 (nodup_keys_buildFrequencyMap s)
    have hloc : lookupFreq (iter (buildFrequencyMap s)) c
        = if s.count c = 0 then none else some (wrapInt (s.count c : Int)) := by
      rw [lookupFreq_perm hperm hnd, lookupFreq_buildFrequencyMap]
    have hnew : lookupFreq ((iter (buildFrequencyMap s)).foldl
        (fun m e => addFreq m e.1 e.2) m) c
        = if A + s.count c = 0 then none else some (wrapInt ((A + s.count c : Nat) : Int)) := by
      rw [lookupFreq_merge _ hnd, hloc, hm]
      have h1 := wrapInt_add_wrapInt
      have h2 := wrapInt_wrapInt_add
      generalize wrapInt = w at h1 h2 ⊢
      by_cases hs : s.count c = 0
      · rw [if_pos hs, hs, Nat.add_zero]
      · rw [if_neg hs, if_neg (show ¬ A + s.count c = 0 from by omega)]
        by_cases hA : A = 0
        · subst hA
          rw [if_pos rfl, Option.getD_none, Nat.zero_add]
          dsimp only
          rw [h1, Int.zero_add]
        · rw [if_neg hA, Option.getD_some]
          dsimp only
          rw [h1, h2, Nat.cast_add]
    have := ih _ (A + s.count c) hnew
    rw [this, Nat.add_assoc]

theorem sum_indicator_range (n a k : Nat) (hk : k < n) :
    ((List.range n).map (fun t => if k = t then a else 0)).sum = a := by
  induction n with
  | zero => omega
  | succ n ih =>
    rw [List.range_succ, List.map_append, List.sum_append]
    by_cases h : k = n
    · subst h
      have h0 : ((List.range k).map (fun t => if k = t then a else 0)).sum = 0 := by
        apply List.sum_eq_zero
        intro x hx
        obtain ⟨t, ht, rfl⟩ := List.mem_map.1 hx
        have := List.mem_range.1 ht
        rw [if_neg (by omega)]
      simp [h0]
    · rw [ih (by omega)]
      simp [h]

/-- The shares of the threads `0 .. n-1` together hold every occurrence of `c` once. -/
theorem sum_count_shares (owner : Nat → Nat) (n : Nat) (c : Byte) (l : List Byte) :
    ∀ (k : Nat), (∀ i, k ≤ i → i < k + l.length → owner i < n) →
    ((List.range n).map (fun t =>
      ((((l.enumFrom k).filter (fun p => owner p.1 = t)).map Prod.snd).count c))).sum
      = l.count c := by
  induction l with
  | nil => intro k _; simp
  | cons x xs ih =>
    intro k hk
    have hstep : ∀ t, ((((x :: xs).enumFrom k).filter (fun p => owner p.1 = t)).map Prod.snd).count c
        = (if owner k = t then (if x = c then 1 else 0) else 0)
          + (((xs.enumFrom (k + 1)).filter (fun p => owner p.1 = t)).map Prod.snd).count c := by
      intro t
      simp only [List.enumFrom_cons]
      by_cases ho : owner k = t
      · by_cases hx : x = c
        · simp [List.filter_cons, ho, hx]; omega
        · simp [List.filter_cons, ho, hx, List.count_cons]
      · simp [List.filter_cons, ho]
    simp only [hstep]
    rw [List.sum_map_add, sum_indicator_range n _ (owner k) (hk k (le_refl _) (by simp)),
      ih (k + 1) (fun i h1 h2 => hk i (by omega) (by simp only [List.length_cons]; omega))]
    by_cases hx : x = c
    · simp [hx]; omega
    · simp [hx, List.count_cons]

/-- C18: for every input, every number of threads (n >= 1 included), every assignment
of the iterations to the threads and every iteration order of the maps, the table merged
from the per-thread maps is the table of the sequential `buildFrequencyMap`: its keys
are pairwise distinct, and every byte value has the same entry (or none) in both. -/
theorem parallelFrequencyMap_eq_sequential (iter : FreqMap → FreqMap)
    (hiter : ∀ m, (iter m).Perm m) (numThreads : Nat)
    (owner : Nat → Nat) (content : List Byte)
    (howner : ∀ i, i < content.length → owner i < numThreads) :
    ((parallelFrequencyMap iter numThreads owner content).map Prod.fst).Nodup ∧
    ∀ c, lookupFreq (parallelFrequencyMap iter numThreads owner content) c
      = lookupFreq (buildFrequencyMap content) c := by
  have hmaps : (List.range numThreads).map (threadMap content owner)
      = ((List.range numThreads).map (threadShare content owner)).map buildFrequencyMap := by
    rw [List.map_map]
    apply List.map_congr_left
    intro t _
    exact threadMap_eq content owner t
  constructor
  · unfold parallelFrequencyMap mergeThreadMaps
    exact mergeStep_nodup iter _ [] (by simp)
  · intro c
    unfold parallelFrequencyMap mergeThreadMaps
    rw [hmaps, lookupFreq_mergeShares iter hiter c _ [] 0 (by simp [lookupFreq]),
      lookupFreq_buildFrequencyMap, List.map_map]
    have hsum := sum_count_shares owner numThreads c content 0
      (fun i _ h2 => howner i (by omega))
    have hfun : ((fun s => List.count c s) ∘ threadShare content owner)
        = (fun t => ((((content.enumFrom 0).filter (fun p => owner p.1 = t)).map Prod.snd).count c)) := by
      funext t
      rfl
    rw [hfun, hsum, Nat.zero_add]

/-- C18 (witness): the input "abab" with two threads, even iterations on thread 0 and
odd iterations on thread 1. -/
theorem parallelFrequencyMap_eq_sequential_witness :
    ((parallelFrequencyMap List.reverse 2 (fun i => i % 2) [97, 98, 97, 98]).map Prod.fst).Nodup ∧
    ∀ c, lookupFreq (parallelFrequencyMap List.reverse 2 (fun i => i % 2) [97, 98, 97, 98]) c
      = lookupFreq (buildFrequencyMap [97, 98, 97, 98]) c :=
  parallelFrequencyMap_eq_sequential List.reverse (fun m => List.reverse_perm m) 2
    (fun i => i % 2) [97, 98, 97, 98] (fun i _ => Nat.mod_lt i (by decide))

/-! ## Shape of the built tree -/

theorem exists_min_freq (pq : List HuffmanNode) (h : pq ≠ []) :
    ∃ x ∈ pq, ∀ y ∈ pq, x.freq ≤ y.freq := by
  induction pq with
  | nil => exact absurd rfl h
  | cons a rest ih =>
    by_cases hr : rest = []
    · subst hr
      exact ⟨a, by simp, by simp⟩
    · obtain ⟨x, hx, hmin⟩ := ih hr
      by_cases hax : a.freq ≤ x.freq
      · refine ⟨a, by simp, ?_⟩
        intro y hy
        rcases List.mem_cons.1 hy with rfl | hy
        · exact le_refl _
        · exact le_trans hax (hmin y hy)
      · refine ⟨x, List.mem_cons_of_mem _ hx, ?_⟩
        intro y hy
        rcases List.mem_cons.1 hy with rfl | hy
        · omega
        · exact hmin y hy

theorem mem_minPositions (pq : List HuffmanNode) (i : Nat) :
    i ∈ minPositions pq ↔ ∃ x, pq.get? i = some x ∧ ∀ y ∈ pq, x.freq ≤ y.freq := by
  simp only [minPositions, List.mem_filter, List.mem_range]
  constructor
  · rintro ⟨hi, hf⟩
    cases hget : pq.get? i with
    | none => rw [hget] at hf; cases hf
    | some x =>
      rw [hget] at hf
      refine ⟨x, rfl, ?_⟩
      intro y hy
      have := List.all_eq_true.1 hf y hy
      simp only [NodeCompare, Bool.not_eq_true', decide_eq_false_iff_not] at this
      omega
  · rintro ⟨x, hget, hmin⟩
    refine ⟨?_, ?_⟩
    · by_contra hlt
      rw [List.get?_eq_none.2 (by omega)] at hget
      cases hget
    · rw [hget]
      apply List.all_eq_true.2
      intro y hy
      have := hmin y hy
      simp only [NodeCompare, Bool.not_eq_true', decide_eq_false_iff_not]
      omega

theorem minPositions_ne_nil (pq : List HuffmanNode) (h : pq ≠ []) : minPositions pq ≠ [] := by
  obtain ⟨x, hx, hmin⟩ := exists_min_freq pq h
  obtain ⟨i, hi⟩ := List.get?_of_mem hx
  intro he
  have : i ∈ minPositions pq := (mem_minPositions pq i).2 ⟨x, hi, hmin⟩
  rw [he] at this
  cases this

/-- The node that `top` returns has the smallest frequency of the queue. -/
theorem popMin_min (tie : List HuffmanNode → Nat) (pq : List HuffmanNode)
    (n : HuffmanNode) (rest : List HuffmanNode) (h : popMin tie pq = some (n, rest)) :
    ∀ y ∈ pq, n.freq ≤ y.freq := by
  have hne : pq ≠ [] := by
    intro e; subst e
    simp [popMin] at h
  have hc := minPositions_ne_nil pq hne
  have hlen : 0 < (minPositions pq).length := List.length_pos.2 hc
  have hidx : tie pq % (minPositions pq).length < (minPositions pq).length := Nat.mod_lt _ hlen
  have hmem : (minPositions pq).getD (tie pq % (minPositions pq).length) 0 ∈ minPositions pq := by
    rw [List.getD_eq_getElem?_getD, List.getElem?_eq_getElem hidx]
    exact List.getElem_mem _
  obtain ⟨x, hget, hmin⟩ := (mem_minPositions pq _).1 hmem
  unfold popMin at h
  simp only [hget] at h
  cases h
  exact hmin

/-- The loop of `buildHuffmanTree` ends with a single tree whose leaves are the leaves of
the queue; a property that holds for the trees of the queue and passes from a first
and a second extracted node to their parent holds for it. -/
theorem buildLoop_inv (tie : List HuffmanNode → Nat) (P : HuffmanNode → Prop)
    (hP : ∀ l r, P l → P r → l.freq ≤ r.freq → P (HuffmanNode.mkInternal l r)) :
    ∀ (fuel : Nat) (pq : List HuffmanNode), pq ≠ [] → pq.length ≤ fuel + 1 →
    (∀ t ∈ pq, P t) →
    ∃ root, buildLoop tie fuel pq = [root] ∧ root.leaves.Perm (queueLeaves pq) ∧ P root := by
  intro fuel
  induction fuel with
  | zero =>
    intro pq hne hlen hall
    match pq, hne, hlen with
    | [t], _, _ => exact ⟨t, rfl, by simp [queueLeaves], hall t (by simp)⟩
    | _ :: _ :: _, _, hlen => simp at hlen
  | succ fuel ih =>
    intro pq hne hlen hall
    by_cases h1 : pq.length > 1
    · obtain ⟨l, pq1, hp1⟩ := popMin_isSome tie pq hne
      have perm1 := popMin_perm tie pq l pq1 hp1
      have hlen1 : pq.length = pq1.length + 1 := by simpa using perm1.length_eq
      have hne1 : pq1 ≠ [] := by
        intro e; subst e; simp at hlen1; omega
      obtain ⟨r, pq2, hp2⟩ := popMin_isSome tie pq1 hne1
      have perm2 := popMin_perm tie pq1 r pq2 hp2
      have hlen2 : pq1.length = pq2.length + 1 := by simpa using perm2.length_eq
      have perm : pq.Perm (l :: r :: pq2) := perm1.trans (perm2.cons l)
      have hlr : l.freq ≤ r.freq :=
        popMin_min tie pq l pq1 hp1 r (perm.mem_iff.2 (by simp))
      have hnew : ∀ t ∈ HuffmanNode.mkInternal l r :: pq2, P t := by
        intro t ht
        rcases List.mem_cons.1 ht with rfl | ht
        · exact hP l r (hall l (perm.mem_iff.2 (by simp))) (hall r (perm.mem_iff.2 (by simp))) hlr
        · exact hall t (perm.mem_iff.2 (by simp [ht]))
      have hql : (queueLeaves pq).Perm (l.leaves ++ (r.leaves ++ queueLeaves pq2)) :=
        queueLeaves_perm perm
      have hqnew : queueLeaves (HuffmanNode.mkInternal l r :: pq2)
          = l.leaves ++ (r.leaves ++ queueLeaves pq2) := by
        simp [queueLeaves, leaves_mkInternal]
      obtain ⟨root, hb, hperm, hroot⟩ := ih (HuffmanNode.mkInternal l r :: pq2)
        (by simp) (by simp only [List.length_cons]; omega) hnew
      refine ⟨root, ?_, ?_, hroot⟩
      · simp only [buildLoop, h1, if_true, hp1, hp2]
        exact hb
      · rw [hqnew] at hperm
        exact hperm.trans hql.symm
    · match pq, hne, h1 with
      | [t], _, _ => exact ⟨t, by simp [buildLoop], by simp [queueLeaves], hall t (by simp)⟩
      | _ :: _ :: _, _, h1 => simp at h1

theorem buildHuffmanTree_inv (tie : List HuffmanNode → Nat) (P : HuffmanNode → Prop)
    (hP : ∀ l r, P l → P r → l.freq ≤ r.freq → P (HuffmanNode.mkInternal l r))
    (m : FreqMap) (hne : m ≠ []) (hleaf : ∀ e ∈ m, P (HuffmanNode.leaf e.1 e.2)) :
    ∃ root, buildHuffmanTree tie m = some root ∧ root.leaves.Perm m ∧ P root := by
  have hq : queueLeaves (pushLeaves m) = m.reverse := queueLeaves_pushLeaves m
  have hne2 : pushLeaves m ≠ [] := by
    intro e
    have := pushLeaves_length m
    rw [e] at this
    exact hne (List.length_eq_zero.1 this.symm)
  have hall : ∀ t ∈ pushLeaves m, P t := by
    intro t ht
    obtain ⟨c, f, rfl, hm⟩ := pushLeaves_mem m t ht
    exact hleaf (c, f) hm
  obtain ⟨root, hb, hperm, hroot⟩ := buildLoop_inv tie P hP (pushLeaves m).length
    (pushLeaves m) hne2 (by omega) hall
  refine ⟨root, by simp [buildHuffmanTree, hb], ?_, hroot⟩
  rw [hq] at hperm
  exact hperm.trans (List.reverse_perm m)

theorem freq_eq_sum_of_sumsOk (t : HuffmanNode) (h : t.sumsOk) :
    t.freq = (t.leaves.map Prod.snd).sum := by
  cases t with
  | leaf c f => simp [HuffmanNode.freq, HuffmanNode.leaves]
  | internal f l r => exact h.1

theorem childSums_of_sumsOk (t : HuffmanNode) (h : t.sumsOk) : t.childSums := by
  induction t with
  | leaf c f => trivial
  | internal f l r ihl ihr =>
    obtain ⟨hf, hl, hr⟩ := h
    refine ⟨?_, ihl hl, ihr hr⟩
    rw [freq_eq_sum_of_sumsOk l hl, freq_eq_sum_of_sumsOk r hr, hf]
    simp [HuffmanNode.leaves]

/-- C19 (as stated, refuted): for the table {97: 2147483647, 98: 1} the tree returned has
a root of frequency -2147483648, which is not the sum 1 + 2147483647 of the
frequencies of its two children: the sum is not a value of type `int`. -/
theorem buildHuffmanTree_sum_exceeds_int :
    buildHuffmanTree (fun _ => 0) [(97, 2147483647), (98, 1)]
      = some (HuffmanNode.internal (-2147483648) (HuffmanNode.leaf 98 1)
          (HuffmanNode.leaf 97 2147483647)) ∧
    ¬ (HuffmanNode.internal (-2147483648) (HuffmanNode.leaf 98 1)
          (HuffmanNode.leaf 97 2147483647)).childSums := by
  refine ⟨rfl, ?_⟩
  intro h
  have h1 : ((-2147483648 : Int)) = (HuffmanNode.leaf 98 1).freq
      + (HuffmanNode.leaf 97 2147483647).freq := h.1
  have h2 : (HuffmanNode.leaf 98 1).freq = 1 := rfl
  have h3 : (HuffmanNode.leaf 97 2147483647).freq = 2147483647 := rfl
  rw [h2, h3] at h1
  omega

/-- C19 (amended): for every non-empty frequency table and every tie-breaking order,
`buildHuffmanTree` terminates and returns a tree (every node a leaf or a node with
two children) whose leaves are, one for one, the entries of the table (symbol and
count); when the counts are non-negative and their sum is a value of type `int`
(at most 2^31 - 1), the frequency of every internal node is the sum of the
frequencies of its two children. -/
theorem buildHuffmanTree_well_formed (tie : List HuffmanNode → Nat) (m : FreqMap)
    (hne : m ≠ []) :
    ∃ root, buildHuffmanTree tie m = some root ∧ root.leaves.Perm m ∧
      ((∀ e ∈ m, 0 ≤ e.2) → (m.map Prod.snd).sum < 2147483648 → root.childSums) := by
  obtain ⟨root, hb, hperm, _⟩ :=
    buildHuffmanTree_inv tie (fun _ => True) (fun _ _ _ _ _ => trivial) m hne
      (fun _ _ => trivial)
  refine ⟨root, hb, hperm, ?_⟩
  intro hnn hsum
  obtain ⟨root2, hb2, _, _, hso, _⟩ := buildHuffmanTree_spec tie m _ hsum hne hnn rfl
  rw [hb] at hb2
  cases hb2
  exact childSums_of_sumsOk root hso

/-- C19 (witness): the table {97: 3, 98: 1, 99: 2}. -/
theorem buildHuffmanTree_well_formed_witness :
    ∃ root, buildHuffmanTree (fun _ => 0) [(97, 3), (98, 1), (99, 2)] = some root ∧
      root.leaves.Perm [(97, 3), (98, 1), (99, 2)] ∧
      ((∀ e ∈ [((97 : Byte), (3 : Int)), (98, 1), (99, 2)], 0 ≤ e.2) →
        (([((97 : Byte), (3 : Int)), (98, 1), (99, 2)]).map Prod.snd).sum < 2147483648 →
        root.childSums) :=
  buildHuffmanTree_well_formed (fun _ => 0) [(97, 3), (98, 1), (99, 2)] (by decide)

theorem popMin_of_minPositions (tie : List HuffmanNode → Nat) (pq : List HuffmanNode)
    (i : Nat) (x : HuffmanNode) (h : minPositions pq = [i]) (hx : pq.get? i = some x) :
    popMin tie pq = some (x, pq.eraseIdx i) := by
  unfold popMin
  simp only [h, List.length_singleton, Nat.mod_one]
  have : [i].getD 0 0 = i := rfl
  rw [this, hx]

theorem buildHuffmanTree_pair (tie : List HuffmanNode → Nat) :
    buildHuffmanTree tie [(97, 3), (98, 1)]
      = some (HuffmanNode.internal 4 (HuffmanNode.leaf 98 1) (HuffmanNode.leaf 97 3)) ∧
    buildHuffmanTree tie [(98, 1), (97, 3)]
      = some (HuffmanNode.internal 4 (HuffmanNode.leaf 98 1) (HuffmanNode.leaf 97 3)) := by
  have p1 : popMin tie [HuffmanNode.leaf 98 1, HuffmanNode.leaf 97 3]
      = some (HuffmanNode.leaf 98 1, [HuffmanNode.leaf 97 3]) :=
    popMin_of_minPositions tie _ 0 _ (by decide) rfl
  have p2 : popMin tie [HuffmanNode.leaf 97 3, HuffmanNode.leaf 98 1]
      = some (HuffmanNode.leaf 98 1, [HuffmanNode.leaf 97 3]) :=
    popMin_of_minPositions tie _ 1 _ (by decide) rfl
  have p3 : popMin tie [HuffmanNode.leaf 97 3] = some (HuffmanNode.leaf 97 3, []) :=
    popMin_of_minPositions tie _ 0 _ (by decide) rfl
  have hmk : HuffmanNode.mkInternal (HuffmanNode.leaf 98 1) (HuffmanNode.leaf 97 3)
      = HuffmanNode.internal 4 (HuffmanNode.leaf 98 1) (HuffmanNode.leaf 97 3) := rfl
  have hq1 : pushLeaves [(97, 3), (98, 1)]
      = [HuffmanNode.leaf 98 1, HuffmanNode.leaf 97 3] := rfl
  have hq2 : pushLeaves [(98, 1), (97, 3)]
      = [HuffmanNode.leaf 97 3, HuffmanNode.leaf 98 1] := rfl
  constructor
  · unfold buildHuffmanTree
    rw [hq1]
    simp only [List.length_cons, List.length_nil, buildLoop, p1, p3, hmk]
    rfl
  · unfold buildHuffmanTree
    rw [hq2]
    simp only [List.length_cons, List.length_nil, buildLoop, p2, p3, hmk]
    rfl

/-- C20: in the tree returned by `buildHuffmanTree` for a non-empty table the first
extracted node is the left child and the second extracted the right child, so every
internal node has freq(left) <= freq(right), for every tie-breaking order; for the
table {a:3, b:1}, in either iteration order, the root has the left leaf b and the
right leaf a, which gives the codes b:"0" and a:"1". -/
theorem buildHuffmanTree_child_order (tie : List HuffmanNode → Nat) (m : FreqMap)
    (hne : m ≠ []) :
    (∃ root, buildHuffmanTree tie m = some root ∧ root.childOrdered) ∧
    buildHuffmanTree tie [(97, 3), (98, 1)]
      = some (HuffmanNode.internal 4 (HuffmanNode.leaf 98 1) (HuffmanNode.leaf 97 3)) ∧
    buildHuffmanTree tie [(98, 1), (97, 3)]
      = some (HuffmanNode.internal 4 (HuffmanNode.leaf 98 1) (HuffmanNode.leaf 97 3)) ∧
    generateCodes (HuffmanNode.internal 4 (HuffmanNode.leaf 98 1) (HuffmanNode.leaf 97 3)) [] []
      = [(98, ['0']), (97, ['1'])] := by
  refine ⟨?_, (buildHuffmanTree_pair tie).1, (buildHuffmanTree_pair tie).2, rfl⟩
  obtain ⟨root, hb, _, hroot⟩ :=
    buildHuffmanTree_inv tie HuffmanNode.childOrdered
      (fun l r hl hr hlr => ⟨hlr, hl, hr⟩) m hne (fun _ _ => trivial)
  exact ⟨root, hb, hroot⟩

/-- C20 (witness): the table {97: 3, 98: 1, 99: 2}. -/
theorem buildHuffmanTree_child_order_witness :
    ∃ root, buildHuffmanTree (fun _ => 0) [(97, 3), (98, 1), (99, 2)] = some root ∧
      root.childOrdered :=
  (buildHuffmanTree_child_order (fun _ => 0) [(97, 3), (98, 1), (99, 2)] (by decide)).1

/-! ## Symbol values above 255, string escapes, node kinds -/

theorem intToDec_natCast (n : Nat) : intToDec (n : Int) = natToDec n := by
  unfold intToDec
  rw [if_neg (by omega)]
  rfl

theorem toChar_natCast_val (n : Nat) : (toChar (n : Int)).val = n % 256 := by
  simp only [toChar]
  omega

theorem parseNode_leaf_text (n f : Nat) (hn : n < 2147483648) (hf : f < 2147483648) (fuel : Nat)
    (rest : List Char) :
    parseNode (fuel + 1)
      ('\x7b' :: '"' :: 'c' :: 'h' :: '"' :: ':' :: (intToDec (n : Int) ++
        ',' :: '"' :: 'f' :: 'r' :: 'e' :: 'q' :: '"' :: ':' :: (intToDec (f : Int) ++
        '\x7d' :: rest)))
      = Except.ok (HuffmanNode.leaf (toChar (n : Int)) (f : Int), rest) := by
  simp only [parseNode]
  rw [skipWhitespace_of_not_isspace _ _ (by decide)]
  simp only [expectChar, if_true, bind, Except.bind]
  rw [parseString_ch]
  simp only []
  rw [skipWhitespace_of_not_isspace _ _ (by decide)]
  simp only [expectChar, if_true, bind, Except.bind]
  rw [skipWhitespace_intToDec _ (by omega), parseInt_intToDec _ (by omega) (by omega) _ _ (by decide)]
  simp only []
  rw [skipWhitespace_of_not_isspace _ _ (by decide)]
  simp only [if_true]
  rw [parseString_freq]
  simp only [ne_eq, not_true_eq_false, if_false, pure, Except.pure]
  rw [skipWhitespace_of_not_isspace _ _ (by decide)]
  simp only [if_true]
  rw [parseInt_intToDec _ (by omega) (by omega) _ _ (by decide)]
  simp only []
  rw [skipWhitespace_of_not_isspace _ _ (by decide)]
  simp only [if_true]

/-- C26: for all non-negative integers `n` and `f` that fit in `int`, `readTreeJson` on the
text `{"ch":n,"freq":f}` succeeds and returns a leaf with frequency `f` whose symbol is
the byte `n mod 256`: a value above 255 is not rejected, and `{"ch":353,"freq":3}` parses
to the same leaf as `{"ch":97,"freq":3}`. -/
theorem readTreeJson_symbol_mod_256 (n f : Nat) (hn : n < 2147483648) (hf : f < 2147483648) :
    readTreeJson ("\x7b\"ch\":".toList ++ natToDec n ++ ",\"freq\":".toList ++ natToDec f
        ++ "\x7d".toList)
      = Except.ok (HuffmanNode.leaf (toChar (n : Int)) (f : Int)) ∧
    (toChar (n : Int)).val = n % 256 ∧
    readTreeJson "\x7b\"ch\":353,\"freq\":3\x7d".toList
      = readTreeJson "\x7b\"ch\":97,\"freq\":3\x7d".toList ∧
    readTreeJson "\x7b\"ch\":353,\"freq\":3\x7d".toList = Except.ok (HuffmanNode.leaf 97 3) := by
  have e1 : readTreeJson "\x7b\"ch\":353,\"freq\":3\x7d".toList
      = Except.ok (HuffmanNode.leaf 97 3) := rfl
  have e2 : readTreeJson "\x7b\"ch\":97,\"freq\":3\x7d".toList
      = Except.ok (HuffmanNode.leaf 97 3) := rfl
  refine ⟨?_, toChar_natCast_val n, e1.trans e2.symm, e1⟩
  have h := parseNode_leaf_text n f hn hf
    (("\x7b\"ch\":".toList ++ natToDec n ++ ",\"freq\":".toList ++ natToDec f
        ++ "\x7d".toList).length) []
  rw [intToDec_natCast, intToDec_natCast] at h
  unfold readTreeJson
  have ht : "\x7b\"ch\":".toList ++ natToDec n ++ ",\"freq\":".toList ++ natToDec f
        ++ "\x7d".toList
      = '\x7b' :: '"' :: 'c' :: 'h' :: '"' :: ':' :: (natToDec n ++
        ',' :: '"' :: 'f' :: 'r' :: 'e' :: 'q' :: '"' :: ':' :: (natToDec f ++
        '\x7d' :: [])) := by
    simp
  rw [ht] at h ⊢
  rw [h]
  rfl

/-- C26 (witness): the symbol value 353 with frequency 1. -/
theorem readTreeJson_symbol_mod_256_witness :
    readTreeJson ("\x7b\"ch\":".toList ++ natToDec 353 ++ ",\"freq\":".toList ++ natToDec 1
        ++ "\x7d".toList)
      = Except.ok (HuffmanNode.leaf (toChar ((353 : Nat) : Int)) ((1 : Nat) : Int)) ∧
    (toChar ((353 : Nat) : Int)).val = 353 % 256 :=
  ⟨(readTreeJson_symbol_mod_256 353 1 (by decide) (by decide)).1,
    (readTreeJson_symbol_mod_256 353 1 (by decide) (by decide)).2.1⟩

/-- C23: inside a string literal `parseString` decodes each of the eight escapes
`\"`, `\\`, `\/`, `\b`, `\f`, `\n`, `\r`, `\t` to its single character (quotation mark,
backslash, slash, backspace, form feed, newline, carriage return, tab) and goes on,
and it fails when a backslash is followed by any other character (`\u` included) or by
the end of the input. -/
theorem parseString_escapes :
    (∀ body, parseString ('"' :: body) = parseStringLoop body []) ∧
    (∀ rest result, parseStringLoop ('\\' :: '"' :: rest) result
      = parseStringLoop rest (result ++ ['"'])) ∧
    (∀ rest result, parseStringLoop ('\\' :: '\\' :: rest) result
      = parseStringLoop rest (result ++ ['\\'])) ∧
    (∀ rest result, parseStringLoop ('\\' :: '/' :: rest) result
      = parseStringLoop rest (result ++ ['/'])) ∧
    (∀ rest result, parseStringLoop ('\\' :: 'b' :: rest) result
      = parseStringLoop rest (result ++ [Char.ofNat 8])) ∧
    (∀ rest result, parseStringLoop ('\\' :: 'f' :: rest) result
      = parseStringLoop rest (result ++ [Char.ofNat 12])) ∧
    (∀ rest result, parseStringLoop ('\\' :: 'n' :: rest) result
      = parseStringLoop rest (result ++ ['\n'])) ∧
    (∀ rest result, parseStringLoop ('\\' :: 'r' :: rest) result
      = parseStringLoop rest (result ++ ['\r'])) ∧
    (∀ rest result, parseStringLoop ('\\' :: 't' :: rest) result
      = parseStringLoop rest (result ++ ['\t'])) ∧
    (∀ esc rest result, esc ∉ ['"', '\\', '/', 'b', 'f', 'n', 'r', 't'] →
      parseStringLoop ('\\' :: esc :: rest) result = Except.error "Unknown sequence!") ∧
    (∀ result, parseStringLoop ['\\'] result = Except.error "Unknown sequence!") ∧
    parseString ['"', 'a', '\\', 't', 'b', '\\', '"', '\\', '/', '"', 'x']
      = Except.ok (['a', '\t', 'b', '"', '/'], ['x']) ∧
    parseString ['"', '\\', 'u', '0', '0', '4', '1', '"']
      = Except.error "Unknown sequence!" ∧
    parseString ['"', 'a', '\\'] = Except.error "Unknown sequence!" := by
  refine ⟨?_, ?_, ?_, ?_, ?_, ?_, ?_, ?_, ?_, ?_, ?_, rfl, rfl, rfl⟩
  · intro body
    simp [parseString, skipWhitespace, isspace]
  · intro rest result; simp [parseStringLoop]
  · intro rest result; simp [parseStringLoop]
  · intro rest result; simp [parseStringLoop]
  · intro rest result; simp [parseStringLoop]
  · intro rest result; simp [parseStringLoop]
  · intro rest result; simp [parseStringLoop]
  · intro rest result; simp [parseStringLoop]
  · intro rest result; simp [parseStringLoop]
  · intro esc rest result h
    simp only [List.mem_cons, List.mem_singleton, List.not_mem_nil, or_false, not_or] at h
    obtain ⟨h1, h2, h3, h4, h5, h6, h7, h8⟩ := h
    simp [parseStringLoop, h1, h2, h3, h4, h5, h6, h7, h8]
  · intro result
    simp [parseStringLoop]

/-- C24 (as stated, refuted): a leaf whose symbol is the byte 0 has the character '\0' and
is treated as a leaf: `generateCodes` gives it a code, `writeNodeJson` writes it as a
leaf and `decodeBits` writes its symbol; so "internal exactly when the character is
'\0'" does not hold. -/
theorem leaf_zero_is_leaf :
    (HuffmanNode.leaf 0 1).ch = 0 ∧ (HuffmanNode.leaf 0 1).isLeaf = true ∧
    generateCodes (HuffmanNode.internal 2 (HuffmanNode.leaf 0 1) (HuffmanNode.leaf 97 1)) [] []
      = [(0, ['0']), (97, ['1'])] ∧
    writeNodeJson (HuffmanNode.leaf 0 1) [] = "\x7b\"ch\":0,\"freq\":1\x7d".toList ∧
    decodeBits (some (HuffmanNode.internal 2 (HuffmanNode.leaf 0 1) (HuffmanNode.leaf 97 1)))
      ['0', '1', '0'] = (0, [0, 97, 0]) ∧
    ¬ (∀ n : HuffmanNode, n.isLeaf = false ↔ n.ch = 0) := by
  refine ⟨rfl, rfl, rfl, rfl, rfl, ?_⟩
  intro h
  have := (h (HuffmanNode.leaf 0 1)).2 rfl
  cases this

/-- C24 (amended): `generateCodes`, `writeNodeJson` and `decodeBits` treat a node as a
leaf exactly when both its children are null, whatever its character: a node with
children has the character '\0' and is an internal node, and a leaf is handled as a
leaf for every symbol, the byte 0 included. -/
theorem node_kind_by_children :
    (∀ n : HuffmanNode, n.isLeaf = true ↔ (n.left = none ∧ n.right = none)) ∧
    (∀ f l r, (HuffmanNode.internal f l r).ch = 0 ∧ (HuffmanNode.internal f l r).isLeaf = false) ∧
    (∀ c f, (HuffmanNode.leaf c f).isLeaf = true) ∧
    (∀ c f pre codes, generateCodes (HuffmanNode.leaf c f) pre codes = setCode codes c pre) ∧
    (∀ c f os, writeNodeJson (HuffmanNode.leaf c f) os =
      os ++ "\x7b\"ch\":".toList ++ intToDec (c.val : Int) ++ ",\"freq\":".toList ++ intToDec f
        ++ "\x7d".toList) ∧
    (∀ c f g r bits out, decodeLoop (some (HuffmanNode.internal g (HuffmanNode.leaf c f) r))
        ('0' :: bits) (some (HuffmanNode.internal g (HuffmanNode.leaf c f) r)) out
      = decodeLoop (some (HuffmanNode.internal g (HuffmanNode.leaf c f) r)) bits
          (some (HuffmanNode.internal g (HuffmanNode.leaf c f) r)) (out ++ [c])) := by
  refine ⟨?_, fun _ _ _ => ⟨rfl, rfl⟩, fun _ _ => rfl, fun _ _ _ _ => rfl, fun _ _ _ => rfl, ?_⟩
  · intro n
    cases n <;> simp [HuffmanNode.isLeaf, HuffmanNode.left, HuffmanNode.right]
  · intro c f g r bits out
    simp [decodeLoop, HuffmanNode.left, HuffmanNode.isLeaf, HuffmanNode.right, HuffmanNode.ch]

/-! ## Field names in the tree parser -/

theorem skipWhitespace_idem (l : List Char) : skipWhitespace (skipWhitespace l) = skipWhitespace l := by
  induction l with
  | nil => rfl
  | cons c rest ih =>
    by_cases h : isspace c = true
    · simp only [skipWhitespace, h, if_true, ih]
    · simp only [skipWhitespace, h, if_false]

theorem parseString_skipWhitespace (l : List Char) :
    parseString (skipWhitespace l) = parseString l := by
  unfold parseString
  rw [skipWhitespace_idem]

theorem parseInt_skipWhitespace (l : List Char) :
    parseInt (skipWhitespace l) = parseInt l := by
  unfold parseInt
  rw [skipWhitespace_idem]

theorem parseNode_other_key (fuel : Nat) (is0 is1 key is2 : List Char)
    (h0 : skipWhitespace is0 = '\x7b' :: is1) (h1 : parseString is1 = Except.ok (key, is2))
    (hk1 : key ≠ "ch".toList) (hk2 : key ≠ "freq".toList) :
    parseNode (fuel + 1) is0 = Except.error "Something went wrong!" ∨
    parseNode (fuel + 1) is0 = Except.error "Key/value pair must be separated by \x27:\x27" := by
  simp only [parseNode, h0, expectChar, if_true, bind, Except.bind, parseString_skipWhitespace, h1]
  cases h2 : skipWhitespace is2 with
  | nil => right; rfl
  | cons d is3 =>
    by_cases hd : d = ':'
    · left
      simp only [expectChar, hd, if_true, hk1, hk2, if_false]
      rfl
    · right
      simp only [expectChar, hd, if_false]


theorem parseNode_ch_second_key (fuel : Nat) (is0 is1 is2 is3 is4 is5 key2 is6 : List Char) (v : Int)
    (h0 : skipWhitespace is0 = '\x7b' :: is1) (h1 : parseString is1 = Except.ok ("ch".toList, is2))
    (h2 : skipWhitespace is2 = ':' :: is3) (h3 : parseInt is3 = Except.ok (v, is4))
    (h4 : skipWhitespace is4 = ',' :: is5) (h5 : parseString is5 = Except.ok (key2, is6))
    (hk : key2 ≠ "freq".toList) :
    parseNode (fuel + 1) is0 = Except.error "Second key should be freq!" := by
  simp only [parseNode, h0, expectChar, if_true, bind, Except.bind, parseString_skipWhitespace, h1,
    h2, parseInt_skipWhitespace, h3, h4, h5, ne_eq, hk, not_false_eq_true]

theorem parseNode_freq_second_key (fuel : Nat) (is0 is1 is2 is3 is4 is5 key2 is6 : List Char)
    (v : Int)
    (h0 : skipWhitespace is0 = '\x7b' :: is1) (h1 : parseString is1 = Except.ok ("freq".toList, is2))
    (h2 : skipWhitespace is2 = ':' :: is3) (h3 : parseInt is3 = Except.ok (v, is4))
    (h4 : skipWhitespace is4 = ',' :: is5) (h5 : parseString is5 = Except.ok (key2, is6))
    (hk : key2 ≠ "left".toList) :
    parseNode (fuel + 1) is0 = Except.error "Key should be left!" := by
  have hne : ¬ ("freq".toList = "ch".toList) := by decide
  simp only [parseNode, h0, expectChar, if_true, bind, Except.bind, parseString_skipWhitespace, h1,
    h2, parseInt_skipWhitespace, h3, h4, h5, ne_eq, hk, not_false_eq_true, hne, if_false]

theorem parseNode_freq_third_key (fuel : Nat)
    (is0 is1 is2 is3 is4 is5 is6 is7 is8 is9 key3 is10 : List Char) (v : Int) (l : HuffmanNode)
    (h0 : skipWhitespace is0 = '\x7b' :: is1) (h1 : parseString is1 = Except.ok ("freq".toList, is2))
    (h2 : skipWhitespace is2 = ':' :: is3) (h3 : parseInt is3 = Except.ok (v, is4))
    (h4 : skipWhitespace is4 = ',' :: is5) (h5 : parseString is5 = Except.ok ("left".toList, is6))
    (h6 : skipWhitespace is6 = ':' :: is7) (h7 : parseNode fuel is7 = Except.ok (l, is8))
    (h8 : skipWhitespace is8 = ',' :: is9) (h9 : parseString is9 = Except.ok (key3, is10))
    (hk : key3 ≠ "right".toList) :
    parseNode (fuel + 1) is0 = Except.error "Key should be right!" := by
  have hne : ¬ ("freq".toList = "ch".toList) := by decide
  simp only [parseNode, h0, expectChar, if_true, bind, Except.bind, parseString_skipWhitespace, h1,
    h2, parseInt_skipWhitespace, h3, h4, h5, ne_eq, hk, not_false_eq_true, hne, if_false,
    not_true_eq_false, pure, Except.pure, h6, h7, h8, h9]


theorem except_bind_eq_ok {α β : Type} (x : Except String α) (f : α → Except String β) (b : β) :
    Except.bind x f = Except.ok b ↔ ∃ a, x = Except.ok a ∧ f a = Except.ok b := by
  cases x with
  | error e => simp [Except.bind]
  | ok a => simp [Except.bind]

theorem expectChar_eq_ok (c : Char) (msg : String) (l r : List Char) :
    expectChar c msg l = Except.ok r ↔ l = c :: r := by
  cases l with
  | nil => simp [expectChar]
  | cons d t =>
    by_cases hd : d = c
    · simp [expectChar, hd]
    · simp [expectChar, hd]

theorem throw_bind_ne_ok {α β : Type} (e : String) (f : α → Except String β) (b : β) :
    ¬ ((throw e : Except String α).bind f = Except.ok b) := by
  intro h
  cases h

theorem parseNode_ok_shape (fuel : Nat) (is0 : List Char) (T : HuffmanNode) (rest : List Char)
    (h : parseNode (fuel + 1) is0 = Except.ok (T, rest)) :
    ∃ is1 key is2 is3 v is4 is5, skipWhitespace is0 = '\x7b' :: is1 ∧
      parseString is1 = Except.ok (key, is2) ∧ skipWhitespace is2 = ':' :: is3 ∧
      parseInt is3 = Except.ok (v, is4) ∧ skipWhitespace is4 = ',' :: is5 ∧
      ((key = "ch".toList ∧ ∃ is6 is7 f is8,
          parseString is5 = Except.ok ("freq".toList, is6) ∧ skipWhitespace is6 = ':' :: is7 ∧
          parseInt is7 = Except.ok (f, is8) ∧ skipWhitespace is8 = '\x7d' :: rest ∧
          T = HuffmanNode.leaf (toChar v) f) ∨
       (key = "freq".toList ∧ ∃ is6 is7 l is8 is9 is10 is11 r is12,
          parseString is5 = Except.ok ("left".toList, is6) ∧ skipWhitespace is6 = ':' :: is7 ∧
          parseNode fuel is7 = Except.ok (l, is8) ∧ skipWhitespace is8 = ',' :: is9 ∧
          parseString is9 = Except.ok ("right".toList, is10) ∧
          skipWhitespace is10 = ':' :: is11 ∧
          parseNode fuel is11 = Except.ok (r, is12) ∧ skipWhitespace is12 = '\x7d' :: rest ∧
          T = HuffmanNode.internal v l r)) := by
  simp only [parseNode, bind] at h
  rw [except_bind_eq_ok] at h
  obtain ⟨is1, h0, h⟩ := h
  rw [expectChar_eq_ok] at h0
  rw [except_bind_eq_ok] at h
  obtain ⟨⟨key, is2⟩, h1, h⟩ := h
  rw [parseString_skipWhitespace] at h1
  simp only [] at h
  rw [except_bind_eq_ok] at h
  obtain ⟨is3, h2, h⟩ := h
  rw [expectChar_eq_ok] at h2
  by_cases hk : key = "ch".toList
  · rw [if_pos hk] at h
    rw [except_bind_eq_ok] at h
    obtain ⟨⟨v, is4⟩, h3, h⟩ := h
    rw [parseInt_skipWhitespace] at h3
    simp only [] at h
    rw [except_bind_eq_ok] at h
    obtain ⟨is5, h4, h⟩ := h
    rw [expectChar_eq_ok] at h4
    rw [except_bind_eq_ok] at h
    obtain ⟨⟨key2, is6⟩, h5, h⟩ := h
    rw [parseString_skipWhitespace] at h5
    simp only [] at h
    by_cases hk2 : key2 = "freq".toList
    · rw [if_neg (not_not.2 hk2)] at h
      rw [except_bind_eq_ok] at h
      obtain ⟨_, -, h⟩ := h
      rw [except_bind_eq_ok] at h
      obtain ⟨is7, h6, h⟩ := h
      rw [expectChar_eq_ok] at h6
      rw [except_bind_eq_ok] at h
      obtain ⟨⟨f, is8⟩, h7, h⟩ := h
      simp only [] at h
      rw [except_bind_eq_ok] at h
      obtain ⟨is9, h8, h⟩ := h
      rw [expectChar_eq_ok] at h8
      cases h
      subst hk2
      exact ⟨is1, key, is2, is3, v, is4, is5, h0, h1, h2, h3, h4,
        Or.inl ⟨hk, is6, is7, f, is8, h5, h6, h7, h8, rfl⟩⟩
    · rw [if_pos hk2] at h
      exact absurd h (throw_bind_ne_ok _ _ _)
  · rw [if_neg hk] at h
    by_cases hkf : key = "freq".toList
    · rw [if_pos hkf] at h
      rw [except_bind_eq_ok] at h
      obtain ⟨⟨v, is4⟩, h3, h⟩ := h
      rw [parseInt_skipWhitespace] at h3
      simp only [] at h
      rw [except_bind_eq_ok] at h
      obtain ⟨is5, h4, h⟩ := h
      rw [expectChar_eq_ok] at h4
      rw [except_bind_eq_ok] at h
      obtain ⟨⟨key2, is6⟩, h5, h⟩ := h
      rw [parseString_skipWhitespace] at h5
      simp only [] at h
      by_cases hk2 : key2 = "left".toList
      · rw [if_neg (not_not.2 hk2)] at h
        rw [except_bind_eq_ok] at h
        obtain ⟨_, -, h⟩ := h
        rw [except_bind_eq_ok] at h
        obtain ⟨is7, h6, h⟩ := h
        rw [expectChar_eq_ok] at h6
        rw [except_bind_eq_ok] at h
        obtain ⟨⟨l, is8⟩, h7, h⟩ := h
        simp only [] at h
        rw [except_bind_eq_ok] at h
        obtain ⟨is9, h8, h⟩ := h
        rw [expectChar_eq_ok] at h8
        rw [except_bind_eq_ok] at h
        obtain ⟨⟨key3, is10⟩, h9, h⟩ := h
        rw [parseString_skipWhitespace] at h9
        simp only [] at h
        by_cases hk3 : key3 = "right".toList
        · rw [if_neg (not_not.2 hk3)] at h
          rw [except_bind_eq_ok] at h
          obtain ⟨_, -, h⟩ := h
          rw [except_bind_eq_ok] at h
          obtain ⟨is11, h10, h⟩ := h
          rw [expectChar_eq_ok] at h10
          rw [except_bind_eq_ok] at h
          obtain ⟨⟨r, is12⟩, h11, h⟩ := h
          simp only [] at h
          rw [except_bind_eq_ok] at h
          obtain ⟨is13, h12, h⟩ := h
          rw [expectChar_eq_ok] at h12
          cases h
          subst hk2 hk3
          exact ⟨is1, key, is2, is3, v, is4, is5, h0, h1, h2, h3, h4,
            Or.inr ⟨hkf, is6, is7, l, is8, is9, is10, is11, r, is12, h5, h6, h7, h8, h9, h10, h11,
              h12, rfl⟩⟩
        · rw [if_pos hk3] at h
          exact absurd h (throw_bind_ne_ok _ _ _)
      · rw [if_pos hk2] at h
        exact absurd h (throw_bind_ne_ok _ _ _)
    · rw [if_neg hkf] at h
      cases h


/-- C22: at every node object the parser reads (the text `is0` after which `parseNode` is
called, at any nesting level), it fails when the first key is neither "ch" nor "freq",
when the first key is "ch" and the second key is not "freq", when the first key is
"freq" and the second key is not "left", and when the keys are "freq", "left" and the
third key is not "right"; whenever it succeeds the keys are "ch", "freq" and the result
is a leaf, or "freq", "left", "right" and the result is an internal node.  So
`{"freq":3,"ch":97}` and an internal node listing "right" before "left" are rejected. -/
theorem parseNode_field_names (fuel : Nat) (is0 : List Char) :
    (readTreeJson is0 = (parseNode (is0.length + 1) is0).map Prod.fst) ∧
    (∀ is1 key is2, skipWhitespace is0 = '\x7b' :: is1 → parseString is1 = Except.ok (key, is2) →
      key ≠ "ch".toList → key ≠ "freq".toList →
      parseNode (fuel + 1) is0 = Except.error "Something went wrong!" ∨
      parseNode (fuel + 1) is0 = Except.error "Key/value pair must be separated by \x27:\x27") ∧
    (∀ is1 is2 is3 v is4 is5 key2 is6, skipWhitespace is0 = '\x7b' :: is1 →
      parseString is1 = Except.ok ("ch".toList, is2) → skipWhitespace is2 = ':' :: is3 →
      parseInt is3 = Except.ok (v, is4) → skipWhitespace is4 = ',' :: is5 →
      parseString is5 = Except.ok (key2, is6) → key2 ≠ "freq".toList →
      parseNode (fuel + 1) is0 = Except.error "Second key should be freq!") ∧
    (∀ is1 is2 is3 v is4 is5 key2 is6, skipWhitespace is0 = '\x7b' :: is1 →
      parseString is1 = Except.ok ("freq".toList, is2) → skipWhitespace is2 = ':' :: is3 →
      parseInt is3 = Except.ok (v, is4) → skipWhitespace is4 = ',' :: is5 →
      parseString is5 = Except.ok (key2, is6) → key2 ≠ "left".toList →
      parseNode (fuel + 1) is0 = Except.error "Key should be left!") ∧
    (∀ is1 is2 is3 v is4 is5 is6 is7 l is8 is9 key3 is10, skipWhitespace is0 = '\x7b' :: is1 →
      parseString is1 = Except.ok ("freq".toList, is2) → skipWhitespace is2 = ':' :: is3 →
      parseInt is3 = Except.ok (v, is4) → skipWhitespace is4 = ',' :: is5 →
      parseString is5 = Except.ok ("left".toList, is6) → skipWhitespace is6 = ':' :: is7 →
      parseNode fuel is7 = Except.ok (l, is8) → skipWhitespace is8 = ',' :: is9 →
      parseString is9 = Except.ok (key3, is10) → key3 ≠ "right".toList →
      parseNode (fuel + 1) is0 = Except.error "Key should be right!") ∧
    (∀ T rest, parseNode (fuel + 1) is0 = Except.ok (T, rest) →
      ∃ is1 key is2 is3 v is4 is5, skipWhitespace is0 = '\x7b' :: is1 ∧
        parseString is1 = Except.ok (key, is2) ∧ skipWhitespace is2 = ':' :: is3 ∧
        parseInt is3 = Except.ok (v, is4) ∧ skipWhitespace is4 = ',' :: is5 ∧
        ((key = "ch".toList ∧ T.isLeaf = true ∧ ∃ is6 is7 f is8,
            parseString is5 = Except.ok ("freq".toList, is6) ∧ skipWhitespace is6 = ':' :: is7 ∧
            parseInt is7 = Except.ok (f, is8) ∧ skipWhitespace is8 = '\x7d' :: rest ∧
            T = HuffmanNode.leaf (toChar v) f) ∨
         (key = "freq".toList ∧ T.isLeaf = false ∧ ∃ is6 is7 l is8 is9 is10 is11 r is12,
            parseString is5 = Except.ok ("left".toList, is6) ∧ skipWhitespace is6 = ':' :: is7 ∧
            parseNode fuel is7 = Except.ok (l, is8) ∧ skipWhitespace is8 = ',' :: is9 ∧
            parseString is9 = Except.ok ("right".toList, is10) ∧
            skipWhitespace is10 = ':' :: is11 ∧
            parseNode fuel is11 = Except.ok (r, is12) ∧ skipWhitespace is12 = '\x7d' :: rest ∧
            T = HuffmanNode.internal v l r))) ∧
    readTreeJson "\x7b\"freq\":3,\"ch\":97\x7d".toList = Except.error "Key should be left!" ∧
    readTreeJson
      "\x7b\"freq\":2,\"right\":\x7b\"ch\":98,\"freq\":1\x7d,\"left\":\x7b\"ch\":97,\"freq\":1\x7d\x7d".toList
      = Except.error "Key should be left!" ∧
    readTreeJson
      "\x7b\"freq\":2,\"left\":\x7b\"ch\":97,\"freq\":1\x7d,\"left\":\x7b\"ch\":98,\"freq\":1\x7d\x7d".toList
      = Except.error "Key should be right!" ∧
    readTreeJson "\x7b\"ch\":97,\"ch\":3\x7d".toList
      = Except.error "Second key should be freq!" ∧
    readTreeJson "\x7b\"symbol\":97,\"freq\":3\x7d".toList
      = Except.error "Something went wrong!" ∧
    readTreeJson
      "\x7b\"freq\":2,\"left\":\x7b\"freq\":1,\"ch\":97\x7d,\"right\":\x7b\"ch\":98,\"freq\":1\x7d\x7d".toList
      = Except.error "Key should be left!" := by
  refine ⟨rfl, ?_, ?_, ?_, ?_, ?_, rfl, rfl, rfl, rfl, rfl, rfl⟩
  · intro is1 key is2 h0 h1 hk1 hk2
    exact parseNode_other_key fuel is0 is1 key is2 h0 h1 hk1 hk2
  · intro is1 is2 is3 v is4 is5 key2 is6 h0 h1 h2 h3 h4 h5 hk
    exact parseNode_ch_second_key fuel is0 is1 is2 is3 is4 is5 key2 is6 v h0 h1 h2 h3 h4 h5 hk
  · intro is1 is2 is3 v is4 is5 key2 is6 h0 h1 h2 h3 h4 h5 hk
    exact parseNode_freq_second_key fuel is0 is1 is2 is3 is4 is5 key2 is6 v h0 h1 h2 h3 h4 h5 hk
  · intro is1 is2 is3 v is4 is5 is6 is7 l is8 is9 key3 is10 h0 h1 h2 h3 h4 h5 h6 h7 h8 h9 hk
    exact parseNode_freq_third_key fuel is0 is1 is2 is3 is4 is5 is6 is7 is8 is9 key3 is10 v l
      h0 h1 h2 h3 h4 h5 h6 h7 h8 h9 hk
  · intro T rest h
    obtain ⟨is1, key, is2, is3, v, is4, is5, h0, h1, h2, h3, h4, h5⟩ :=
      parseNode_ok_shape fuel is0 T rest h
    refine ⟨is1, key, is2, is3, v, is4, is5, h0, h1, h2, h3, h4, ?_⟩
    rcases h5 with ⟨hk, is6, is7, f, is8, a1, a2, a3, a4, rfl⟩ |
      ⟨hk, is6, is7, l, is8, is9, is10, is11, r, is12, a1, a2, a3, a4, a5, a6, a7, a8, rfl⟩
    · exact Or.inl ⟨hk, rfl, is6, is7, f, is8, a1, a2, a3, a4, rfl⟩
    · exact Or.inr ⟨hk, rfl, is6, is7, l, is8, is9, is10, is11, r, is12, a1, a2, a3, a4, a5, a6,
        a7, a8, rfl⟩

/-- C22 (witness): the object `{"ch":97,"weight":3}` has first key "ch" and second key
"weight", and the object `{"freq":3,"ch":97}` has first key "freq" and second key "ch". -/
theorem parseNode_field_names_witness :
    parseNode 1 "\x7b\"ch\":97,\"weight\":3\x7d".toList
      = Except.error "Second key should be freq!" ∧
    parseNode 1 "\x7b\"freq\":3,\"ch\":97\x7d".toList = Except.error "Key should be left!" :=
  ⟨(parseNode_field_names 0 "\x7b\"ch\":97,\"weight\":3\x7d".toList).2.2.1
      "\"ch\":97,\"weight\":3\x7d".toList ":97,\"weight\":3\x7d".toList
      "97,\"weight\":3\x7d".toList 97 ",\"weight\":3\x7d".toList "\"weight\":3\x7d".toList
      "weight".toList ":3\x7d".toList rfl rfl rfl rfl rfl rfl (by decide),
   (parseNode_field_names 0 "\x7b\"freq\":3,\"ch\":97\x7d".toList).2.2.2.1
      "\"freq\":3,\"ch\":97\x7d".toList ":3,\"ch\":97\x7d".toList
      "3,\"ch\":97\x7d".toList 3 ",\"ch\":97\x7d".toList "\"ch\":97\x7d".toList
      "ch".toList ":97\x7d".toList rfl rfl rfl rfl rfl rfl (by decide)⟩


/-- C23 (witness): a backslash followed by `u`. -/
theorem parseString_escapes_witness :
    'u' ∉ ['"', '\\', '/', 'b', 'f', 'n', 'r', 't'] ∧
    parseStringLoop ('\\' :: 'u' :: ['0', '0', '4', '1', '"']) ['a']
      = Except.error "Unknown sequence!" :=
  ⟨by decide,
    parseString_escapes.2.2.2.2.2.2.2.2.2.1 'u' ['0', '0', '4', '1', '"'] ['a'] (by decide)⟩

/-! ## Whitespace between the tokens of the tree text -/

theorem skipWhitespace_ws (w r : List Char) (hw : ∀ c ∈ w, isspace c = true) :
    skipWhitespace (w ++ r) = skipWhitespace r := by
  induction w with
  | nil => rfl
  | cons d w ih =>
    have hd : isspace d = true := hw d (List.mem_cons_self _ _)
    simp only [List.cons_append, skipWhitespace, hd, if_true]
    exact ih (fun c hc => hw c (List.mem_cons_of_mem _ hc))

theorem skipWhitespace_tok (w : List Char) (c : Char) (r : List Char)
    (hw : ∀ c ∈ w, isspace c = true) (hc : isspace c = false) :
    skipWhitespace (w ++ c :: r) = c :: r := by
  rw [skipWhitespace_ws w _ hw, skipWhitespace_of_not_isspace c r hc]

theorem parseString_ws (w r : List Char) (hw : ∀ c ∈ w, isspace c = true) :
    parseString (w ++ r) = parseString r := by
  unfold parseString
  rw [skipWhitespace_ws w r hw]

theorem parseInt_ws (w r : List Char) (hw : ∀ c ∈ w, isspace c = true) :
    parseInt (w ++ r) = parseInt r := by
  unfold parseInt
  rw [skipWhitespace_ws w r hw]

theorem not_isdigit_of_isspace (c : Char) (h : isspace c = true) : isdigit c = false := by
  cases hd : isdigit c with
  | false => rfl
  | true =>
    have := not_isspace_of_isdigit c hd
    rw [h] at this
    cases this

theorem parseIntLoop_stop (w : List Char) (c : Char) (rest : List Char) (v : Int)
    (hw : ∀ c ∈ w, isspace c = true) (hc : isdigit c = false) :
    parseIntLoop (w ++ c :: rest) v = (v, w ++ c :: rest) := by
  cases w with
  | nil => simp [parseIntLoop, hc]
  | cons d w =>
    have hd : isdigit d = false := not_isdigit_of_isspace d (hw d (List.mem_cons_self _ _))
    simp [parseIntLoop, hd]

theorem parseInt_spaced_nonneg (x : Int) (h0 : 0 ≤ x) (w w1 : List Char) (c : Char)
    (rest : List Char) (hw : ∀ c ∈ w, isspace c = true) (hw1 : ∀ c ∈ w1, isspace c = true)
    (hc : isdigit c = false) :
    parseInt (w ++ (intToDec x ++ (w1 ++ c :: rest)))
      = Except.ok ((intToDec x).foldl digitStep 0, w1 ++ c :: rest) := by
  rw [parseInt_ws w _ hw]
  have hx : intToDec x = natToDec x.natAbs := by
    unfold intToDec
    rw [if_neg (by omega)]
  rw [hx]
  obtain ⟨d, ds, hds⟩ := List.exists_cons_of_ne_nil (natToDec_ne_nil x.natAbs)
  have hdig := natToDec_digits x.natAbs
  have hd : isdigit d = true := hdig d (by rw [hds]; exact List.mem_cons_self _ _)
  unfold parseInt
  rw [hds, List.cons_append, skipWhitespace_of_not_isspace _ _ (not_isspace_of_isdigit d hd)]
  simp only [hd, if_true]
  rw [← List.cons_append, ← hds, parseIntLoop_append _ _ _ hdig, parseIntLoop_stop _ _ _ _ hw1 hc]

theorem parseInt_spaced_neg (x : Int) (h0 : x < 0) (w r : List Char)
    (hw : ∀ c ∈ w, isspace c = true) :
    parseInt (w ++ (intToDec x ++ r)) = Except.error "Expected digit!" := by
  rw [parseInt_ws w _ hw]
  unfold intToDec
  rw [if_pos h0]
  rfl

theorem parseString_key_ch (r : List Char) :
    parseString ('"' :: 'c' :: 'h' :: '"' :: r) = Except.ok ("ch".toList, r) := by
  rw [← parseString_skipWhitespace, parseString_ch]

theorem parseString_key_freq (r : List Char) :
    parseString ('"' :: 'f' :: 'r' :: 'e' :: 'q' :: '"' :: r) = Except.ok ("freq".toList, r) := by
  rw [← parseString_skipWhitespace, parseString_freq]

theorem parseString_key_left (r : List Char) :
    parseString ('"' :: 'l' :: 'e' :: 'f' :: 't' :: '"' :: r) = Except.ok ("left".toList, r) := by
  rw [← parseString_skipWhitespace, parseString_left]

theorem parseString_key_right (r : List Char) :
    parseString ('"' :: 'r' :: 'i' :: 'g' :: 'h' :: 't' :: '"' :: r)
      = Except.ok ("right".toList, r) := by
  rw [← parseString_skipWhitespace, parseString_right]

theorem parseNode_spaced_leaf (g : Nat → List Char) (hg : ∀ i, ∀ c ∈ g i, isspace c = true)
    (c : Byte) (f : Int) (k fuel : Nat) (rest : List Char) :
    parseNode (fuel + 1) ((writeTreeJsonSpaced g (HuffmanNode.leaf c f) k).1 ++ rest)
      = if f < 0 then Except.error "Expected digit!"
        else Except.ok (HuffmanNode.leaf (toChar ((intToDec (c.val : Int)).foldl digitStep 0))
          ((intToDec f).foldl digitStep 0), rest) := by
  simp only [writeTreeJsonSpaced, List.append_assoc, List.cons_append, List.nil_append]
  simp only [parseNode]
  rw [skipWhitespace_tok _ _ _ (hg _) (by decide)]
  simp only [expectChar, if_true, bind, Except.bind]
  rw [parseString_skipWhitespace, parseString_ws _ _ (hg _), parseString_key_ch]
  simp only []
  rw [skipWhitespace_tok _ _ _ (hg _) (by decide)]
  simp only [expectChar, if_true, bind, Except.bind]
  rw [parseInt_skipWhitespace, parseInt_spaced_nonneg _ (by omega) _ _ _ _ (hg _) (hg _) (by decide)]
  simp only []
  rw [skipWhitespace_tok _ _ _ (hg _) (by decide)]
  simp only [if_true]
  rw [parseString_skipWhitespace, parseString_ws _ _ (hg _), parseString_key_freq]
  simp only [ne_eq, not_true_eq_false, if_false, pure, Except.pure]
  rw [skipWhitespace_tok _ _ _ (hg _) (by decide)]
  simp only [if_true]
  by_cases hf : f < 0
  · rw [parseInt_spaced_neg _ hf _ _ (hg _), if_pos hf]
  · rw [parseInt_spaced_nonneg _ (by omega) _ _ _ _ (hg _) (hg _) (by decide), if_neg hf]
    simp only []
    rw [skipWhitespace_tok _ _ _ (hg _) (by decide)]
    simp only [if_true]


theorem parseNode_spaced_internal (g : Nat → List Char)
    (hg : ∀ i, ∀ c ∈ g i, isspace c = true) (f : Int) (l r : HuffmanNode) (k fuel : Nat)
    (rest : List Char) (resl resr : Except String HuffmanNode)
    (ihl : ∀ k rest, parseNode fuel ((writeTreeJsonSpaced g l k).1 ++ rest)
      = resl.map (fun t => (t, rest)))
    (ihr : ∀ k rest, parseNode fuel ((writeTreeJsonSpaced g r k).1 ++ rest)
      = resr.map (fun t => (t, rest))) :
    parseNode (fuel + 1) ((writeTreeJsonSpaced g (HuffmanNode.internal f l r) k).1 ++ rest)
      = if f < 0 then Except.error "Expected digit!"
        else resl.bind (fun l1 => resr.bind (fun r1 =>
          Except.ok (HuffmanNode.internal ((intToDec f).foldl digitStep 0) l1 r1, rest))) := by
  have hne : ¬ ("freq".toList = "ch".toList) := by decide
  simp only [writeTreeJsonSpaced, List.append_assoc, List.cons_append, List.nil_append]
  simp only [parseNode]
  rw [skipWhitespace_tok _ _ _ (hg _) (by decide)]
  simp only [expectChar, if_true, bind, Except.bind]
  rw [parseString_skipWhitespace, parseString_ws _ _ (hg _), parseString_key_freq]
  simp only []
  rw [skipWhitespace_tok _ _ _ (hg _) (by decide)]
  simp only [expectChar, if_true, bind, Except.bind, hne, if_false]
  rw [parseInt_skipWhitespace]
  by_cases hf : f < 0
  · rw [parseInt_spaced_neg _ hf _ _ (hg _), if_pos hf]
  · rw [parseInt_spaced_nonneg _ (by omega) _ _ _ _ (hg _) (hg _) (by decide), if_neg hf]
    simp only []
    rw [skipWhitespace_tok _ _ _ (hg _) (by decide)]
    simp only [if_true]
    rw [parseString_skipWhitespace, parseString_ws _ _ (hg _), parseString_key_left]
    simp only [ne_eq, not_true_eq_false, if_false, pure, Except.pure]
    rw [skipWhitespace_tok _ _ _ (hg _) (by decide)]
    simp only [if_true]
    rw [ihl]
    cases resl with
    | error e => rfl
    | ok l1 =>
      simp only [Except.map]
      rw [skipWhitespace_tok _ _ _ (hg _) (by decide)]
      simp only [if_true]
      rw [parseString_skipWhitespace, parseString_ws _ _ (hg _), parseString_key_right]
      simp only [ne_eq, not_true_eq_false, if_false, pure, Except.pure]
      rw [skipWhitespace_tok _ _ _ (hg _) (by decide)]
      simp only [if_true]
      rw [ihr]
      cases resr with
      | error e => rfl
      | ok r1 =>
        simp only [Except.map]
        rw [skipWhitespace_tok _ _ _ (hg _) (by decide)]
        simp only [if_true, Except.bind]

theorem parseNode_spaced (T : HuffmanNode) :
    ∃ res : Except String HuffmanNode, ∀ (g : Nat → List Char),
      (∀ i, ∀ c ∈ g i, isspace c = true) → ∀ (k fuel : Nat) (rest : List Char), T.depth < fuel →
        parseNode fuel ((writeTreeJsonSpaced g T k).1 ++ rest) = res.map (fun t => (t, rest)) := by
  induction T with
  | leaf c f =>
    refine ⟨if f < 0 then Except.error "Expected digit!"
        else Except.ok (HuffmanNode.leaf (toChar ((intToDec (c.val : Int)).foldl digitStep 0))
          ((intToDec f).foldl digitStep 0)), ?_⟩
    intro g hg k fuel rest hfuel
    cases fuel with
    | zero => simp [HuffmanNode.depth] at hfuel
    | succ fuel =>
      rw [parseNode_spaced_leaf g hg]
      by_cases hf : f < 0
      · rw [if_pos hf, if_pos hf]; rfl
      · rw [if_neg hf, if_neg hf]; rfl
  | internal f l r ihl ihr =>
    obtain ⟨resl, hl⟩ := ihl
    obtain ⟨resr, hr⟩ := ihr
    refine ⟨if f < 0 then Except.error "Expected digit!"
        else resl.bind (fun l1 => resr.bind (fun r1 =>
          Except.ok (HuffmanNode.internal ((intToDec f).foldl digitStep 0) l1 r1))), ?_⟩
    intro g hg k fuel rest hfuel
    cases fuel with
    | zero => simp at hfuel
    | succ fuel =>
      simp only [HuffmanNode.depth] at hfuel
      rw [parseNode_spaced_internal g hg f l r k fuel rest resl resr
        (fun k rest => hl g hg k fuel rest (by omega))
        (fun k rest => hr g hg k fuel rest (by omega))]
      by_cases hf : f < 0
      · rw [if_pos hf, if_pos hf]; rfl
      · rw [if_neg hf, if_neg hf]
        cases resl with
        | error e => rfl
        | ok l1 =>
          cases resr with
          | error e => rfl
          | ok r1 => rfl

theorem writeTreeJsonSpaced_nil (T : HuffmanNode) (k : Nat) :
    (writeTreeJsonSpaced (fun _ => []) T k).1 = writeNodeJson T [] := by
  induction T generalizing k with
  | leaf c f =>
    have := writeNodeJson_leaf c f []
    rw [List.append_nil] at this
    rw [this]
    simp [writeTreeJsonSpaced]
  | internal f l r ihl ihr =>
    have := writeNodeJson_internal f l r []
    rw [List.append_nil] at this
    rw [this]
    simp only [writeTreeJsonSpaced, ihl, ihr]
    simp

theorem depth_lt_length_writeTreeJsonSpaced (g : Nat → List Char) (T : HuffmanNode) (k : Nat) :
    T.depth < (writeTreeJsonSpaced g T k).1.length := by
  induction T generalizing k with
  | leaf c f => simp [HuffmanNode.depth, writeTreeJsonSpaced]
  | internal f l r ihl ihr =>
    have h1 := ihl (k + 7)
    have h2 := ihr ((writeTreeJsonSpaced g l (k + 7)).2 + 3)
    simp only [HuffmanNode.depth, writeTreeJsonSpaced, List.length_cons, List.length_append]
    omega

theorem readTreeJson_spaced_eq (T : HuffmanNode) (g : Nat → List Char)
    (hg : ∀ i, ∀ c ∈ g i, isspace c = true) :
    readTreeJson (writeTreeJsonSpaced g T 0).1 = readTreeJson (writeTreeJson T []) := by
  obtain ⟨res, h⟩ := parseNode_spaced T
  have h1 := h g hg 0 ((writeTreeJsonSpaced g T 0).1.length + 1) []
    (Nat.lt_succ_of_lt (depth_lt_length_writeTreeJsonSpaced g T 0))
  have h2 := h (fun _ => []) (fun _ c hc => absurd hc (List.not_mem_nil c)) 0
    ((writeNodeJson T []).length + 1) []
    (Nat.lt_succ_of_lt (depth_lt_length_writeNodeJson T))
  rw [writeTreeJsonSpaced_nil] at h2
  rw [List.append_nil] at h1 h2
  unfold readTreeJson writeTreeJson
  rw [h1, h2]


theorem parseNode_spaced_outcome (g : Nat → List Char)
    (hg : ∀ i, ∀ c ∈ g i, isspace c = true) (T : HuffmanNode) :
    ∀ (k fuel : Nat) (rest : List Char), T.depth < fuel →
      (T.freqsNonneg = true →
        ∃ T2, parseNode fuel ((writeTreeJsonSpaced g T k).1 ++ rest) = Except.ok (T2, rest)) ∧
      (T.freqsNonneg = false →
        parseNode fuel ((writeTreeJsonSpaced g T k).1 ++ rest)
          = Except.error "Expected digit!") := by
  induction T with
  | leaf c f =>
    intro k fuel rest hfuel
    cases fuel with
    | zero => simp [HuffmanNode.depth] at hfuel
    | succ fuel =>
      rw [parseNode_spaced_leaf g hg]
      simp only [HuffmanNode.freqsNonneg, decide_eq_true_eq, decide_eq_false_iff_not]
      constructor
      · intro h
        rw [if_neg (by omega)]
        exact ⟨_, rfl⟩
      · intro h
        rw [if_pos (by omega)]
  | internal f l r ihl ihr =>
    intro k fuel rest hfuel
    cases fuel with
    | zero => simp at hfuel
    | succ fuel =>
      simp only [HuffmanNode.depth] at hfuel
      have hdl : l.depth < fuel := by omega
      have hdr : r.depth < fuel := by omega
      obtain ⟨resl, hl⟩ := parseNode_spaced l
      obtain ⟨resr, hr⟩ := parseNode_spaced r
      rw [parseNode_spaced_internal g hg f l r k fuel rest resl resr
        (fun k rest => hl g hg k fuel rest hdl) (fun k rest => hr g hg k fuel rest hdr)]
      have il := ihl 0 fuel [] hdl
      have ir := ihr 0 fuel [] hdr
      rw [hl g hg 0 fuel [] hdl] at il
      rw [hr g hg 0 fuel [] hdr] at ir
      have hlok : l.freqsNonneg = true → ∃ l2, resl = Except.ok l2 := by
        intro h
        obtain ⟨T2, h2⟩ := il.1 h
        cases resl with
        | error e => cases h2
        | ok l2 => exact ⟨l2, rfl⟩
      have hlerr : l.freqsNonneg = false → resl = Except.error "Expected digit!" := by
        intro h
        have h2 := il.2 h
        cases resl with
        | error e =>
          simp only [Except.map] at h2
          rw [Except.error.inj h2]
        | ok l2 => cases h2
      have hrok : r.freqsNonneg = true → ∃ r2, resr = Except.ok r2 := by
        intro h
        obtain ⟨T2, h2⟩ := ir.1 h
        cases resr with
        | error e => cases h2
        | ok r2 => exact ⟨r2, rfl⟩
      have hrerr : r.freqsNonneg = false → resr = Except.error "Expected digit!" := by
        intro h
        have h2 := ir.2 h
        cases resr with
        | error e =>
          simp only [Except.map] at h2
          rw [Except.error.inj h2]
        | ok r2 => cases h2
      constructor
      · intro h
        simp only [HuffmanNode.freqsNonneg, Bool.and_eq_true, decide_eq_true_eq] at h
        obtain ⟨⟨hf, hln⟩, hrn⟩ := h
        obtain ⟨l2, rfl⟩ := hlok hln
        obtain ⟨r2, rfl⟩ := hrok hrn
        rw [if_neg (by omega)]
        exact ⟨_, rfl⟩
      · intro h
        by_cases hf : f < 0
        · rw [if_pos hf]
        · rw [if_neg hf]
          cases hln : l.freqsNonneg with
          | false =>
            rw [hlerr hln]
            rfl
          | true =>
            obtain ⟨l2, rfl⟩ := hlok hln
            cases hrn : r.freqsNonneg with
            | false =>
              rw [hrerr hrn]
              rfl
            | true =>
              simp [HuffmanNode.freqsNonneg, hln, hrn] at h
              omega

theorem readTreeJson_spaced_negative (g : Nat → List Char)
    (hg : ∀ i, ∀ c ∈ g i, isspace c = true) (T : HuffmanNode) (hT : T.freqsNonneg = false) :
    readTreeJson (writeTreeJsonSpaced g T 0).1 = Except.error "Expected digit!" := by
  have h := (parseNode_spaced_outcome g hg T 0 ((writeTreeJsonSpaced g T 0).1.length + 1) []
    (Nat.lt_succ_of_lt (depth_lt_length_writeTreeJsonSpaced g T 0))).2 hT
  rw [List.append_nil] at h
  unfold readTreeJson
  rw [h]
  rfl

/-- C21 (as stated, refuted): the tree built for the table a: 2^30, b: 2^30 has the root
frequency -2147483648; `writeTreeJson` writes it with a minus sign and `readTreeJson`
fails on that text, with and without whitespace between the tokens, so the parse does
not succeed for every tree. -/
theorem readTreeJson_negative_frequency_fails :
    buildHuffmanTree (fun _ => 0) [(97, 1073741824), (98, 1073741824)]
      = some (HuffmanNode.internal (-2147483648) (HuffmanNode.leaf 98 1073741824)
          (HuffmanNode.leaf 97 1073741824)) ∧
    writeTreeJson (HuffmanNode.internal (-2147483648) (HuffmanNode.leaf 98 1073741824)
        (HuffmanNode.leaf 97 1073741824)) []
      = ("\x7b\"freq\":-2147483648,\"left\":\x7b\"ch\":98,\"freq\":1073741824\x7d,"
          ++ "\"right\":\x7b\"ch\":97,\"freq\":1073741824\x7d\x7d").toList ∧
    readTreeJson (writeTreeJson (HuffmanNode.internal (-2147483648)
        (HuffmanNode.leaf 98 1073741824) (HuffmanNode.leaf 97 1073741824)) [])
      = Except.error "Expected digit!" ∧
    readTreeJson (writeTreeJsonSpaced (fun _ => [' ']) (HuffmanNode.internal (-2147483648)
        (HuffmanNode.leaf 98 1073741824) (HuffmanNode.leaf 97 1073741824)) 0).1
      = Except.error "Expected digit!" := by
  refine ⟨rfl, ?_, rfl, rfl⟩
  decide

/-- C21 (amended): whitespace between the tokens never changes what `readTreeJson` makes of
a written tree.  For every tree and every choice of whitespace texts `g i` (characters
for which `isspace` holds: space, tab, newline, carriage return among them) put in front
of the tokens of the text of `writeTreeJson`, the first token included, `readTreeJson`
gives the same outcome as on the unmodified text; when all frequencies of the tree are
non-negative `int` values that outcome is success with the very same tree, and when
some frequency of the tree is negative that outcome is the failure "Expected digit!". -/
theorem readTreeJson_whitespace (g : Nat → List Char)
    (hg : ∀ i, ∀ c ∈ g i, isspace c = true) (T : HuffmanNode) :
    readTreeJson (writeTreeJsonSpaced g T 0).1 = readTreeJson (writeTreeJson T []) ∧
    (T.freqsFit = true → readTreeJson (writeTreeJsonSpaced g T 0).1 = Except.ok T) ∧
    (writeTreeJsonSpaced (fun _ => []) T 0).1 = writeTreeJson T [] ∧
    (isspace ' ' = true ∧ isspace '\t' = true ∧ isspace '\n' = true ∧ isspace '\r' = true) ∧
    (T.freqsNonneg = false →
      readTreeJson (writeTreeJsonSpaced g T 0).1 = Except.error "Expected digit!" ∧
      readTreeJson (writeTreeJson T []) = Except.error "Expected digit!") := by
  refine ⟨readTreeJson_spaced_eq T g hg, ?_, writeTreeJsonSpaced_nil T 0, ⟨rfl, rfl, rfl, rfl⟩, ?_⟩
  · intro hT
    rw [readTreeJson_spaced_eq T g hg]
    exact readTreeJson_writeNodeJson T hT
  · intro hT
    have h := readTreeJson_spaced_negative g hg T hT
    exact ⟨h, by rw [← readTreeJson_spaced_eq T g hg]; exact h⟩

/-- C21 (witness): a space and a newline in front of every even token, a tab and a carriage
return in front of every odd one, in the text of a tree with two leaves. -/
theorem readTreeJson_whitespace_witness :
    (writeTreeJsonSpaced (fun i => if i % 2 = 0 then [' ', '\n'] else ['\t', '\r'])
      (HuffmanNode.leaf 97 3) 0).1
      = (" \n\x7b\t\r\"ch\" \n:\t\r97 \n,\t\r\"freq\" \n:\t\r3 \n\x7d").toList ∧
    readTreeJson (writeTreeJsonSpaced (fun i => if i % 2 = 0 then [' ', '\n'] else ['\t', '\r'])
      (HuffmanNode.internal 2 (HuffmanNode.leaf 97 1) (HuffmanNode.leaf 98 1)) 0).1
      = Except.ok (HuffmanNode.internal 2 (HuffmanNode.leaf 97 1) (HuffmanNode.leaf 98 1)) :=
  ⟨by decide,
    (readTreeJson_whitespace (fun i => if i % 2 = 0 then [' ', '\n'] else ['\t', '\r'])
      (by
        intro i c hc
        by_cases h : i % 2 = 0
        · dsimp only at hc
          rw [if_pos h] at hc
          simp only [List.mem_cons, List.mem_singleton, List.not_mem_nil, or_false] at hc
          rcases hc with rfl | rfl <;> rfl
        · dsimp only at hc
          rw [if_neg h] at hc
          simp only [List.mem_cons, List.mem_singleton, List.not_mem_nil, or_false] at hc
          rcases hc with rfl | rfl <;> rfl)
      (HuffmanNode.internal 2 (HuffmanNode.leaf 97 1) (HuffmanNode.leaf 98 1))).2.1 (by decide)⟩

/-! ## Optimality of the tree -/

theorem weightedSum_zero : weightedSum 0 = 0 := by
  simp [weightedSum]

theorem weightedSum_cons (w : Int) (d : Nat) (M : Multiset (Int × Nat)) :
    weightedSum ((w, d) ::ₘ M) = w * (d : Int) + weightedSum M := by
  simp [weightedSum]

theorem weightedSum_add (A B : Multiset (Int × Nat)) :
    weightedSum (A + B) = weightedSum A + weightedSum B := by
  simp [weightedSum]

theorem weightedPathLength_eq (t : HuffmanNode) :
    t.weightedPathLength = weightedSum (↑(t.leafDepths 0) : Multiset (Int × Nat)) := by
  simp [HuffmanNode.weightedPathLength, weightedSum]

theorem leafDepths_map_fst (t : HuffmanNode) (k : Nat) :
    (t.leafDepths k).map Prod.fst = t.leaves.map Prod.snd := by
  induction t generalizing k with
  | leaf c f => rfl
  | internal f l r ihl ihr =>
    simp [HuffmanNode.leafDepths, HuffmanNode.leaves, ihl, ihr]

theorem leafDepths_internal (f : Int) (l r : HuffmanNode) (k : Nat) :
    (↑((HuffmanNode.internal f l r).leafDepths k) : Multiset (Int × Nat))
      = ↑(l.leafDepths (k + 1)) + ↑(r.leafDepths (k + 1)) := by
  simp [HuffmanNode.leafDepths]

theorem leafDepths_le (t : HuffmanNode) (k : Nat) :
    ∀ p ∈ t.leafDepths k, p.2 ≤ k + t.depth := by
  induction t generalizing k with
  | leaf c f =>
    intro p hp
    simp only [HuffmanNode.leafDepths, List.mem_singleton] at hp
    subst hp
    simp [HuffmanNode.depth]
  | internal f l r ihl ihr =>
    intro p hp
    simp only [HuffmanNode.leafDepths, List.mem_append] at hp
    simp only [HuffmanNode.depth]
    rcases hp with hp | hp
    · have := ihl (k + 1) p hp
      omega
    · have := ihr (k + 1) p hp
      omega

theorem weightedSum_leafDepths_succ (t : HuffmanNode) (k : Nat) :
    weightedSum (↑(t.leafDepths (k + 1)) : Multiset (Int × Nat))
      = weightedSum (↑(t.leafDepths k) : Multiset (Int × Nat)) + (t.leaves.map Prod.snd).sum := by
  induction t generalizing k with
  | leaf c f =>
    simp [HuffmanNode.leafDepths, HuffmanNode.leaves, weightedSum]
    ring
  | internal f l r ihl ihr =>
    rw [leafDepths_internal, leafDepths_internal, weightedSum_add, weightedSum_add, ihl, ihr]
    simp only [HuffmanNode.leaves, List.map_append, List.sum_append]
    ring

theorem weightedPathLength_leaf (c : Byte) (f : Int) :
    (HuffmanNode.leaf c f).weightedPathLength = 0 := by
  simp [HuffmanNode.weightedPathLength, HuffmanNode.leafDepths]

theorem weightedPathLength_internal (f : Int) (l r : HuffmanNode) :
    (HuffmanNode.internal f l r).weightedPathLength
      = l.weightedPathLength + r.weightedPathLength
        + ((l.leaves.map Prod.snd).sum + (r.leaves.map Prod.snd).sum) := by
  rw [weightedPathLength_eq, weightedPathLength_eq, weightedPathLength_eq, leafDepths_internal,
    weightedSum_add, weightedSum_leafDepths_succ, weightedSum_leafDepths_succ]
  ring

theorem exists_setLeaf (t : HuffmanNode) : ∀ (k : Nat) (u : Int) (d : Nat) (v : Int)
    (M : Multiset (Int × Nat)),
    (↑(t.leafDepths k) : Multiset (Int × Nat)) = (u, d) ::ₘ M →
    ∃ t2 : HuffmanNode, (↑(t2.leafDepths k) : Multiset (Int × Nat)) = (v, d) ::ₘ M := by
  induction t with
  | leaf c f =>
    intro k u d v M h
    simp only [HuffmanNode.leafDepths] at h
    have hc := congrArg Multiset.card h
    simp only [Multiset.coe_card, List.length_singleton, Multiset.card_cons] at hc
    have hM : M = 0 := Multiset.card_eq_zero.1 (by omega)
    subst hM
    have hmem : (u, d) ∈ (↑[(f, k)] : Multiset (Int × Nat)) := by
      rw [h]; exact Multiset.mem_cons_self _ _
    simp only [Multiset.mem_coe, List.mem_singleton, Prod.mk.injEq] at hmem
    obtain ⟨-, rfl⟩ := hmem
    exact ⟨HuffmanNode.leaf c v, by simp [HuffmanNode.leafDepths]⟩
  | internal f l r ihl ihr =>
    intro k u d v M h
    rw [leafDepths_internal] at h
    have hmem : (u, d) ∈ (↑(l.leafDepths (k + 1)) : Multiset (Int × Nat)) + ↑(r.leafDepths (k + 1)) := by
      rw [h]; exact Multiset.mem_cons_self _ _
    rcases Multiset.mem_add.1 hmem with hm | hm
    · obtain ⟨A, hA⟩ := Multiset.exists_cons_of_mem hm
      rw [hA, Multiset.cons_add] at h
      have hM := (Multiset.cons_inj_right _).1 h
      obtain ⟨l2, hl2⟩ := ihl (k + 1) u d v A hA
      refine ⟨HuffmanNode.internal f l2 r, ?_⟩
      rw [leafDepths_internal, hl2, Multiset.cons_add, hM]
    · obtain ⟨B, hB⟩ := Multiset.exists_cons_of_mem hm
      rw [hB, Multiset.add_cons] at h
      have hM := (Multiset.cons_inj_right _).1 h
      obtain ⟨r2, hr2⟩ := ihr (k + 1) u d v B hB
      refine ⟨HuffmanNode.internal f l r2, ?_⟩
      rw [leafDepths_internal, hr2, Multiset.add_cons, hM]


theorem exists_collapse (t : HuffmanNode) : 1 ≤ t.depth → ∀ (k : Nat),
    ∃ (x y : Int) (M : Multiset (Int × Nat)) (t0 : HuffmanNode),
      (↑(t.leafDepths k) : Multiset (Int × Nat))
        = (x, k + t.depth) ::ₘ (y, k + t.depth) ::ₘ M ∧
      (↑(t0.leafDepths k) : Multiset (Int × Nat)) = (x + y, k + t.depth - 1) ::ₘ M := by
  induction t with
  | leaf c f =>
    intro h
    simp [HuffmanNode.depth] at h
  | internal f l r ihl ihr =>
    intro _ k
    by_cases hlr : r.depth ≤ l.depth
    · by_cases hl : 1 ≤ l.depth
      · obtain ⟨x, y, M, l0, h1, h2⟩ := ihl hl (k + 1)
        have hd : k + (HuffmanNode.internal f l r).depth = k + 1 + l.depth := by
          simp only [HuffmanNode.depth]
          omega
        refine ⟨x, y, M + ↑(r.leafDepths (k + 1)), HuffmanNode.internal f l0 r, ?_, ?_⟩
        · rw [leafDepths_internal, h1, hd, Multiset.cons_add, Multiset.cons_add]
        · rw [leafDepths_internal, h2, hd, Multiset.cons_add]
      · have hl0 : l.depth = 0 := by omega
        have hr0 : r.depth = 0 := by omega
        cases l with
        | internal _ _ _ => simp [HuffmanNode.depth] at hl0
        | leaf c1 f1 =>
          cases r with
          | internal _ _ _ => simp [HuffmanNode.depth] at hr0
          | leaf c2 f2 =>
            refine ⟨f1, f2, 0, HuffmanNode.leaf c1 (f1 + f2), ?_, ?_⟩
            · simp [HuffmanNode.leafDepths, HuffmanNode.depth]
              rfl
            · simp [HuffmanNode.leafDepths, HuffmanNode.depth]
    · have hr : 1 ≤ r.depth := by omega
      obtain ⟨x, y, M, r0, h1, h2⟩ := ihr hr (k + 1)
      have hd : k + (HuffmanNode.internal f l r).depth = k + 1 + r.depth := by
        simp only [HuffmanNode.depth]
        omega
      refine ⟨x, y, ↑(l.leafDepths (k + 1)) + M, HuffmanNode.internal f l r0, ?_, ?_⟩
      · rw [leafDepths_internal, h1, hd, Multiset.add_cons, Multiset.add_cons]
      · rw [leafDepths_internal, h2, hd, Multiset.add_cons]

theorem one_le_depth_of_two_leaves (t : HuffmanNode) (h : 2 ≤ t.leaves.length) :
    1 ≤ t.depth := by
  cases t with
  | leaf c f => simp [HuffmanNode.leaves] at h
  | internal f l r => simp [HuffmanNode.depth]


theorem multiset_cons_cancel3 (x y a b : Int) (A R : Multiset Int)
    (h : x ::ₘ y ::ₘ a ::ₘ A = a ::ₘ b ::ₘ R) : y ::ₘ x ::ₘ A = b ::ₘ R := by
  apply (Multiset.cons_inj_right a).1
  rw [← h]
  rw [Multiset.cons_swap a y, Multiset.cons_swap a x, Multiset.cons_swap y x]

theorem exists_setLeaf_two (t : HuffmanNode) (k : Nat) (u1 v1 u2 v2 : Int) (d1 d2 : Nat)
    (M : Multiset (Int × Nat))
    (h : (↑(t.leafDepths k) : Multiset (Int × Nat)) = (u1, d1) ::ₘ (u2, d2) ::ₘ M) :
    ∃ t2 : HuffmanNode,
      (↑(t2.leafDepths k) : Multiset (Int × Nat)) = (v1, d1) ::ₘ (v2, d2) ::ₘ M := by
  obtain ⟨ta, ha⟩ := exists_setLeaf t k u1 d1 v1 _ h
  rw [Multiset.cons_swap] at ha
  obtain ⟨tb, hb⟩ := exists_setLeaf ta k u2 d2 v2 _ ha
  rw [Multiset.cons_swap] at hb
  exact ⟨tb, hb⟩

theorem exists_merged_tree (t : HuffmanNode) (a b : Int) (R : Multiset Int)
    (hw : (↑(t.leaves.map Prod.snd) : Multiset Int) = a ::ₘ b ::ₘ R)
    (hab : a ≤ b) (hR : ∀ x ∈ R, b ≤ x) :
    ∃ t2 : HuffmanNode, (↑(t2.leaves.map Prod.snd) : Multiset Int) = (a + b) ::ₘ R ∧
      t2.weightedPathLength + (a + b) ≤ t.weightedPathLength := by
  have hlen : 2 ≤ t.leaves.length := by
    have hc := congrArg Multiset.card hw
    simp only [Multiset.coe_card, List.length_map, Multiset.card_cons] at hc
    omega
  have hD := one_le_depth_of_two_leaves t hlen
  obtain ⟨D, hDeq⟩ : ∃ D, t.depth = D + 1 := ⟨t.depth - 1, by omega⟩
  obtain ⟨x, y, M, t0, h1, h2⟩ := exists_collapse t hD 0
  rw [hDeq] at h1 h2
  simp only [Nat.zero_add, Nat.add_sub_cancel] at h1 h2
  have hdep : ∀ p ∈ M, p.2 ≤ D + 1 := by
    intro p hp
    have hmem : p ∈ (↑(t.leafDepths 0) : Multiset (Int × Nat)) := by
      rw [h1]
      exact Multiset.mem_cons_of_mem (Multiset.mem_cons_of_mem hp)
    have := leafDepths_le t 0 p (Multiset.mem_coe.1 hmem)
    omega
  have hwt : x ::ₘ y ::ₘ M.map Prod.fst = a ::ₘ b ::ₘ R := by
    rw [← hw, ← leafDepths_map_fst t 0, ← Multiset.map_coe, h1]
    simp
  have hcost : t.weightedPathLength
      = x * ((D + 1 : Nat) : Int) + (y * ((D + 1 : Nat) : Int) + weightedSum M) := by
    rw [weightedPathLength_eq, h1, weightedSum_cons, weightedSum_cons]
  have hmin : ∀ z ∈ a ::ₘ b ::ₘ R, a ≤ z := by
    intro z hz
    rcases Multiset.mem_cons.1 hz with rfl | hz
    · exact le_refl _
    · rcases Multiset.mem_cons.1 hz with rfl | hz
      · exact hab
      · exact le_trans hab (hR z hz)
  have hmin2 : ∀ z ∈ b ::ₘ R, b ≤ z := by
    intro z hz
    rcases Multiset.mem_cons.1 hz with rfl | hz
    · exact le_refl _
    · exact hR z hz
  -- first the smallest weight goes to the deepest pair
  have stepA : ∃ (y1 : Int) (M1 : Multiset (Int × Nat)) (t1 : HuffmanNode),
      (↑(t1.leafDepths 0) : Multiset (Int × Nat)) = (a + y1, D) ::ₘ M1 ∧
      y1 ::ₘ M1.map Prod.fst = b ::ₘ R ∧ (∀ p ∈ M1, p.2 ≤ D + 1) ∧
      (a + y1) * ((D + 1 : Nat) : Int) + weightedSum M1 ≤ t.weightedPathLength := by
    have hx : a ∈ x ::ₘ y ::ₘ M.map Prod.fst := by
      rw [hwt]
      exact Multiset.mem_cons_self _ _
    rcases Multiset.mem_cons.1 hx with hax | hx
    · subst hax
      refine ⟨y, M, t0, h2, (Multiset.cons_inj_right _).1 hwt, hdep, ?_⟩
      rw [hcost]
      linarith
    · rcases Multiset.mem_cons.1 hx with hay | hx
      · subst hay
        rw [Multiset.cons_swap] at hwt
        refine ⟨x, M, t0, ?_, (Multiset.cons_inj_right _).1 hwt, hdep, ?_⟩
        · rw [h2, add_comm]
        · rw [hcost]
          linarith
      · obtain ⟨p, hp, hpa⟩ := Multiset.mem_map.1 hx
        obtain ⟨M', hM'⟩ := Multiset.exists_cons_of_mem hp
        obtain ⟨w, d⟩ := p
        simp only at hpa
        subst hpa
        have hd : d ≤ D + 1 := hdep (w, d) hp
        have hxa : w ≤ x := hmin x (by rw [← hwt]; exact Multiset.mem_cons_self _ _)
        rw [hM'] at h2
        obtain ⟨t1, ht1⟩ := exists_setLeaf_two t0 0 (x + y) (w + y) w x D d M' h2
        refine ⟨y, (x, d) ::ₘ M', t1, ht1, ?_, ?_, ?_⟩
        · rw [hM'] at hwt
          simp only [Multiset.map_cons] at hwt ⊢
          exact multiset_cons_cancel3 x y w b _ R hwt
        · intro q hq
          rcases Multiset.mem_cons.1 hq with rfl | hq
          · exact hd
          · exact hdep q (by rw [hM']; exact Multiset.mem_cons_of_mem hq)
        · rw [hcost, hM', weightedSum_cons, weightedSum_cons]
          have h3 : (0 : Int) ≤ (x - w) * ((((D + 1 : Nat) : Int)) - (d : Int)) := by
            apply mul_nonneg
            · linarith
            · have : (d : Int) ≤ ((D + 1 : Nat) : Int) := by exact_mod_cast hd
              linarith
          nlinarith [h3]
  obtain ⟨y1, M1, t1, hA1, hA2, hA3, hA4⟩ := stepA
  -- then the second smallest weight
  have hb : b ∈ y1 ::ₘ M1.map Prod.fst := by
    rw [hA2]
    exact Multiset.mem_cons_self _ _
  rcases Multiset.mem_cons.1 hb with hby | hb
  · subst hby
    have hR2 : M1.map Prod.fst = R := (Multiset.cons_inj_right _).1 hA2
    refine ⟨t1, ?_, ?_⟩
    · rw [← leafDepths_map_fst t1 0, ← Multiset.map_coe, hA1, Multiset.map_cons, hR2]
    · rw [weightedPathLength_eq, hA1, weightedSum_cons]
      have : ((D + 1 : Nat) : Int) = (D : Int) + 1 := by push_cast; rfl
      rw [this] at hA4
      linarith
  · obtain ⟨p, hp, hpb⟩ := Multiset.mem_map.1 hb
    obtain ⟨M', hM'⟩ := Multiset.exists_cons_of_mem hp
    obtain ⟨w, d⟩ := p
    simp only at hpb
    subst hpb
    have hd : d ≤ D + 1 := hA3 (w, d) hp
    have hyb : w ≤ y1 := hmin2 y1 (by rw [← hA2]; exact Multiset.mem_cons_self _ _)
    rw [hM'] at hA1
    obtain ⟨t2, ht2⟩ := exists_setLeaf_two t1 0 (a + y1) (a + w) w y1 D d M' hA1
    have hR2 : y1 ::ₘ M'.map Prod.fst = R := by
      rw [hM'] at hA2
      simp only [Multiset.map_cons] at hA2
      rw [Multiset.cons_swap] at hA2
      exact (Multiset.cons_inj_right _).1 hA2
    refine ⟨t2, ?_, ?_⟩
    · rw [← leafDepths_map_fst t2 0, ← Multiset.map_coe, ht2, Multiset.map_cons,
        Multiset.map_cons, hR2]
    · rw [weightedPathLength_eq, ht2, weightedSum_cons, weightedSum_cons]
      rw [hM', weightedSum_cons] at hA4
      have hc : ((D + 1 : Nat) : Int) = (D : Int) + 1 := by push_cast; rfl
      rw [hc] at hA4
      have h3 : (0 : Int) ≤ (y1 - w) * ((D : Int) + 1 - (d : Int)) := by
        apply mul_nonneg
        · linarith
        · have : (d : Int) ≤ ((D + 1 : Nat) : Int) := by exact_mod_cast hd
          rw [hc] at this
          linarith
      nlinarith [h3]


theorem weightedPathLength_of_one_leaf (t : HuffmanNode) (h : t.leaves.length = 1) :
    t.weightedPathLength = 0 := by
  cases t with
  | leaf c f => exact weightedPathLength_leaf c f
  | internal f l r =>
    have hl := depth_lt_leaves_length l
    have hr := depth_lt_leaves_length r
    simp only [HuffmanNode.leaves, List.length_append] at h
    omega

theorem weightedPathLength_mkInternal (l r : HuffmanNode) :
    (HuffmanNode.mkInternal l r).weightedPathLength
      = l.weightedPathLength + r.weightedPathLength
        + ((l.leaves.map Prod.snd).sum + (r.leaves.map Prod.snd).sum) :=
  weightedPathLength_internal _ l r

/-- The loop of `buildHuffmanTree` on a queue whose leaf frequencies are non-negative
and sum to `N < 2^31`: the weighted path length of the tree it ends with is at most
the sum of those of the queued trees plus that of any tree whose leaves carry the
frequencies of the queued trees. -/
theorem buildLoop_optimal (tie : List HuffmanNode → Nat) (N : Int) (hN : N < 2147483648) :
    ∀ (fuel : Nat) (pq : List HuffmanNode), pq ≠ [] → pq.length ≤ fuel + 1 →
    (∀ t ∈ pq, t.freq = (t.leaves.map Prod.snd).sum) →
    (∀ e ∈ queueLeaves pq, 0 ≤ e.2) →
    ((queueLeaves pq).map Prod.snd).sum = N →
    ∃ root, buildLoop tie fuel pq = [root] ∧
      ∀ T : HuffmanNode,
        (↑(T.leaves.map Prod.snd) : Multiset Int) = ↑(pq.map HuffmanNode.freq) →
        root.weightedPathLength
          ≤ (pq.map HuffmanNode.weightedPathLength).sum + T.weightedPathLength := by
  have single : ∀ (t T : HuffmanNode),
      (↑(T.leaves.map Prod.snd) : Multiset Int) = ↑([t].map HuffmanNode.freq) →
      t.weightedPathLength
        ≤ ([t].map HuffmanNode.weightedPathLength).sum + T.weightedPathLength := by
    intro t T hT
    have hc := congrArg Multiset.card hT
    simp only [Multiset.coe_card, List.length_map, List.length_singleton] at hc
    rw [weightedPathLength_of_one_leaf T hc]
    simp
  intro fuel
  induction fuel with
  | zero =>
    intro pq hne hlen hall hnn hsum
    match pq, hne, hlen with
    | [t], _, _ => exact ⟨t, rfl, single t⟩
    | _ :: _ :: _, _, hlen => simp at hlen
  | succ fuel ih =>
    intro pq hne hlen hall hnn hsum
    by_cases h1 : pq.length > 1
    · obtain ⟨l, pq1, hp1⟩ := popMin_isSome tie pq hne
      have perm1 := popMin_perm tie pq l pq1 hp1
      have hlen1 : pq.length = pq1.length + 1 := by simpa using perm1.length_eq
      have hne1 : pq1 ≠ [] := by
        intro e; subst e; simp at hlen1; omega
      obtain ⟨r, pq2, hp2⟩ := popMin_isSome tie pq1 hne1
      have perm2 := popMin_perm tie pq1 r pq2 hp2
      have hlen2 : pq1.length = pq2.length + 1 := by simpa using perm2.length_eq
      have perm : pq.Perm (l :: r :: pq2) := perm1.trans (perm2.cons l)
      have hl := hall l (perm.mem_iff.2 (by simp))
      have hr := hall r (perm.mem_iff.2 (by simp))
      have hminl := popMin_min tie pq l pq1 hp1
      have hminr := popMin_min tie pq1 r pq2 hp2
      have hlr : l.freq ≤ r.freq := hminl r (perm.mem_iff.2 (by simp))
      have hrest : ∀ x ∈ (↑(pq2.map HuffmanNode.freq) : Multiset Int), r.freq ≤ x := by
        intro x hx
        obtain ⟨y, hy, rfl⟩ := List.mem_map.1 (Multiset.mem_coe.1 hx)
        exact hminr y (perm2.mem_iff.2 (List.mem_cons_of_mem _ hy))
      have hql : (queueLeaves pq).Perm (l.leaves ++ (r.leaves ++ queueLeaves pq2)) :=
        queueLeaves_perm perm
      have hnn2 : ∀ e ∈ queueLeaves pq2, 0 ≤ e.2 := fun e he =>
        hnn e (hql.mem_iff.2 (by simp [he]))
      have hnnl : ∀ e ∈ l.leaves, 0 ≤ e.2 := fun e he =>
        hnn e (hql.mem_iff.2 (by simp [he]))
      have hnnr : ∀ e ∈ r.leaves, 0 ≤ e.2 := fun e he =>
        hnn e (hql.mem_iff.2 (by simp [he]))
      have hs : (l.leaves.map Prod.snd).sum + ((r.leaves.map Prod.snd).sum
          + ((queueLeaves pq2).map Prod.snd).sum) = N := by
        rw [← hsum, (hql.map Prod.snd).sum_eq]
        simp
      have s0 := sum_snd_nonneg _ hnn2
      have sl := sum_snd_nonneg _ hnnl
      have sr := sum_snd_nonneg _ hnnr
      have hw : wrapInt (l.freq + r.freq) = l.freq + r.freq := by
        apply wrapInt_of_inRange <;> rw [hl, hr] <;> omega
      have hnew : ∀ t ∈ HuffmanNode.mkInternal l r :: pq2,
          t.freq = (t.leaves.map Prod.snd).sum := by
        intro t ht
        rcases List.mem_cons.1 ht with rfl | ht
        · rw [freq_mkInternal, leaves_mkInternal, hw, List.map_append, List.sum_append, hl, hr]
        · exact hall t (perm.mem_iff.2 (by simp [ht]))
      have hqnew : queueLeaves (HuffmanNode.mkInternal l r :: pq2)
          = l.leaves ++ (r.leaves ++ queueLeaves pq2) := by
        simp [queueLeaves, leaves_mkInternal]
      obtain ⟨root, hb, hopt⟩ := ih (HuffmanNode.mkInternal l r :: pq2)
        (by simp) (by simp only [List.length_cons]; omega) hnew
        (by rw [hqnew]; exact fun e he => hnn e (hql.mem_iff.2 he))
        (by rw [hqnew]; simpa using hs)
      refine ⟨root, ?_, ?_⟩
      · simp only [buildLoop, h1, if_true, hp1, hp2]
        exact hb
      · intro T hT
        have hT2 : (↑(T.leaves.map Prod.snd) : Multiset Int)
            = l.freq ::ₘ r.freq ::ₘ ↑(pq2.map HuffmanNode.freq) := by
          rw [hT, Multiset.coe_eq_coe.2 (perm.map HuffmanNode.freq)]
          rfl
        obtain ⟨T2, hT2w, hT2c⟩ := exists_merged_tree T l.freq r.freq _ hT2 hlr hrest
        have h3 := hopt T2 (by
          rw [hT2w, List.map_cons, freq_mkInternal, hw]
          rfl)
        have h4 : (pq.map HuffmanNode.weightedPathLength).sum
            = l.weightedPathLength + (r.weightedPathLength
              + (pq2.map HuffmanNode.weightedPathLength).sum) := by
          rw [(perm.map HuffmanNode.weightedPathLength).sum_eq]
          simp
        rw [List.map_cons, List.sum_cons, weightedPathLength_mkInternal, ← hl, ← hr] at h3
        rw [h4]
        linarith
    · match pq, hne, h1 with
      | [t], _, _ => exact ⟨t, by simp [buildLoop], single t⟩
      | _ :: _ :: _, _, h1 => simp at h1

theorem pushLeaves_map_freq_aux (m : FreqMap) (acc : List HuffmanNode) :
    (m.foldl (fun pq pair => HuffmanNode.leaf pair.1 pair.2 :: pq) acc).map HuffmanNode.freq
      = (m.map Prod.snd).reverse ++ acc.map HuffmanNode.freq := by
  induction m generalizing acc with
  | nil => simp
  | cons p m ih =>
    simp only [List.foldl_cons, ih, List.map_cons, List.reverse_cons, HuffmanNode.freq]
    simp

theorem pushLeaves_map_freq (m : FreqMap) :
    (pushLeaves m).map HuffmanNode.freq = (m.map Prod.snd).reverse := by
  unfold pushLeaves
  rw [pushLeaves_map_freq_aux]
  simp

theorem buildHuffmanTree_optimal_aux (tie : List HuffmanNode → Nat) (m : FreqMap)
    (hne : m ≠ []) (hnn : ∀ e ∈ m, 0 ≤ e.2) (hsum : (m.map Prod.snd).sum < 2147483648) :
    ∃ root, buildHuffmanTree tie m = some root ∧ root.leaves.Perm m ∧
      ∀ t : HuffmanNode, t.leaves.Perm m → root.weightedPathLength ≤ t.weightedPathLength := by
  obtain ⟨root, hroot, hperm, -, -, -⟩ := buildHuffmanTree_spec tie m _ hsum hne hnn rfl
  have hq : queueLeaves (pushLeaves m) = m.reverse := queueLeaves_pushLeaves m
  have hne2 : pushLeaves m ≠ [] := by
    intro e
    have := pushLeaves_length m
    rw [e] at this
    exact hne (List.length_eq_zero.1 this.symm)
  have hall : ∀ t ∈ pushLeaves m, t.freq = (t.leaves.map Prod.snd).sum := by
    intro t ht
    obtain ⟨c, f, rfl, -⟩ := pushLeaves_mem m t ht
    simp [HuffmanNode.freq, HuffmanNode.leaves]
  obtain ⟨root2, hb, hopt⟩ := buildLoop_optimal tie _ hsum (pushLeaves m).length
    (pushLeaves m) hne2 (by omega) hall
    (by rw [hq]; exact fun e he => hnn e (List.mem_reverse.1 he))
    (by rw [hq, List.map_reverse, List.sum_reverse])
  have hsame : root = root2 := by
    have h2 : buildHuffmanTree tie m = some root2 := by simp [buildHuffmanTree, hb]
    rw [hroot] at h2
    exact Option.some.inj h2
  subst hsame
  refine ⟨root, hroot, hperm, ?_⟩
  intro t ht
  have hzero : ((pushLeaves m).map HuffmanNode.weightedPathLength).sum = 0 := by
    apply List.sum_eq_zero
    intro x hx
    obtain ⟨t1, ht1, rfl⟩ := List.mem_map.1 hx
    obtain ⟨c, f, rfl, -⟩ := pushLeaves_mem m t1 ht1
    exact weightedPathLength_leaf c f
  have h := hopt t (by
    rw [pushLeaves_map_freq]
    exact Multiset.coe_eq_coe.2 ((ht.map Prod.snd).trans (List.reverse_perm _).symm))
  rw [hzero] at h
  linarith


/-- C25 (as stated, refuted): for the table a: 2^30, b: 2^30, c: 2^30 + 1, d: 2^30 + 1 the
sum a + b is not a value of type `int`; the node of a and b gets the frequency
-2147483648 and stays on top of the queue, so the tree returned is a chain with a and b
at depth 3.  Its weighted path length is 9663676419, above the 8589934596 of the tree
that puts all four symbols at depth 2. -/
theorem buildHuffmanTree_not_optimal_beyond_int :
    buildHuffmanTree (fun _ => 0)
        [(97, 1073741824), (98, 1073741824), (99, 1073741825), (100, 1073741825)]
      = some (HuffmanNode.internal 2
          (HuffmanNode.internal (-1073741823)
            (HuffmanNode.internal (-2147483648) (HuffmanNode.leaf 98 1073741824)
              (HuffmanNode.leaf 97 1073741824))
            (HuffmanNode.leaf 100 1073741825))
          (HuffmanNode.leaf 99 1073741825)) ∧
    (HuffmanNode.internal 2
      (HuffmanNode.internal (-1073741823)
        (HuffmanNode.internal (-2147483648) (HuffmanNode.leaf 98 1073741824)
          (HuffmanNode.leaf 97 1073741824))
        (HuffmanNode.leaf 100 1073741825))
      (HuffmanNode.leaf 99 1073741825)).weightedPathLength = 9663676419 ∧
    (HuffmanNode.internal 0
      (HuffmanNode.internal 0 (HuffmanNode.leaf 97 1073741824) (HuffmanNode.leaf 98 1073741824))
      (HuffmanNode.internal 0 (HuffmanNode.leaf 99 1073741825)
        (HuffmanNode.leaf 100 1073741825))).leaves
      = [(97, 1073741824), (98, 1073741824), (99, 1073741825), (100, 1073741825)] ∧
    (HuffmanNode.internal 0
      (HuffmanNode.internal 0 (HuffmanNode.leaf 97 1073741824) (HuffmanNode.leaf 98 1073741824))
      (HuffmanNode.internal 0 (HuffmanNode.leaf 99 1073741825)
        (HuffmanNode.leaf 100 1073741825))).weightedPathLength = 8589934596 ∧
    ¬ (∀ t : HuffmanNode,
        t.leaves.Perm [(97, 1073741824), (98, 1073741824), (99, 1073741825), (100, 1073741825)] →
        (9663676419 : Int) ≤ t.weightedPathLength) := by
  refine ⟨rfl, rfl, rfl, rfl, ?_⟩
  intro h
  have h1 := h (HuffmanNode.internal 0
      (HuffmanNode.internal 0 (HuffmanNode.leaf 97 1073741824) (HuffmanNode.leaf 98 1073741824))
      (HuffmanNode.internal 0 (HuffmanNode.leaf 99 1073741825)
        (HuffmanNode.leaf 100 1073741825))) (List.Perm.refl _)
  have h2 : (HuffmanNode.internal 0
      (HuffmanNode.internal 0 (HuffmanNode.leaf 97 1073741824) (HuffmanNode.leaf 98 1073741824))
      (HuffmanNode.internal 0 (HuffmanNode.leaf 99 1073741825)
        (HuffmanNode.leaf 100 1073741825))).weightedPathLength = 8589934596 := rfl
  rw [h2] at h1
  omega

/-! ## Weighted path length and the length of the encoded bit string -/

theorem encodeBits_length (codes : CodeTable) (content : List Byte) :
    (encodeBits codes content).length
      = (content.map (fun c => (lookupCode codes c).length)).sum := by
  induction content with
  | nil => simp [encodeBits_nil]
  | cons c cs ih => rw [encodeBits_cons, List.length_append, ih, List.map_cons, List.sum_cons]

theorem sum_indicator_nodup (S : List Byte) (hS : S.Nodup) (x : Byte) (hx : x ∈ S)
    (g : Byte → Nat) : (S.map (fun s => if s = x then g s else 0)).sum = g x := by
  induction S with
  | nil => simp at hx
  | cons s S ih =>
    simp only [List.nodup_cons] at hS
    simp only [List.map_cons, List.sum_cons]
    by_cases hsx : s = x
    · subst hsx
      have hz : (S.map (fun t => if t = s then g t else 0)).sum = 0 := by
        apply List.sum_eq_zero
        intro y hy
        obtain ⟨t, ht, rfl⟩ := List.mem_map.1 hy
        have : t ≠ s := by
          intro e; subst e; exact hS.1 ht
        simp [this]
      simp [hz]
    · have hx2 : x ∈ S := by
        rcases List.mem_cons.1 hx with h | h
        · exact absurd h.symm hsx
        · exact h
      simp [hsx, ih hS.2 hx2]

theorem sum_map_eq_sum_count (content S : List Byte) (hS : S.Nodup)
    (hc : ∀ c ∈ content, c ∈ S) (g : Byte → Nat) :
    (content.map g).sum = (S.map (fun s => content.count s * g s)).sum := by
  induction content with
  | nil => simp
  | cons x xs ih =>
    have hx : x ∈ S := hc x (List.mem_cons_self _ _)
    have h1 : (S.map (fun s => (x :: xs).count s * g s)).sum
        = (S.map (fun s => xs.count s * g s)).sum
          + (S.map (fun s => if s = x then g s else 0)).sum := by
      rw [← List.sum_map_add]
      congr 1
      apply List.map_congr_left
      intro s _
      rw [List.count_cons]
      by_cases hsx : s = x
      · subst hsx
        simp [Nat.add_mul]
      · have : ¬ (x = s) := fun e => hsx e.symm
        simp [hsx, this]
    rw [h1, sum_indicator_nodup S hS x hx g, ← ih (fun c hc2 => hc c (List.mem_cons_of_mem _ hc2))]
    simp [Nat.add_comm]

theorem weightedSum_leafDepths_eq (t : HuffmanNode) : ∀ (k : Nat) (G : Byte → Nat),
    (∀ c p, (c, p) ∈ t.paths → G c = k + p.length) →
    weightedSum (↑(t.leafDepths k) : Multiset (Int × Nat))
      = (t.leaves.map (fun e => e.2 * (G e.1 : Int))).sum := by
  induction t with
  | leaf c f =>
    intro k G hG
    have := hG c [] (by simp [HuffmanNode.paths])
    simp [HuffmanNode.leafDepths, HuffmanNode.leaves, weightedSum, this]
  | internal f l r ihl ihr =>
    intro k G hG
    rw [leafDepths_internal, weightedSum_add]
    rw [ihl (k + 1) G (fun c p hp => by
        have := hG c ('0' :: p) (by
          simp only [HuffmanNode.paths, List.mem_append, List.mem_map]
          exact Or.inl ⟨(c, p), hp, rfl⟩)
        simp only [List.length_cons] at this
        omega)]
    rw [ihr (k + 1) G (fun c p hp => by
        have := hG c ('1' :: p) (by
          simp only [HuffmanNode.paths, List.mem_append, List.mem_map]
          exact Or.inr ⟨(c, p), hp, rfl⟩)
        simp only [List.length_cons] at this
        omega)]
    simp [HuffmanNode.leaves]

/-- For a tree with pairwise distinct symbols whose leaves carry the numbers of
occurrences of their symbols in `content`, the weighted path length is the length of
the bit string `encodeBits` produces for `content`. -/
theorem encodeBits_length_eq_weightedPathLength (t : HuffmanNode) (hn : t.symbols.Nodup)
    (content : List Byte) (hc : ∀ c ∈ content, c ∈ t.symbols)
    (hcount : ∀ e ∈ t.leaves, e.2 = (content.count e.1 : Int)) :
    ((encodeBits (generateCodes t [] []) content).length : Int) = t.weightedPathLength := by
  rw [weightedPathLength_eq, weightedSum_leafDepths_eq t 0
    (fun c => (lookupCode (generateCodes t [] []) c).length) (fun c p hp => by
      simp only [lookupCode]
      rw [findCode_generateCodes_of_nodup t [] [] hn c p hp]
      simp)]
  rw [encodeBits_length, sum_map_eq_sum_count content t.symbols hn hc, symbols_eq_map_leaves,
    List.map_map]
  have : ∀ (L : List (Byte × Int)), (∀ e ∈ L, e.2 = (content.count e.1 : Int)) →
      (((L.map ((fun s => content.count s * (lookupCode (generateCodes t [] []) s).length)
          ∘ Prod.fst)).sum : Nat) : Int)
        = (L.map (fun e => e.2 * ((lookupCode (generateCodes t [] []) e.1).length : Int))).sum := by
    intro L hL
    induction L with
    | nil => simp
    | cons e L ih =>
      simp only [List.map_cons, List.sum_cons, Function.comp]
      rw [← ih (fun x hx => hL x (List.mem_cons_of_mem _ hx)), hL e (List.mem_cons_self _ _)]
      push_cast
      simp [Function.comp]
  exact this t.leaves hcount


/-- C25 (amended): for every non-empty frequency table (so for every table with at least
two entries) whose counts are non-negative and sum to a value of type `int` (at most
2^31 - 1), and every tie-breaking order of the queue, `buildHuffmanTree` returns a tree
whose leaves are the entries of the table and whose weighted path length (the sum over
the leaves of count times depth) is at most that of every binary tree whose leaves are
the entries of the table.  When the table is the frequency map of an input of fewer
than 2^31 bytes, that weighted path length is the length of the bit string `encodeBits`
produces for the input. -/
theorem buildHuffmanTree_optimal (tie : List HuffmanNode → Nat) (m : FreqMap)
    (hne : m ≠ []) (hnn : ∀ e ∈ m, 0 ≤ e.2) (hsum : (m.map Prod.snd).sum < 2147483648) :
    ∃ root, buildHuffmanTree tie m = some root ∧ root.leaves.Perm m ∧
      (∀ t : HuffmanNode, t.leaves.Perm m → root.weightedPathLength ≤ t.weightedPathLength) ∧
      (∀ content : List Byte, content.length < 2147483648 →
        m.Perm (buildFrequencyMap content) →
        ((encodeBits (generateCodes root [] []) content).length : Int)
          = root.weightedPathLength) := by
  obtain ⟨root, hroot, hperm, hopt⟩ := buildHuffmanTree_optimal_aux tie m hne hnn hsum
  refine ⟨root, hroot, hperm, hopt, ?_⟩
  intro content hlen hm
  have hp : root.leaves.Perm (buildFrequencyMap content) := hperm.trans hm
  apply encodeBits_length_eq_weightedPathLength
  · rw [symbols_eq_map_leaves]
    exact ((hp.map Prod.fst).nodup_iff).2 (nodup_keys_buildFrequencyMap content)
  · intro c hc
    rw [symbols_eq_map_leaves]
    exact (hp.map Prod.fst).mem_iff.2 ((keys_buildFrequencyMap content c).2 hc)
  · intro e he
    obtain ⟨k, v⟩ := e
    have h1 := (entry_buildFrequencyMap content k v (hp.mem_iff.1 he)).2
    have h2 : content.count k ≤ content.length := List.count_le_length _ _
    rw [wrapInt_of_inRange _ (by omega) (by omega)] at h1
    exact h1

/-- C25 (witness): the table of the input `aaabc` with the queue taking the first
candidate. -/
theorem buildHuffmanTree_optimal_witness :
    ∃ root, buildHuffmanTree (fun _ => 0) [(97, 3), (98, 1), (99, 1)] = some root ∧
      root.leaves.Perm [(97, 3), (98, 1), (99, 1)] ∧
      (∀ t : HuffmanNode, t.leaves.Perm [(97, 3), (98, 1), (99, 1)] →
        root.weightedPathLength ≤ t.weightedPathLength) ∧
      (∀ content : List Byte, content.length < 2147483648 →
        List.Perm [(97, 3), (98, 1), (99, 1)] (buildFrequencyMap content) →
        ((encodeBits (generateCodes root [] []) content).length : Int)
          = root.weightedPathLength) :=
  buildHuffmanTree_optimal (fun _ => 0) [(97, 3), (98, 1), (99, 1)] (by decide) (by decide)
    (by decide)

end Huffman
